import Mathlib

/-!
Shallow embedding of `deepeval/metrics/dag/nodes.py`: the DAG metric execution
engine.  Nodes (`TaskNode`, `BinaryJudgementNode`, `NonBinaryJudgementNode`,
`VerdictNode`) are dataclass-like objects carrying both static structure
(children, criteria, labels) and mutable execution fields (`_indegree`,
`_output`, `_verdict`, `_parent` / `_parents`).  Execution mutates the node
objects and a shared metric (score, reason, verbose steps, cost).  External
collaborators (the judge model, prompt templates, `trimAndLoadJson`,
`G_EVAL_PARAMS`, `GEval.measure`) live outside the source file and are
modelled as an abstract deterministic environment.
-/

namespace DagNodes

/-- The `verdict` label of a `VerdictNode`: `Union[str, bool]` in the source.
Python equality between a bool and a str is always `False`, which the
cross-constructor case of derived decidable equality reproduces. -/
inductive VerdictVal where
  | bool (b : Bool)
  | str (s : String)
deriving DecidableEq, Repr

/-- Resolved verdict of a judgement node (`BinaryJudgementVerdict` /
`NonBinaryJudgementVerdict` from `deepeval.metrics.dag.schema`): a verdict
value plus a reason string. -/
structure JudgeVerdict where
  verdict : VerdictVal
  reason : String
deriving DecidableEq, Repr

/-- A `ToolCall` value from the test case, identified by its canonical string
form: the engine only ever renders it via `repr(value)`. -/
structure ToolCall where
  reprStr : String
deriving DecidableEq, Repr

/-- A value read off the test case by `getattr(test_case, param.value)`:
either an ordinary value (rendered by `str`) or a `ToolCall` (rendered by
`repr`). -/
inductive CaseValue where
  | str (s : String)
  | tool (t : ToolCall)
deriving DecidableEq, Repr

/-- An opaque specification of a nested `GEval` sub-evaluator; the engine
copies its fields and delegates, so only its identity matters here. -/
structure GEvalSpec where
  name : String
deriving DecidableEq, Repr

/-- The structured content of one verbose-log block produced by
`construct_node_verbose_log`.  The exact text layout is presentation; the
block is determined by the node kind, the depth (`Level == {depth}`) and the
kind-specific fields it interpolates. -/
inductive LogEntry where
  | task (depth : Nat) (instructions outputLabel : String) (output : String)
  | judgement (isBinary : Bool) (depth : Nat) (criteria : String)
      (verdict : VerdictVal) (reason : String)
  | vlog (depth : Nat) (label : VerdictVal) (isGEval : Bool)
deriving DecidableEq, Repr

/-- Prompts handed to the judge model.  The concrete template classes are
external; a prompt is identified by which template built it and the data
interpolated into it. -/
inductive Prompt where
  | taskP (instructions text : String)
  | binaryP (criteria text : String)
  | nonBinaryP (criteria text : String) (options : List String)
  | reasonP (verboseSteps : List LogEntry) (score : Option Rat) (name : String)
deriving DecidableEq, Repr

/-- The schema argument passed to `model.generate(prompt, schema=...)`:
`Reason`, `BinaryJudgementVerdict`, or the dynamically created
`NonBinaryJudgementVerdict` whose `verdict` field is constrained to the
cached label options. -/
inductive SchemaTag where
  | reasonT
  | binaryT
  | nonBinaryT (options : List String)
deriving DecidableEq, Repr

/-- A schema-conforming structured result returned by the judge (or rebuilt
by the manual-extraction fallback). -/
inductive SchemaRes where
  | reasonR (reason : String)
  | binaryR (verdict : Bool) (reason : String)
  | nonBinaryR (verdict : String) (reason : String)
deriving DecidableEq, Repr

/-- Python exceptions the engine can raise or propagate. -/
inductive PyErr where
  | typeErr
  | valueErr (msg : String)
  | attrErr
  | extractionErr
  | judgeErr
  | fuelErr
deriving DecidableEq, Repr

/-- The four concrete node classes. -/
inductive NodeKind where
  | task
  | binaryJudgement
  | nonBinaryJudgement
  | verdict
deriving DecidableEq, Repr

/-- One node object.  Fields unused by a kind keep their defaults, mirroring
the dataclass layout: `parentL` is the single `_parent` slot of
`VerdictNode`; `parentsL` is the `_parents` list of the other kinds (`none`
until the first `set_parent`, as in the source where it starts as `None`). -/
structure NodeObj where
  kind : NodeKind
  instructions : String := ""
  outputLabel : String := ""
  criteria : String := ""
  evaluationParams : Option (List String) := none
  children : List Nat := []
  verdictOptions : List String := []
  label : VerdictVal := .bool true
  score : Option Int := none
  gEval : Option GEvalSpec := none
  parentL : Option Nat := none
  parentsL : Option (List Nat) := none
  output : Option String := none
  verdictV : Option JudgeVerdict := none
  indegreeN : Option Int := none
deriving DecidableEq, Repr

/-- The node heap: node objects addressed by identity. -/
abbrev NodeList := List (Nat × NodeObj)

/-- Full mutable execution state: the node heap plus the shared metric sinks
(`metric.score`, `metric.reason`, `metric._verbose_steps`,
`metric.evaluation_cost`). -/
structure ExecState where
  nodes : NodeList
  score : Option Rat := none
  reason : Option String := none
  verboseSteps : List LogEntry := []
  evaluationCost : Rat := 0
deriving DecidableEq

/-- The deterministic external environment: the judge model, the test case,
the `G_EVAL_PARAMS` label table, the `trimAndLoadJson`-plus-schema-validation
extraction, the nested `GEval` evaluator, and the metric configuration
flags. -/
structure Env where
  usingNativeModel : Bool
  includeReason : Bool
  metricName : String
  testCase : String → CaseValue
  gEvalParamLabel : String → String
  generate : Prompt → String × Rat
  generateSchema : Prompt → SchemaTag → Except Unit (SchemaRes × Rat)
  parse : SchemaTag → String → Except Unit SchemaRes
  gevalMeasure : GEvalSpec → Rat × String

/-- Look a node up by identity. -/
def lookupNode (nodes : NodeList) (id : Nat) : Option NodeObj :=
  (List.lookup id nodes)

/-- Apply an update to the node object stored at `id` (Python mutates the
object in place; the heap view replaces the entry). -/
def updateNode : NodeList → Nat → (NodeObj → NodeObj) → NodeList
  | [], _, _ => []
  | (k, v) :: t, id, f => (if k = id then (k, f v) else (k, v)) :: updateNode t id f

/-- Render an optional string exactly as a Python f-string renders the slot:
`None` prints as `"None"`. -/
def optStr : Option String → String
  | none => "None"
  | some s => s

/-- Render a test-case value as the engine interpolates it: a `ToolCall` is
first replaced by `repr(value)`. -/
def renderValue : CaseValue → String
  | .str s => s
  | .tool t => t.reprStr

/-- `increment_indegree` (nodes.py:47-51): `None` becomes `1`, otherwise the
counter is increased by one. -/
def increment_indegree : Option Int → Option Int
  | none => some 1
  | some n => some (n + 1)

/-- `decrement_indegree` (nodes.py:54-58): `None` becomes `0`, otherwise the
counter is decreased by one. -/
def decrement_indegree : Option Int → Option Int
  | none => some 0
  | some n => some (n - 1)

/-- `BaseNode.set_parent` (nodes.py:26-32): a `VerdictNode` has the single
`_parent` attribute and gets it assigned; the other kinds have the
`_parents` list, created on first use and appended to. -/
def setParentObj (parent : Nat) (o : NodeObj) : NodeObj :=
  match o.kind with
  | .verdict => { o with parentL := some parent }
  | _ =>
    match o.parentsL with
    | none => { o with parentsL := some [parent] }
    | some l => { o with parentsL := some (l ++ [parent]) }

/-- Register `parent` on child `c` and increment the child's indegree: the
builder step performed for every declared child in each `__post_init__`. -/
def wireChild (nodes : NodeList) (parent c : Nat) : NodeList :=
  updateNode nodes c (fun o =>
    { setParentObj parent o with indegreeN := increment_indegree o.indegreeN })

instance : Inhabited VerdictVal := ⟨.bool true⟩

/-- `construct_node_verbose_log` (nodes.py:579-618), at the level of the
structured block content.  Execution only calls it after the node's dynamic
fields are set; the defaults are never observed on those calls. -/
def construct_node_verbose_log (o : NodeObj) (depth : Nat) : LogEntry :=
  match o.kind with
  | .binaryJudgement =>
      .judgement true depth o.criteria
        (o.verdictV.map (·.verdict)).iget ((o.verdictV.map (·.reason)).iget)
  | .nonBinaryJudgement =>
      .judgement false depth o.criteria
        (o.verdictV.map (·.verdict)).iget ((o.verdictV.map (·.reason)).iget)
  | .task => .task depth o.instructions o.outputLabel (optStr o.output)
  | .verdict => .vlog depth o.label (o.gEval.isSome)

/-- The ancestor-context prefix of the judge text: for each parent, in parent
order, a `TaskNode` parent contributes `f"{parent.output_label}:\n{parent._output}"`
plus a separator (`"\n\n"` in `TaskNode._execute` and
`BinaryJudgementNode._execute`, `"\n"` in `NonBinaryJudgementNode._execute`);
non-task parents contribute nothing. -/
def appendParents (nodes : NodeList) (sep : String) (acc : String)
    (ps : List Nat) : String :=
  ps.foldl (fun acc p =>
    match lookupNode nodes p with
    | some o =>
        if o.kind = .task then acc ++ o.outputLabel ++ ":\n" ++ optStr o.output ++ sep
        else acc
    | none => acc) acc

/-- The evaluation-parameter suffix of the judge text: for each configured
parameter in order, `f"{G_EVAL_PARAMS[param]}:\n{value}\n"` where `value` is
read from the test case and a `ToolCall` is rendered via `repr`. -/
def appendParams (env : Env) (acc : String) (ps : List String) : String :=
  ps.foldl (fun acc param =>
    acc ++ env.gEvalParamLabel param ++ ":\n" ++ renderValue (env.testCase param) ++ "\n") acc

/-- The schema-constrained generation of the non-native ("generic") judge
path (`try: ... generate(prompt, schema=...) except TypeError: ...`,
nodes.py:369-377 and analogues): try the schema call; on a `TypeError`
retry the same prompt without a schema and rebuild the structured value by
manual extraction (`trimAndLoadJson` + schema construction); an extraction
failure propagates. -/
def genericResolve (env : Env) (prompt : Prompt) (tag : SchemaTag) :
    Except PyErr SchemaRes :=
  match env.generateSchema prompt tag with
  | .ok (res, _) => .ok res
  | .error _ =>
    match env.parse tag (env.generate prompt).1 with
    | .ok res => .ok res
    | .error _ => .error .extractionErr

/-- The sequence of judge invocations performed by `genericResolve`, each
recorded as the prompt together with the schema passed (`none` = no
schema). -/
def genericResolveCalls (env : Env) (prompt : Prompt) (tag : SchemaTag) :
    List (Prompt × Option SchemaTag) :=
  match env.generateSchema prompt tag with
  | .ok _ => [(prompt, some tag)]
  | .error _ => [(prompt, some tag), (prompt, none)]

/-- Schema-constrained generation as each node performs it: the native judge
path returns `(result, cost)` and propagates its own failures; the generic
path is `genericResolve` and never accrues cost. -/
def resolveSchema (env : Env) (prompt : Prompt) (tag : SchemaTag) :
    Except PyErr (SchemaRes × Rat) :=
  if env.usingNativeModel then
    match env.generateSchema prompt tag with
    | .ok rc => .ok rc
    | .error _ => .error .judgeErr
  else
    match genericResolve env prompt tag with
    | .ok res => .ok (res, 0)
    | .error e => .error e

/-- The join synchronizer prelude shared by every `_execute` body
(`decrement_indegree(self); if self._indegree != 0: return`): decrement the
node's counter in place and report whether execution proceeds past the
check. -/
def joinCheck (s : ExecState) (id : Nat) : ExecState × Bool :=
  match lookupNode s.nodes id with
  | none => (s, false)
  | some o =>
    let c := decrement_indegree o.indegreeN
    ({ s with nodes := updateNode s.nodes id (fun o' => { o' with indegreeN := c }) },
     c == some 0)

/-- The tail of `VerdictNode._execute` (nodes.py:99-120) reached once the
join check and the gate have both passed: append the verbose-log block,
then either delegate to the nested `GEval` evaluator or assign the
normalized fixed score `score / 10` (and, when reasons are requested,
generate the reason from the accumulated log, the fresh score and the
metric name). -/
def verdictProceed (env : Env) (depth : Nat) (o : NodeObj) (s : ExecState) :
    Except PyErr (ExecState × List (Nat × Nat)) :=
  let s1 := { s with verboseSteps := s.verboseSteps ++ [construct_node_verbose_log o depth] }
  match o.gEval with
  | some spec =>
    let m := env.gevalMeasure spec
    .ok ({ s1 with score := some m.1,
                   reason := if env.includeReason then some m.2 else s1.reason }, [])
  | none =>
    match o.score with
    | none => .error .typeErr
    | some n =>
      let s2 := { s1 with score := some ((n : Rat) / 10) }
      if env.includeReason then
        match resolveSchema env (.reasonP s2.verboseSteps s2.score env.metricName) .reasonT with
        | .ok (.reasonR r, cost) =>
            .ok ({ s2 with reason := some r,
                           evaluationCost := s2.evaluationCost + cost }, [])
        | .ok _ => .error .judgeErr
        | .error e => .error e
      else .ok (s2, [])

/-- The body of a node's `_execute` after the join check has passed, acting
on the already-decremented node object `o`; returns the updated state and
the `(child, depth+1)` visits the node performs on its children.  Cases
mirror `VerdictNode._execute` (88-120), `TaskNode._execute` (225-258),
`BinaryJudgementNode._execute` (341-383) and
`NonBinaryJudgementNode._execute` (486-527); the `_a_execute` bodies are
line-for-line identical up to how the child visits are scheduled. -/
def nodeBodyCore (env : Env) (depth id : Nat) (o : NodeObj) (s : ExecState) :
    Except PyErr (ExecState × List (Nat × Nat)) :=
  match o.kind with
  | .verdict =>
    -- the verdict gate (93-97)
    let gateBlocks : Except PyErr Bool :=
      match o.parentL with
      | some p =>
        match lookupNode s.nodes p with
        | some po =>
          if po.kind = .binaryJudgement ∨ po.kind = .nonBinaryJudgement then
            match po.verdictV with
            | none => .error .attrErr
            | some jv => .ok (jv.verdict != o.label)
          else .ok false
        | none => .ok false
      | none => .ok false
    match gateBlocks with
    | .error e => .error e
    | .ok true => .ok (s, [])
    | .ok false => verdictProceed env depth o s
  | .task =>
    let text0 :=
      match o.parentsL with
      | none => ""
      | some ps => appendParents s.nodes "\n\n" "" ps
    match o.evaluationParams with
    | none => .error .typeErr
    | some prs =>
      let text := appendParams env text0 prs
      let gen := env.generate (.taskP o.instructions text)
      let addCost : Rat := if env.usingNativeModel then gen.2 else 0
      let o1 := { o with output := some gen.1 }
      let s1 := { s with nodes := updateNode s.nodes id (fun o' => { o' with output := some gen.1 }),
                         evaluationCost := s.evaluationCost + addCost }
      let s2 := { s1 with verboseSteps := s1.verboseSteps ++ [construct_node_verbose_log o1 depth] }
      .ok (s2, o.children.map (fun c => (c, depth + 1)))
  | .binaryJudgement =>
    match o.parentsL with
    | none => .error .typeErr
    | some ps =>
      let text0 := appendParents s.nodes "\n\n" "" ps
      let text :=
        match o.evaluationParams with
        | none => text0
        | some prs => appendParams env text0 prs
      match resolveSchema env (.binaryP o.criteria text) .binaryT with
      | .ok (.binaryR b r, cost) =>
        let jv : JudgeVerdict := ⟨.bool b, r⟩
        let o1 := { o with verdictV := some jv }
        let s1 := { s with nodes := updateNode s.nodes id (fun o' => { o' with verdictV := some jv }),
                           evaluationCost := s.evaluationCost + cost }
        let s2 := { s1 with verboseSteps := s1.verboseSteps ++ [construct_node_verbose_log o1 depth] }
        .ok (s2, o.children.map (fun c => (c, depth + 1)))
      | .ok _ => .error .judgeErr
      | .error e => .error e
  | .nonBinaryJudgement =>
    match o.parentsL with
    | none => .error .typeErr
    | some ps =>
      let text0 := appendParents s.nodes "\n" "" ps
      let text :=
        match o.evaluationParams with
        | none => text0
        | some prs => appendParams env text0 prs
      match resolveSchema env (.nonBinaryP o.criteria text o.verdictOptions)
              (.nonBinaryT o.verdictOptions) with
      | .ok (.nonBinaryR v r, cost) =>
        let jv : JudgeVerdict := ⟨.str v, r⟩
        let o1 := { o with verdictV := some jv }
        let s1 := { s with nodes := updateNode s.nodes id (fun o' => { o' with verdictV := some jv }),
                           evaluationCost := s.evaluationCost + cost }
        let s2 := { s1 with verboseSteps := s1.verboseSteps ++ [construct_node_verbose_log o1 depth] }
        .ok (s2, o.children.map (fun c => (c, depth + 1)))
      | .ok _ => .error .judgeErr
      | .error e => .error e

/-- One visit to a node: the join-check prelude followed, when the counter
reaches zero, by the node body. -/
def nodeBody (env : Env) (id depth : Nat) (s : ExecState) :
    Except PyErr (ExecState × List (Nat × Nat)) :=
  let jc := joinCheck s id
  if jc.2 then
    match lookupNode jc.1.nodes id with
    | some o => nodeBodyCore env depth id o jc.1
    | none => .ok (jc.1, [])
  else .ok (jc.1, [])

/-- The sequential strategy (`_execute`): strict depth-first recursion, each
child visit completing (with its whole subtree) before the next sibling
begins.  Fuel bounds the recursion depth of the embedding only. -/
def seqExec (env : Env) : Nat → Nat → Nat → ExecState → Except PyErr ExecState
  | 0, _, _, _ => .error .fuelErr
  | fuel + 1, id, depth, s =>
    match nodeBody env id depth s with
    | .error e => .error e
    | .ok (s', cs) => cs.foldlM (fun t c => seqExec env fuel c.1 c.2 t) s'

/-- The parallel strategy (`_a_execute`): every fan-out point launches the
child visits as asyncio tasks.  The event loop runs ready callbacks in FIFO
order and, with a judge whose coroutines complete without suspending, each
task body runs atomically and `asyncio.gather` appends the child visits to
the back of the ready queue while the parent suspends; the state evolution
is therefore FIFO worklist processing (breadth-first). -/
def parExec (env : Env) : Nat → List (Nat × Nat) → ExecState → Except PyErr ExecState
  | _, [], s => .ok s
  | 0, _ :: _, _ => .error .fuelErr
  | fuel + 1, c :: rest, s =>
    match nodeBody env c.1 c.2 s with
    | .error e => .error e
    | .ok (s', cs) => parExec env fuel (rest ++ cs) s'

/-- `VerdictNode.__post_init__` (nodes.py:71-86): exactly one of `score` /
`g_eval` must be given, and a given `score` must lie in `[0, 10]`
inclusive; on success the dataclass instance is returned. -/
def VerdictNode.postInit (label : VerdictVal) (score : Option Int)
    (gEval : Option GEvalSpec) : Except PyErr NodeObj :=
  if score.isSome && gEval.isSome then
    .error (.valueErr "A VerdictNode can have either a score or a g_eval, but not both.")
  else if score.isNone && gEval.isNone then
    .error (.valueErr "A VerdictNode must have either a score or a g_eval.")
  else
    match score with
    | some n =>
      if !(decide (0 ≤ n) && decide (n ≤ 10)) then
        .error (.valueErr "The score must be between 0 and 10, inclusive.")
      else .ok { kind := .verdict, label := label, score := score, gEval := gEval }
    | none => .ok { kind := .verdict, label := label, score := score, gEval := gEval }

/-- `TaskNode.__post_init__` (nodes.py:214-223): reject a `VerdictNode`
child, then register the parent link and increment the indegree of every
declared child.  The freshly constructed node object is added to the heap at
`selfId`. -/
def TaskNode.postInit (nodes : NodeList) (selfId : Nat)
    (instructions outputLabel : String) (evaluationParams : Option (List String))
    (childIds : List Nat) : Except PyErr NodeList :=
  if childIds.any (fun c =>
      match lookupNode nodes c with
      | some o => o.kind == .verdict
      | none => false) then
    .error (.valueErr "A TaskNode must not have a VerdictNode as one of their children.")
  else
    let obj : NodeObj :=
      { kind := .task, instructions := instructions, outputLabel := outputLabel,
        evaluationParams := evaluationParams, children := childIds }
    let nodes1 := (selfId, obj) :: nodes
    .ok (childIds.foldl (fun ns c => wireChild ns selfId c) nodes1)

/-- The per-child type checks of `BinaryJudgementNode.__post_init__`
(nodes.py:322-328): every child must be a `VerdictNode` (else `TypeError`)
whose `verdict` is a bool (else `ValueError`), checked in child order. -/
def checkBinaryChildren (nodes : NodeList) : List Nat → Except PyErr Unit
  | [] => .ok ()
  | c :: rest =>
    match lookupNode nodes c with
    | none => .error .typeErr
    | some o =>
      if o.kind ≠ .verdict then .error .typeErr
      else
        match o.label with
        | .bool _ => checkBinaryChildren nodes rest
        | .str _ => .error (.valueErr "All children BinaryJudgementNode must have a boolean vedict.")

/-- `BinaryJudgementNode.__post_init__` (nodes.py:315-339): exactly two
children, all `VerdictNode` with bool verdicts, exactly one `True` and one
`False`; then the node is created and each child is wired (parent set,
indegree incremented). -/
def BinaryJudgementNode.postInit (nodes : NodeList) (selfId : Nat)
    (criteria : String) (evaluationParams : Option (List String))
    (childIds : List Nat) : Except PyErr NodeList :=
  if childIds.length ≠ 2 then
    .error (.valueErr "BinaryJudgementNode must have exactly 2 children.")
  else
    match checkBinaryChildren nodes childIds with
    | .error e => .error e
    | .ok _ =>
      let verdicts := childIds.map (fun c => ((lookupNode nodes c).map (·.label)).iget)
      if verdicts.count (.bool true) ≠ 1 || verdicts.count (.bool false) ≠ 1 then
        .error (.valueErr "BinaryJudgementNode must have one True and one False VerdictNode child.")
      else
        let obj : NodeObj :=
          { kind := .binaryJudgement, criteria := criteria,
            evaluationParams := evaluationParams, children := childIds }
        let nodes1 := (selfId, obj) :: nodes
        .ok (childIds.foldl (fun ns c => wireChild ns selfId c) nodes1)

/-- The per-child loop of `NonBinaryJudgementNode.__post_init__`
(nodes.py:455-471): every child must be a `VerdictNode` (`TypeError`) with a
string verdict (`ValueError`), and a verdict already seen raises a duplicate
`ValueError`; the accumulated list of fresh labels is returned. -/
def checkNonBinaryChildren (nodes : NodeList) :
    List Nat → List String → Except PyErr (List String)
  | [], seen => .ok seen
  | c :: rest, seen =>
    match lookupNode nodes c with
    | none => .error .typeErr
    | some o =>
      if o.kind ≠ .verdict then .error .typeErr
      else
        match o.label with
        | .str v =>
          if v ∈ seen then .error (.valueErr ("Duplicate verdict found: " ++ v))
          else checkNonBinaryChildren nodes rest (seen ++ [v])
        | .bool _ => .error (.valueErr "The verdict attribute of all children must be a string.")

/-- `NonBinaryJudgementNode.__post_init__` (nodes.py:448-484): a non-empty
list of `VerdictNode` children with pairwise-distinct string verdicts; the
label set is cached on the node as `_verdict_options` (the source stores
`list(verdicts_set)`, whose iteration order is unspecified — theorems about
the cache only use membership), and each child is wired. -/
def NonBinaryJudgementNode.postInit (nodes : NodeList) (selfId : Nat)
    (criteria : String) (evaluationParams : Option (List String))
    (childIds : List Nat) : Except PyErr NodeList :=
  if childIds.isEmpty then
    .error (.valueErr "NonBinaryJudgementNode must have at least one child.")
  else
    match checkNonBinaryChildren nodes childIds [] with
    | .error e => .error e
    | .ok options =>
      let obj : NodeObj :=
        { kind := .nonBinaryJudgement, criteria := criteria,
          evaluationParams := evaluationParams, verdictOptions := options,
          children := childIds }
      let nodes1 := (selfId, obj) :: nodes
      .ok (childIds.foldl (fun ns c => wireChild ns selfId c) nodes1)

/-- Fresh execution state over a node heap: no score, no reason, empty
verbose log, zero cost. -/
def initState (nodes : NodeList) : ExecState := { nodes := nodes }

theorem lookupNode_updateNode (nodes : NodeList) (id j : Nat) (f : NodeObj → NodeObj) :
    lookupNode (updateNode nodes id f) j =
      if j = id then (lookupNode nodes j).map f else lookupNode nodes j := by
  induction nodes with
  | nil => simp [lookupNode, updateNode, List.lookup]
  | cons a t ih =>
    obtain ⟨k, v⟩ := a
    simp only [lookupNode] at ih ⊢
    simp only [updateNode]
    by_cases h1 : k = id
    · rw [if_pos h1]
      subst h1
      by_cases h2 : j = k
      · subst h2
        simp [List.lookup]
      · have hb : (j == k) = false := by simp [h2]
        simp [List.lookup, hb, ih, h2]
    · rw [if_neg h1]
      by_cases h2 : j = k
      · have hb : (j == k) = true := by simp [h2]
        have hj : ¬ j = id := fun hc => h1 (h2.symm.trans hc)
        simp [List.lookup, hb, hj]
      · have hb : (j == k) = false := by simp [h2]
        simp [List.lookup, hb, ih]

theorem joinCheck_eq (s : ExecState) (id : Nat) (o : NodeObj)
    (h : lookupNode s.nodes id = some o) :
    joinCheck s id =
      ({ s with
          nodes := updateNode s.nodes id
            (fun o' => { o' with indegreeN := decrement_indegree o.indegreeN }) },
       decrement_indegree o.indegreeN == some 0) := by
  simp [joinCheck, h]

/-- An early-returning visit changes nothing but the counter: the node body
is skipped, no children are visited. -/
theorem nodeBody_early (env : Env) (id depth : Nat) (s : ExecState) (o : NodeObj) (k : Int)
    (h : lookupNode s.nodes id = some o) (hk : o.indegreeN = some k) (hk1 : k ≠ 1) :
    nodeBody env id depth s =
      .ok ({ s with
              nodes := updateNode s.nodes id
                (fun o' => { o' with indegreeN := some (k - 1) }) }, []) := by
  have hd : decrement_indegree o.indegreeN = some (k - 1) := by
    simp [decrement_indegree, hk]
  have hne : ((some (k - 1) : Option Int) == some 0) = false := by
    simp only [beq_eq_false_iff_ne, ne_eq, Option.some.injEq]
    intro hc
    exact hk1 (by omega)
  unfold nodeBody
  rw [joinCheck_eq s id o h, hd]
  simp only [hne, Bool.false_eq_true, if_false]

/-- A visit whose decrement reaches zero proceeds into the node body, acting
on the decremented node object. -/
theorem nodeBody_pass (env : Env) (id depth : Nat) (s : ExecState) (o : NodeObj)
    (h : lookupNode s.nodes id = some o)
    (hpass : decrement_indegree o.indegreeN = some 0) :
    nodeBody env id depth s =
      nodeBodyCore env depth id { o with indegreeN := decrement_indegree o.indegreeN }
        { s with
            nodes := updateNode s.nodes id
              (fun o' => { o' with indegreeN := decrement_indegree o.indegreeN }) } := by
  unfold nodeBody
  rw [joinCheck_eq s id o h]
  simp only [hpass, beq_self_eq_true, if_true]
  rw [lookupNode_updateNode]
  simp [h, hpass]

/-- C10 — `decrement_indegree` maps a `None` counter to `0` and otherwise
subtracts one; consequently a node whose indegree was never incremented (a
root, registered as nobody's child, counter still `None`) passes the join
check and its body executes on its very first visit. -/
theorem C10_decrement_none_root_executes :
    (decrement_indegree none = some 0) ∧
    (∀ k : Int, decrement_indegree (some k) = some (k - 1)) ∧
    (∀ (env : Env) (s : ExecState) (id depth : Nat) (o : NodeObj),
      lookupNode s.nodes id = some o → o.indegreeN = none →
      (joinCheck s id).2 = true ∧
      nodeBody env id depth s =
        nodeBodyCore env depth id { o with indegreeN := some 0 }
          { s with
              nodes := updateNode s.nodes id
                (fun o' => { o' with indegreeN := some 0 }) }) := by
  refine ⟨rfl, fun k => rfl, fun env s id depth o h hnone => ?_⟩
  have hd : decrement_indegree o.indegreeN = some 0 := by simp [decrement_indegree, hnone]
  constructor
  · rw [joinCheck_eq s id o h]
    simp [hd]
  · have hb := nodeBody_pass env id depth s o h hd
    rw [hd] at hb
    exact hb

/-- A deterministic stub environment used by concrete witnesses. -/
def trivEnv : Env :=
  { usingNativeModel := true
    includeReason := false
    metricName := "metric"
    testCase := fun _ => .str "input"
    gEvalParamLabel := fun s => s
    generate := fun _ => ("generated", 0)
    generateSchema := fun _ t =>
      match t with
      | .binaryT => .ok (.binaryR true "because", 0)
      | .nonBinaryT os => .ok (.nonBinaryR (os.headD "") "because", 0)
      | .reasonT => .ok (.reasonR "because", 0)
    parse := fun _ _ => .error ()
    gevalMeasure := fun _ => (0, "") }

/-- C1 — one evaluation pass executes a node's body at most once.  A node
registered with `N` incoming edges starts with counter `N` (`N` increments
from `None`); a visit finding counter `k ≠ 1` (any visit before the `N`-th,
and any visit after the counter has reached `0`) only decrements the counter
and returns: no output write, no log entry, no child visits; and the join
check passes exactly when the pre-visit counter is `1`, i.e. on the `N`-th
visit. -/
theorem C1_body_executes_at_most_once :
    (∀ N : Nat, 1 ≤ N → increment_indegree^[N] none = some (N : Int)) ∧
    (∀ (env : Env) (id depth : Nat) (s : ExecState) (o : NodeObj) (k : Int),
      lookupNode s.nodes id = some o → o.indegreeN = some k → k ≠ 1 →
      nodeBody env id depth s =
        .ok ({ s with
                nodes := updateNode s.nodes id
                  (fun o' => { o' with indegreeN := some (k - 1) }) }, [])) ∧
    (∀ (s : ExecState) (id : Nat) (o : NodeObj) (k : Int),
      lookupNode s.nodes id = some o → o.indegreeN = some k →
      ((joinCheck s id).2 = true ↔ k = 1)) := by
  refine ⟨?_, ?_, ?_⟩
  · intro N hN
    induction N with
    | zero => omega
    | succ n ihn =>
      rcases Nat.eq_or_lt_of_le hN with h1 | h1
      · have hn0 : n = 0 := by omega
        subst hn0
        rfl
      · have hn : 1 ≤ n := by omega
        rw [Function.iterate_succ_apply', ihn hn]
        simp only [increment_indegree, Option.some.injEq]
        push_cast
        ring
  · intro env id depth s o k h hk hk1
    exact nodeBody_early env id depth s o k h hk hk1
  · intro s id o k h hk
    rw [joinCheck_eq s id o h]
    simp only [decrement_indegree, hk, beq_iff_eq, Option.some.injEq]
    omega

theorem C1_witness :
    (increment_indegree^[2] none = some (2 : Int)) ∧
    (nodeBody trivEnv 0 0 (initState [(0, { kind := .verdict, score := some 5, indegreeN := some 2 })]) =
      .ok ({ initState [(0, { kind := .verdict, score := some 5, indegreeN := some 2 })] with
              nodes := updateNode (initState [(0, { kind := .verdict, score := some 5, indegreeN := some 2 })]).nodes 0
                (fun o' => { o' with indegreeN := some ((2 : Int) - 1) }) }, [])) ∧
    ((joinCheck (initState [(0, { kind := .verdict, score := some 5, indegreeN := some 1 })]) 0).2 = true ↔ (1 : Int) = 1) :=
  ⟨C1_body_executes_at_most_once.1 2 (by norm_num),
   C1_body_executes_at_most_once.2.1 trivEnv 0 0 _ _ 2 rfl rfl (by norm_num),
   C1_body_executes_at_most_once.2.2 _ 0 _ 1 rfl rfl⟩

/-- C2 — the verdict gate: after the join check, a `VerdictNode` whose
parent is a judgement node compares its static label with the parent's
resolved verdict; on mismatch it returns with no side effect at all (state
returned unchanged: no log entry, `metric.score` and `metric.reason`
untouched); on a match, or when the parent is not a judgement node (a
never-registered root), execution proceeds into the post-gate body. -/
theorem C2_gate_prunes_silently :
    (∀ (env : Env) (depth id p : Nat) (o po : NodeObj) (jv : JudgeVerdict) (s : ExecState),
      o.kind = .verdict → o.parentL = some p → lookupNode s.nodes p = some po →
      (po.kind = .binaryJudgement ∨ po.kind = .nonBinaryJudgement) →
      po.verdictV = some jv → jv.verdict ≠ o.label →
      nodeBodyCore env depth id o s = .ok (s, [])) ∧
    (∀ (env : Env) (depth id p : Nat) (o po : NodeObj) (jv : JudgeVerdict) (s : ExecState),
      o.kind = .verdict → o.parentL = some p → lookupNode s.nodes p = some po →
      (po.kind = .binaryJudgement ∨ po.kind = .nonBinaryJudgement) →
      po.verdictV = some jv → jv.verdict = o.label →
      nodeBodyCore env depth id o s = verdictProceed env depth o s) ∧
    (∀ (env : Env) (depth id p : Nat) (o po : NodeObj) (s : ExecState),
      o.kind = .verdict → o.parentL = some p → lookupNode s.nodes p = some po →
      po.kind = .task →
      nodeBodyCore env depth id o s = verdictProceed env depth o s) ∧
    (∀ (env : Env) (depth id : Nat) (o : NodeObj) (s : ExecState),
      o.kind = .verdict → o.parentL = none →
      nodeBodyCore env depth id o s = verdictProceed env depth o s) := by
  refine ⟨?_, ?_, ?_, ?_⟩
  · intro env depth id p o po jv s hk hp hl hj hv hne
    have hb : (jv.verdict != o.label) = true := by
      simp [bne_iff_ne, hne]
    unfold nodeBodyCore
    simp only [hk, hp, hl, hv]
    rw [if_pos hj]
    simp [hb]
  · intro env depth id p o po jv s hk hp hl hj hv heq
    have hb : (jv.verdict != o.label) = false := by
      simp [bne_eq_false_iff_eq, heq]
    unfold nodeBodyCore
    simp only [hk, hp, hl, hv]
    rw [if_pos hj]
    simp [hb]
  · intro env depth id p o po s hk hp hl hpo
    have hj : ¬(po.kind = .binaryJudgement ∨ po.kind = .nonBinaryJudgement) := by
      rw [hpo]
      rintro (hc | hc) <;> cases hc
    unfold nodeBodyCore
    simp only [hk, hp, hl]
    rw [if_neg hj]
  · intro env depth id o s hk hp
    unfold nodeBodyCore
    simp only [hk, hp]

theorem C2_witness :
    (nodeBodyCore trivEnv 1 1
        { kind := .verdict, label := .bool false, score := some 0, parentL := some 0, indegreeN := some 0 }
        (initState [(0, { kind := .binaryJudgement, verdictV := some ⟨.bool true, "r"⟩ })]) =
      .ok (initState [(0, { kind := .binaryJudgement, verdictV := some ⟨.bool true, "r"⟩ })], [])) ∧
    (nodeBodyCore trivEnv 1 1
        { kind := .verdict, label := .bool true, score := some 10, parentL := some 0, indegreeN := some 0 }
        (initState [(0, { kind := .binaryJudgement, verdictV := some ⟨.bool true, "r"⟩ })]) =
      verdictProceed trivEnv 1
        { kind := .verdict, label := .bool true, score := some 10, parentL := some 0, indegreeN := some 0 }
        (initState [(0, { kind := .binaryJudgement, verdictV := some ⟨.bool true, "r"⟩ })])) :=
  ⟨C2_gate_prunes_silently.1 trivEnv 1 1 0 _ _ ⟨.bool true, "r"⟩ _ rfl rfl rfl (Or.inl rfl) rfl
      (by decide),
   C2_gate_prunes_silently.2.1 trivEnv 1 1 0 _ _ ⟨.bool true, "r"⟩ _ rfl rfl rfl (Or.inl rfl) rfl
      (by decide)⟩

/-- C6 — `VerdictNode` construction succeeds exactly when exactly one of
`score` / `g_eval` is given and a given score lies in `[0, 10]`; `score=11`
fails while `score=10` and `score=0` succeed; and at execution a fixed score
`s` is normalized to the final metric score `s / 10`, so `10 ↦ 1.0` and
`0 ↦ 0.0`. -/
theorem C6_verdict_construction_and_normalization :
    (∀ (label : VerdictVal) (score : Option Int) (gEval : Option GEvalSpec),
      (∃ o, VerdictNode.postInit label score gEval = .ok o) ↔
        (((score ≠ none ∧ gEval = none) ∨ (score = none ∧ gEval ≠ none)) ∧
          (∀ n, score = some n → 0 ≤ n ∧ n ≤ 10))) ∧
    (∀ label, VerdictNode.postInit label (some 11) none =
      .error (.valueErr "The score must be between 0 and 10, inclusive.")) ∧
    (∀ label, VerdictNode.postInit label (some 10) none =
      .ok { kind := .verdict, label := label, score := some 10, gEval := none }) ∧
    (∀ label, VerdictNode.postInit label (some 0) none =
      .ok { kind := .verdict, label := label, score := some 0, gEval := none }) ∧
    (∀ (env : Env) (depth : Nat) (o : NodeObj) (s s' : ExecState)
        (cs : List (Nat × Nat)) (n : Int),
      o.gEval = none → o.score = some n →
      verdictProceed env depth o s = .ok (s', cs) →
      s'.score = some ((n : Rat) / 10)) ∧
    ((10 : Rat) / 10 = 1 ∧ (0 : Rat) / 10 = 0) := by
  refine ⟨?_, ?_, ?_, ?_, ?_, by norm_num⟩
  · intro label score gEval
    cases score with
    | none =>
      cases gEval with
      | none => simp [VerdictNode.postInit]
      | some g => simp [VerdictNode.postInit]
    | some n =>
      cases gEval with
      | none =>
        by_cases h0 : 0 ≤ n
        · by_cases h10 : n ≤ 10
          · simp [VerdictNode.postInit, h0, h10]
          · simp [VerdictNode.postInit, h0, h10]
        · simp [VerdictNode.postInit, h0]
      | some g => simp [VerdictNode.postInit]
  · intro label
    simp [VerdictNode.postInit]
  · intro label
    simp [VerdictNode.postInit]
  · intro label
    simp [VerdictNode.postInit]
  · intro env depth o s s' cs n hg hn hok
    unfold verdictProceed at hok
    simp only [hg, hn] at hok
    by_cases hr : env.includeReason
    · rw [if_pos hr] at hok
      rcases hres : resolveSchema env
          (.reasonP (s.verboseSteps ++ [construct_node_verbose_log o depth])
            (some ((n : Rat) / 10)) env.metricName) .reasonT with e | ⟨res, cost⟩
      · rw [hres] at hok
        cases hok
      · rw [hres] at hok
        cases res with
        | reasonR r =>
          simp only [Except.ok.injEq] at hok
          injection hok with h1 h2
          rw [← h1]
        | binaryR b r => cases hok
        | nonBinaryR v r => cases hok
    · rw [if_neg hr] at hok
      simp only [Except.ok.injEq] at hok
      injection hok with h1 h2
      rw [← h1]

theorem C6_witness :
    (∃ o, VerdictNode.postInit (.bool true) (some 10) none = .ok o) ∧
    ((initState []).score = none) ∧
    (∀ s' cs, verdictProceed trivEnv 0
        { kind := .verdict, label := .bool true, score := some 10, indegreeN := some 0 }
        (initState []) = .ok (s', cs) → s'.score = some ((10 : Rat) / 10)) :=
  ⟨(C6_verdict_construction_and_normalization.1 (.bool true) (some 10) none).mpr
      ⟨Or.inl ⟨by simp, rfl⟩, by intro n hn; cases hn; norm_num⟩,
   rfl,
   fun s' cs h => C6_verdict_construction_and_normalization.2.2.2.2.1 trivEnv 0 _ _ s' cs 10
      rfl rfl h⟩

def c10Obj : NodeObj := { kind := .task, evaluationParams := some [] }

def c10S : ExecState := initState [(0, c10Obj)]

theorem C10_witness :
    (joinCheck c10S 0).2 = true ∧
    nodeBody trivEnv 0 0 c10S =
      nodeBodyCore trivEnv 0 0 { c10Obj with indegreeN := some 0 }
        { c10S with nodes := updateNode c10S.nodes 0 (fun o' => { o' with indegreeN := some 0 }) } :=
  ⟨(C10_decrement_none_root_executes.2.2 trivEnv c10S 0 0 c10Obj rfl rfl).1,
   (C10_decrement_none_root_executes.2.2 trivEnv c10S 0 0 c10Obj rfl rfl).2⟩

theorem setParentObj_verdict (p : Nat) (o : NodeObj) (hk : o.kind = .verdict) :
    setParentObj p o = { o with parentL := some p } := by
  cases o
  cases hk
  rfl

theorem checkBinaryChildren_ok_iff (nodes : NodeList) (l : List Nat) :
    checkBinaryChildren nodes l = .ok () ↔
      ∀ c ∈ l, ∃ o, lookupNode nodes c = some o ∧ o.kind = .verdict ∧ ∃ b, o.label = .bool b := by
  induction l with
  | nil => simp [checkBinaryChildren]
  | cons c rest ih =>
    unfold checkBinaryChildren
    rcases hl : lookupNode nodes c with _ | o
    · dsimp only
      constructor
      · intro hc
        cases hc
      · intro hall
        obtain ⟨o', ho', -⟩ := hall c (List.mem_cons_self c rest)
        rw [hl] at ho'
        cases ho'
    · dsimp only
      by_cases hk : o.kind = .verdict
      · rw [if_neg (by simp [hk])]
        rcases hlab : o.label with b | v
        · simp only [List.mem_cons, forall_eq_or_imp, ih]
          constructor
          · intro hrest
            exact ⟨⟨o, hl, hk, b, hlab⟩, hrest⟩
          · intro hall
            exact hall.2
        · constructor
          · intro hc
            cases hc
          · rintro hall
            obtain ⟨o', hl', -, b', hlab'⟩ := hall c (List.mem_cons_self c rest)
            rw [hl] at hl'
            cases hl'
            rw [hlab] at hlab'
            cases hlab'
      · rw [if_pos (by simp [hk])]
        constructor
        · intro hc
          cases hc
        · intro hall
          obtain ⟨o', hl', hk', -⟩ := hall c (List.mem_cons_self c rest)
          rw [hl] at hl'
          cases hl'
          exact absurd hk' hk

/-- C4 — `BinaryJudgementNode` construction succeeds exactly when it has two
children, all `VerdictNode` with bool verdicts, exactly one `True` and one
`False`; children `[true, true]` fail with the one-true-one-false
`ValueError` while `[true, false]` succeed, and on success each child gets
`_parent` set to the node and its indegree incremented by one. -/
theorem C4_binary_judgement_construction :
    (∀ (nodes : NodeList) (selfId : Nat) (criteria : String)
        (ep : Option (List String)) (childIds : List Nat),
      (∃ ns, BinaryJudgementNode.postInit nodes selfId criteria ep childIds = .ok ns) ↔
        (childIds.length = 2 ∧
         (∀ c ∈ childIds, ∃ o, lookupNode nodes c = some o ∧ o.kind = .verdict ∧
            ∃ b, o.label = .bool b) ∧
         (childIds.map (fun c => ((lookupNode nodes c).map (·.label)).iget)).count (.bool true) = 1 ∧
         (childIds.map (fun c => ((lookupNode nodes c).map (·.label)).iget)).count (.bool false) = 1)) ∧
    (∀ (nodes : NodeList) (selfId : Nat) (criteria : String)
        (ep : Option (List String)) (c1 c2 : Nat) (o1 o2 : NodeObj),
      lookupNode nodes c1 = some o1 → o1.kind = .verdict → o1.label = .bool true →
      lookupNode nodes c2 = some o2 → o2.kind = .verdict → o2.label = .bool true →
      BinaryJudgementNode.postInit nodes selfId criteria ep [c1, c2] =
        .error (.valueErr "BinaryJudgementNode must have one True and one False VerdictNode child.")) ∧
    (∀ (nodes : NodeList) (selfId : Nat) (criteria : String)
        (ep : Option (List String)) (c1 c2 : Nat) (o1 o2 : NodeObj),
      lookupNode nodes c1 = some o1 → o1.kind = .verdict → o1.label = .bool true →
      lookupNode nodes c2 = some o2 → o2.kind = .verdict → o2.label = .bool false →
      c1 ≠ selfId → c2 ≠ selfId →
      ∃ ns, BinaryJudgementNode.postInit nodes selfId criteria ep [c1, c2] = .ok ns ∧
        lookupNode ns c1 = some { o1 with parentL := some selfId,
                                          indegreeN := increment_indegree o1.indegreeN } ∧
        lookupNode ns c2 = some { o2 with parentL := some selfId,
                                          indegreeN := increment_indegree o2.indegreeN }) := by
  refine ⟨?_, ?_, ?_⟩
  · intro nodes selfId criteria ep childIds
    unfold BinaryJudgementNode.postInit
    by_cases hlen : childIds.length = 2
    · rw [if_neg (by simp [hlen])]
      rcases hchk : checkBinaryChildren nodes childIds with e | u
      · simp only []
        constructor
        · rintro ⟨ns, hns⟩
          cases hns
        · rintro ⟨-, hall, -⟩
          rw [(checkBinaryChildren_ok_iff nodes childIds).mpr hall] at hchk
          cases hchk
      · cases u
        by_cases hcnt :
            (childIds.map (fun c => ((lookupNode nodes c).map (·.label)).iget)).count (.bool true) = 1 ∧
            (childIds.map (fun c => ((lookupNode nodes c).map (·.label)).iget)).count (.bool false) = 1
        · rw [if_neg (by simp [hcnt.1, hcnt.2])]
          simp only []
          constructor
          · intro _
            exact ⟨hlen, (checkBinaryChildren_ok_iff nodes childIds).mp hchk, hcnt.1, hcnt.2⟩
          · intro _
            exact ⟨_, rfl⟩
        · rw [if_pos (by
            rcases not_and_or.mp hcnt with h | h <;> simp [h])]
          constructor
          · rintro ⟨ns, hns⟩
            cases hns
          · rintro ⟨-, -, h1, h2⟩
            exact absurd ⟨h1, h2⟩ hcnt
    · rw [if_pos (by simp [hlen])]
      constructor
      · rintro ⟨ns, hns⟩
        cases hns
      · rintro ⟨h2, -⟩
        exact absurd h2 hlen
  · intro nodes selfId criteria ep c1 c2 o1 o2 hl1 hk1 hb1 hl2 hk2 hb2
    unfold BinaryJudgementNode.postInit
    rw [if_neg (by simp)]
    have hchk : checkBinaryChildren nodes [c1, c2] = .ok () := by
      apply (checkBinaryChildren_ok_iff nodes [c1, c2]).mpr
      intro c hc
      simp only [List.mem_cons, List.not_mem_nil, or_false] at hc
      rcases hc with rfl | rfl
      · exact ⟨o1, hl1, hk1, true, hb1⟩
      · exact ⟨o2, hl2, hk2, true, hb2⟩
    rw [hchk]
    rw [if_pos (by simp [hl1, hl2, hb1, hb2, List.count_cons, Option.iget_some])]
  · intro nodes selfId criteria ep c1 c2 o1 o2 hl1 hk1 hb1 hl2 hk2 hb2 hs1 hs2
    have hne : c1 ≠ c2 := by
      intro hc
      subst hc
      rw [hl1] at hl2
      cases hl2
      rw [hb1] at hb2
      cases hb2
    unfold BinaryJudgementNode.postInit
    rw [if_neg (by simp)]
    have hchk : checkBinaryChildren nodes [c1, c2] = .ok () := by
      apply (checkBinaryChildren_ok_iff nodes [c1, c2]).mpr
      intro c hc
      simp only [List.mem_cons, List.not_mem_nil, or_false] at hc
      rcases hc with rfl | rfl
      · exact ⟨o1, hl1, hk1, true, hb1⟩
      · exact ⟨o2, hl2, hk2, false, hb2⟩
    rw [hchk]
    rw [if_neg (by simp [hl1, hl2, hb1, hb2, List.count_cons, Option.iget_some])]
    refine ⟨_, rfl, ?_, ?_⟩
    · rw [show ([c1, c2] : List Nat) = c1 :: c2 :: [] from rfl, List.foldl_cons,
        List.foldl_cons, List.foldl_nil]
      unfold wireChild
      rw [lookupNode_updateNode, if_neg hne, lookupNode_updateNode, if_pos rfl]
      have hhead : lookupNode ((selfId,
          ({ kind := .binaryJudgement, criteria := criteria, evaluationParams := ep,
             children := [c1, c2] } : NodeObj)) :: nodes) c1 = some o1 := by
        simp only [lookupNode, List.lookup]
        have hb : (c1 == selfId) = false := by simp [hs1]
        rw [hb]
        exact hl1
      rw [hhead]
      simp only [Option.map_some']
      rw [setParentObj_verdict selfId o1 hk1]
    · rw [show ([c1, c2] : List Nat) = c1 :: c2 :: [] from rfl, List.foldl_cons,
        List.foldl_cons, List.foldl_nil]
      unfold wireChild
      rw [lookupNode_updateNode, if_pos rfl, lookupNode_updateNode, if_neg (Ne.symm hne)]
      have hhead : lookupNode ((selfId,
          ({ kind := .binaryJudgement, criteria := criteria, evaluationParams := ep,
             children := [c1, c2] } : NodeObj)) :: nodes) c2 = some o2 := by
        simp only [lookupNode, List.lookup]
        have hb : (c2 == selfId) = false := by simp [hs2]
        rw [hb]
        exact hl2
      rw [hhead]
      simp only [Option.map_some']
      rw [setParentObj_verdict selfId o2 hk2]

def vTrue10 : NodeObj := { kind := .verdict, label := .bool true, score := some 10 }

def vFalse0 : NodeObj := { kind := .verdict, label := .bool false, score := some 0 }

def vTrue3 : NodeObj := { kind := .verdict, label := .bool true, score := some 3 }

def c4Nodes : NodeList := [(1, vTrue10), (2, vFalse0), (3, vTrue3)]

theorem C4_witness :
    (BinaryJudgementNode.postInit c4Nodes 0 "crit" none [1, 3] =
      .error (.valueErr "BinaryJudgementNode must have one True and one False VerdictNode child.")) ∧
    (∃ ns, BinaryJudgementNode.postInit c4Nodes 0 "crit" none [1, 2] = .ok ns ∧
      lookupNode ns 1 = some { vTrue10 with parentL := some 0,
                                            indegreeN := increment_indegree vTrue10.indegreeN } ∧
      lookupNode ns 2 = some { vFalse0 with parentL := some 0,
                                            indegreeN := increment_indegree vFalse0.indegreeN }) :=
  ⟨C4_binary_judgement_construction.2.1 c4Nodes 0 "crit" none 1 3 vTrue10 vTrue3
      rfl rfl rfl rfl rfl rfl,
   C4_binary_judgement_construction.2.2 c4Nodes 0 "crit" none 1 2 vTrue10 vFalse0
      rfl rfl rfl rfl rfl rfl (by decide) (by decide)⟩

/-- The per-child relation checked by `NonBinaryJudgementNode.__post_init__`:
the child is a `VerdictNode` carrying the string label `v`. -/
def NBChild (nodes : NodeList) (c : Nat) (v : String) : Prop :=
  ∃ o, lookupNode nodes c = some o ∧ o.kind = .verdict ∧ o.label = .str v

theorem checkNonBinaryChildren_ok_iff (nodes : NodeList) (l : List Nat) :
    ∀ (seen out : List String),
      checkNonBinaryChildren nodes l seen = .ok out ↔
        ∃ vs, List.Forall₂ (NBChild nodes) l vs ∧ vs.Nodup ∧
          (∀ v ∈ vs, v ∉ seen) ∧ out = seen ++ vs := by
  induction l with
  | nil =>
    intro seen out
    unfold checkNonBinaryChildren
    constructor
    · intro h
      cases h
      exact ⟨[], List.Forall₂.nil, List.nodup_nil, by simp, by simp⟩
    · rintro ⟨vs, hf, -, -, hout⟩
      cases hf
      simp at hout
      rw [hout]
  | cons c rest ih =>
    intro seen out
    unfold checkNonBinaryChildren
    rcases hl : lookupNode nodes c with _ | o
    · dsimp only
      constructor
      · intro hc
        cases hc
      · rintro ⟨vs, hf, -⟩
        rcases List.forall₂_cons_left_iff.mp hf with ⟨v, vs', ⟨o', ho', -⟩, -, -⟩
        rw [hl] at ho'
        cases ho'
    · dsimp only
      by_cases hk : o.kind = .verdict
      · rw [if_neg (by simp [hk])]
        rcases hlab : o.label with b | v
        · constructor
          · intro hc
            cases hc
          · rintro ⟨vs, hf, -⟩
            rcases List.forall₂_cons_left_iff.mp hf with ⟨v, vs', ⟨o', ho', -, hlab'⟩, -, -⟩
            rw [hl] at ho'
            cases ho'
            rw [hlab] at hlab'
            cases hlab'
        · dsimp only
          by_cases hmem : v ∈ seen
          · rw [if_pos hmem]
            constructor
            · intro hc
              cases hc
            · rintro ⟨vs, hf, -, hfresh, -⟩
              rcases List.forall₂_cons_left_iff.mp hf with ⟨v', vs', ⟨o', ho', -, hlab'⟩, -, rfl⟩
              rw [hl] at ho'
              cases ho'
              rw [hlab] at hlab'
              cases hlab'
              exact absurd hmem (hfresh v (List.mem_cons_self v vs'))
          · rw [if_neg hmem]
            rw [ih (seen ++ [v]) out]
            constructor
            · rintro ⟨vs', hf, hnd, hfresh, hout⟩
              refine ⟨v :: vs', List.Forall₂.cons ⟨o, hl, hk, hlab⟩ hf, ?_, ?_, ?_⟩
              · refine List.nodup_cons.mpr ⟨?_, hnd⟩
                intro hvin
                exact (hfresh v hvin) (by simp)
              · intro x hx
                rcases List.mem_cons.mp hx with rfl | hx'
                · exact hmem
                · intro hxs
                  exact (hfresh x hx') (by simp [hxs])
              · rw [hout]
                simp
            · rintro ⟨vs, hf, hnd, hfresh, hout⟩
              rcases List.forall₂_cons_left_iff.mp hf with ⟨v', vs', ⟨o', ho', -, hlab'⟩, hf', rfl⟩
              rw [hl] at ho'
              cases ho'
              rw [hlab] at hlab'
              cases hlab'
              refine ⟨vs', hf', (List.nodup_cons.mp hnd).2, ?_, ?_⟩
              · intro x hx
                intro hxs
                rcases List.mem_append.mp hxs with hxs | hxs
                · exact (hfresh x (List.mem_cons_of_mem _ hx)) hxs
                · rw [List.mem_singleton] at hxs
                  subst hxs
                  exact (List.nodup_cons.mp hnd).1 hx
              · rw [hout]
                simp
      · rw [if_pos (by simp [hk])]
        constructor
        · intro hc
          cases hc
        · rintro ⟨vs, hf, -⟩
          rcases List.forall₂_cons_left_iff.mp hf with ⟨v, vs', ⟨o', ho', hk', -⟩, -, -⟩
          rw [hl] at ho'
          cases ho'
          exact absurd hk' hk

theorem lookupNode_foldl_wire (p j : Nat) (cs : List Nat) (ns0 : NodeList)
    (hj : j ∉ cs) :
    lookupNode (List.foldl (fun ns c => wireChild ns p c) ns0 cs) j = lookupNode ns0 j := by
  induction cs generalizing ns0 with
  | nil => rfl
  | cons c rest ih =>
    rw [List.foldl_cons]
    rw [ih _ (fun hc => hj (List.mem_cons_of_mem _ hc))]
    unfold wireChild
    rw [lookupNode_updateNode, if_neg (fun hc => hj (by rw [hc]; exact List.mem_cons_self c rest))]

/-- C5 — `NonBinaryJudgementNode` construction succeeds exactly when the
children list is non-empty and consists of `VerdictNode`s with
pairwise-distinct string verdicts; two children sharing a label fail with
the duplicate `ValueError`; and on success the node's cached
`_verdict_options` holds exactly the set of the children's labels. -/
theorem C5_nonbinary_construction :
    (∀ (nodes : NodeList) (selfId : Nat) (criteria : String)
        (ep : Option (List String)) (childIds : List Nat),
      (∃ ns, NonBinaryJudgementNode.postInit nodes selfId criteria ep childIds = .ok ns) ↔
        (childIds ≠ [] ∧ ∃ vs, List.Forall₂ (NBChild nodes) childIds vs ∧ vs.Nodup)) ∧
    (∀ (nodes : NodeList) (selfId : Nat) (criteria : String)
        (ep : Option (List String)) (c1 c2 : Nat) (o1 o2 : NodeObj) (v : String),
      lookupNode nodes c1 = some o1 → o1.kind = .verdict → o1.label = .str v →
      lookupNode nodes c2 = some o2 → o2.kind = .verdict → o2.label = .str v →
      NonBinaryJudgementNode.postInit nodes selfId criteria ep [c1, c2] =
        .error (.valueErr ("Duplicate verdict found: " ++ v))) ∧
    (∀ (nodes : NodeList) (selfId : Nat) (criteria : String)
        (ep : Option (List String)) (childIds : List Nat) (ns : NodeList),
      selfId ∉ childIds →
      NonBinaryJudgementNode.postInit nodes selfId criteria ep childIds = .ok ns →
      ∃ o vs, lookupNode ns selfId = some o ∧ o.kind = .nonBinaryJudgement ∧
        o.verdictOptions = vs ∧ List.Forall₂ (NBChild nodes) childIds vs ∧
        (∀ x, x ∈ vs ↔ ∃ c, c ∈ childIds ∧ NBChild nodes c x)) := by
  refine ⟨?_, ?_, ?_⟩
  · intro nodes selfId criteria ep childIds
    unfold NonBinaryJudgementNode.postInit
    by_cases hemp : childIds.isEmpty
    · rw [if_pos hemp]
      constructor
      · rintro ⟨ns, hns⟩
        cases hns
      · rintro ⟨hne, -⟩
        exact absurd (List.isEmpty_iff.mp hemp) hne
    · rw [if_neg hemp]
      rcases hchk : checkNonBinaryChildren nodes childIds [] with e | options
      · constructor
        · rintro ⟨ns, hns⟩
          cases hns
        · rintro ⟨-, vs, hf, hnd⟩
          rw [(checkNonBinaryChildren_ok_iff nodes childIds [] vs).mpr
            ⟨vs, hf, hnd, by simp, by simp⟩] at hchk
          cases hchk
      · constructor
        · rintro -
          have hne : childIds ≠ [] := by
            intro hc
            subst hc
            simp at hemp
          obtain ⟨vs, hf, hnd, -, -⟩ :=
            (checkNonBinaryChildren_ok_iff nodes childIds [] options).mp hchk
          exact ⟨hne, vs, hf, hnd⟩
        · rintro -
          exact ⟨_, rfl⟩
  · intro nodes selfId criteria ep c1 c2 o1 o2 v hl1 hk1 hb1 hl2 hk2 hb2
    unfold NonBinaryJudgementNode.postInit
    rw [if_neg (by simp)]
    unfold checkNonBinaryChildren
    rw [hl1]
    dsimp only
    rw [if_neg (by simp [hk1]), hb1]
    dsimp only
    rw [if_neg (List.not_mem_nil v)]
    unfold checkNonBinaryChildren
    rw [hl2]
    dsimp only
    rw [if_neg (by simp [hk2]), hb2]
    dsimp only
    rw [if_pos (by simp)]
  · intro nodes selfId criteria ep childIds ns hself hok
    unfold NonBinaryJudgementNode.postInit at hok
    by_cases hemp : childIds.isEmpty
    · rw [if_pos hemp] at hok
      cases hok
    · rw [if_neg hemp] at hok
      rcases hchk : checkNonBinaryChildren nodes childIds [] with e | options
      · rw [hchk] at hok
        cases hok
      · rw [hchk] at hok
        simp only [Except.ok.injEq] at hok
        obtain ⟨vs, hf, hnd, -, hout⟩ :=
          (checkNonBinaryChildren_ok_iff nodes childIds [] options).mp hchk
        simp only [List.nil_append] at hout
        subst hout
        have hlook : lookupNode ns selfId = some
            ({ kind := .nonBinaryJudgement, criteria := criteria, evaluationParams := ep,
               verdictOptions := options, children := childIds } : NodeObj) := by
          rw [← hok]
          rw [lookupNode_foldl_wire selfId selfId childIds _ hself]
          simp [lookupNode, List.lookup]
        refine ⟨_, options, hlook, rfl, rfl, hf, ?_⟩
        intro x
        constructor
        · intro hx
          obtain ⟨i, hi⟩ := List.mem_iff_get.mp hx
          have hlen := List.Forall₂.length_eq hf
          obtain ⟨-, hrel⟩ := List.forall₂_iff_get.mp hf
          have hi1 : (i : Nat) < childIds.length := by rw [hlen]; exact i.isLt
          have hr := hrel i.1 hi1 i.isLt
          refine ⟨childIds.get ⟨i.1, hi1⟩, List.get_mem _ _ _, ?_⟩
          have hx2 : options.get ⟨i.1, i.isLt⟩ = x := by
            rw [Fin.eta]
            exact hi
          exact hx2 ▸ hr
        · rintro ⟨c, hc, o', ho', -, hlab'⟩
          obtain ⟨i, hi⟩ := List.mem_iff_get.mp hc
          have hlen := List.Forall₂.length_eq hf
          obtain ⟨-, hrel⟩ := List.forall₂_iff_get.mp hf
          have hi2 : (i : Nat) < options.length := by rw [← hlen]; exact i.isLt
          have hr := hrel i.1 i.isLt hi2
          obtain ⟨o'', ho'', -, hlab''⟩ := hr
          rw [Fin.eta, hi] at ho''
          rw [ho'] at ho''
          cases ho''
          rw [hlab'] at hlab''
          have hxeq : x = options.get ⟨i.1, hi2⟩ := VerdictVal.str.inj hlab''
          rw [hxeq]
          exact List.get_mem _ _ _

def vStrA : NodeObj := { kind := .verdict, label := .str "a", score := some 1 }

def vStrB : NodeObj := { kind := .verdict, label := .str "b", score := some 2 }

def vStrC : NodeObj := { kind := .verdict, label := .str "c", score := some 3 }

def vStrA2 : NodeObj := { kind := .verdict, label := .str "a", score := some 4 }

def c5Nodes : NodeList := [(1, vStrA), (2, vStrB), (3, vStrC), (4, vStrA2)]

theorem C5_witness :
    (NonBinaryJudgementNode.postInit c5Nodes 0 "crit" none [1, 4] =
      .error (.valueErr ("Duplicate verdict found: " ++ "a"))) ∧
    (∃ ns, NonBinaryJudgementNode.postInit c5Nodes 0 "crit" none [1, 2, 3] = .ok ns) ∧
    (∀ ns, NonBinaryJudgementNode.postInit c5Nodes 0 "crit" none [1, 2, 3] = .ok ns →
      ∃ o vs, lookupNode ns 0 = some o ∧ o.kind = .nonBinaryJudgement ∧
        o.verdictOptions = vs ∧ List.Forall₂ (NBChild c5Nodes) [1, 2, 3] vs ∧
        (∀ x, x ∈ vs ↔ ∃ c, c ∈ [1, 2, 3] ∧ NBChild c5Nodes c x)) :=
  ⟨C5_nonbinary_construction.2.1 c5Nodes 0 "crit" none 1 4 vStrA vStrA2 "a"
      rfl rfl rfl rfl rfl rfl,
   (C5_nonbinary_construction.1 c5Nodes 0 "crit" none [1, 2, 3]).mpr
     ⟨by decide, ["a", "b", "c"],
      List.Forall₂.cons ⟨vStrA, rfl, rfl, rfl⟩
        (List.Forall₂.cons ⟨vStrB, rfl, rfl, rfl⟩
          (List.Forall₂.cons ⟨vStrC, rfl, rfl, rfl⟩ List.Forall₂.nil)), by decide⟩,
   fun ns h => C5_nonbinary_construction.2.2 c5Nodes 0 "crit" none [1, 2, 3] ns
      (by decide) h⟩

/-- C9 — a `BinaryJudgementNode` or `NonBinaryJudgementNode` used as a root
(never registered as a child: `_parents` is still `None`, `_indegree` still
`None`) passes the join check on its first visit and then raises a
`TypeError` iterating `for parent in self._parents` before any side effect,
whereas `TaskNode` guards `_parents` with a `None` check and a task root
executes successfully. -/
theorem C9_judgement_root_raises :
    (∀ (env : Env) (s : ExecState) (id depth : Nat) (o : NodeObj),
      lookupNode s.nodes id = some o → o.kind = .binaryJudgement →
      o.parentsL = none → o.indegreeN = none →
      nodeBody env id depth s = .error .typeErr) ∧
    (∀ (env : Env) (s : ExecState) (id depth : Nat) (o : NodeObj),
      lookupNode s.nodes id = some o → o.kind = .nonBinaryJudgement →
      o.parentsL = none → o.indegreeN = none →
      nodeBody env id depth s = .error .typeErr) ∧
    (∀ (env : Env) (s : ExecState) (id depth : Nat) (o : NodeObj) (prs : List String),
      lookupNode s.nodes id = some o → o.kind = .task →
      o.parentsL = none → o.evaluationParams = some prs → o.indegreeN = none →
      ∃ s' cs, nodeBody env id depth s = .ok (s', cs)) := by
  refine ⟨?_, ?_, ?_⟩
  · intro env s id depth o h hk hp hi
    have hd : decrement_indegree o.indegreeN = some 0 := by simp [decrement_indegree, hi]
    rw [nodeBody_pass env id depth s o h hd]
    unfold nodeBodyCore
    simp only [hk, hp]
  · intro env s id depth o h hk hp hi
    have hd : decrement_indegree o.indegreeN = some 0 := by simp [decrement_indegree, hi]
    rw [nodeBody_pass env id depth s o h hd]
    unfold nodeBodyCore
    simp only [hk, hp]
  · intro env s id depth o prs h hk hp hev hi
    have hd : decrement_indegree o.indegreeN = some 0 := by simp [decrement_indegree, hi]
    rw [nodeBody_pass env id depth s o h hd]
    unfold nodeBodyCore
    simp only [hk, hp, hev]
    exact ⟨_, _, rfl⟩

theorem C9_witness :
    (nodeBody trivEnv 0 0 (initState [(0, { kind := .binaryJudgement, criteria := "c" })]) =
      .error .typeErr) ∧
    (nodeBody trivEnv 0 0 (initState [(0, { kind := .nonBinaryJudgement, criteria := "c" })]) =
      .error .typeErr) ∧
    (∃ s' cs, nodeBody trivEnv 0 0
        (initState [(0, { kind := .task, instructions := "i", outputLabel := "l",
                          evaluationParams := some [] })]) = .ok (s', cs)) :=
  ⟨C9_judgement_root_raises.1 trivEnv _ 0 0 _ rfl rfl rfl rfl,
   C9_judgement_root_raises.2.1 trivEnv _ 0 0 _ rfl rfl rfl rfl,
   C9_judgement_root_raises.2.2 trivEnv _ 0 0 _ [] rfl rfl rfl rfl rfl⟩

/-- C7 — on the non-native (generic) judge path, a schema-constrained
invocation that raises the type-incompatibility `TypeError` is retried
exactly once: the identical prompt is resent without a schema, the free
text is parsed into the expected shape, and only a failure of that single
extraction surfaces (as an extraction error); when the schema call
succeeds no retry happens; and the execution bodies use exactly this
resolution whenever `using_native_model` is false. -/
theorem C7_generic_fallback_single_retry :
    (∀ (env : Env) (prompt : Prompt) (tag : SchemaTag) (res : SchemaRes) (cost : Rat),
      env.generateSchema prompt tag = .ok (res, cost) →
      genericResolve env prompt tag = .ok res ∧
      genericResolveCalls env prompt tag = [(prompt, some tag)]) ∧
    (∀ (env : Env) (prompt : Prompt) (tag : SchemaTag) (e : Unit),
      env.generateSchema prompt tag = .error e →
      genericResolveCalls env prompt tag = [(prompt, some tag), (prompt, none)] ∧
      ((genericResolveCalls env prompt tag).filter (fun c => c.2 == none)).length = 1 ∧
      genericResolve env prompt tag =
        (match env.parse tag (env.generate prompt).1 with
         | .ok res => .ok res
         | .error _ => .error .extractionErr)) ∧
    (∀ (env : Env) (prompt : Prompt) (tag : SchemaTag),
      env.usingNativeModel = false →
      resolveSchema env prompt tag =
        (match genericResolve env prompt tag with
         | .ok res => .ok (res, 0)
         | .error e => .error e)) := by
  refine ⟨?_, ?_, ?_⟩
  · intro env prompt tag res cost hok
    unfold genericResolve genericResolveCalls
    rw [hok]
    exact ⟨rfl, rfl⟩
  · intro env prompt tag e herr
    unfold genericResolve genericResolveCalls
    rw [herr]
    refine ⟨rfl, rfl, rfl⟩
  · intro env prompt tag hnn
    unfold resolveSchema
    rw [if_neg (by simp [hnn])]

def genericFailEnv : Env :=
  { trivEnv with
      usingNativeModel := false
      generateSchema := fun _ _ => .error ()
      parse := fun tag s =>
        match tag with
        | .binaryT => .ok (.binaryR true s)
        | _ => .error () }

theorem C7_witness :
    (genericResolveCalls genericFailEnv (.binaryP "c" "t") .binaryT =
      [((.binaryP "c" "t" : Prompt), some SchemaTag.binaryT), ((.binaryP "c" "t" : Prompt), none)]) ∧
    (((genericResolveCalls genericFailEnv (.binaryP "c" "t") .binaryT).filter
        (fun c => c.2 == none)).length = 1) ∧
    (genericResolve genericFailEnv (.binaryP "c" "t") .binaryT =
      (match genericFailEnv.parse .binaryT (genericFailEnv.generate (.binaryP "c" "t")).1 with
       | .ok res => .ok res
       | .error _ => .error .extractionErr)) :=
  ⟨(C7_generic_fallback_single_retry.2.1 genericFailEnv (.binaryP "c" "t") .binaryT () rfl).1,
   (C7_generic_fallback_single_retry.2.1 genericFailEnv (.binaryP "c" "t") .binaryT () rfl).2.1,
   (C7_generic_fallback_single_retry.2.1 genericFailEnv (.binaryP "c" "t") .binaryT () rfl).2.2⟩

/-- The ancestor context from the spec's words: concatenate, in parent
order, each ancestor Task node's `(outputLabel, output)` pair (with the
separator the code uses for task nodes), skipping non-task parents. -/
def specParentContext (nodes : NodeList) : List Nat → String
  | [] => ""
  | p :: rest =>
    (match lookupNode nodes p with
     | some o => if o.kind = .task then o.outputLabel ++ ":\n" ++ optStr o.output ++ "\n\n" else ""
     | none => "") ++ specParentContext nodes rest

/-- The evaluation-parameter context from the spec's words: for each
configured parameter in order, its semantic label and the value read from
the test case, tool-call values rendered via their canonical string form. -/
def specParamContext (env : Env) : List String → String
  | [] => ""
  | param :: rest =>
    env.gEvalParamLabel param ++ ":\n" ++ renderValue (env.testCase param) ++ "\n" ++
      specParamContext env rest

theorem appendParents_acc (nodes : NodeList) (sep : String) (ps : List Nat) :
    ∀ acc, appendParents nodes sep acc ps = acc ++ appendParents nodes sep "" ps := by
  induction ps with
  | nil =>
    intro acc
    simp [appendParents]
  | cons p rest ih =>
    intro acc
    unfold appendParents
    simp only [List.foldl_cons]
    rcases hl : lookupNode nodes p with _ | o
    · dsimp only
      rw [show (List.foldl _ acc rest : String) = appendParents nodes sep acc rest from rfl,
        show (List.foldl _ "" rest : String) = appendParents nodes sep "" rest from rfl,
        ih acc]
    · dsimp only
      by_cases hk : o.kind = .task
      · rw [if_pos hk, if_pos hk]
        rw [show (List.foldl _ (acc ++ o.outputLabel ++ ":\n" ++ optStr o.output ++ sep) rest : String) =
            appendParents nodes sep (acc ++ o.outputLabel ++ ":\n" ++ optStr o.output ++ sep) rest from rfl,
          show (List.foldl _ ("" ++ o.outputLabel ++ ":\n" ++ optStr o.output ++ sep) rest : String) =
            appendParents nodes sep ("" ++ o.outputLabel ++ ":\n" ++ optStr o.output ++ sep) rest from rfl,
          ih (acc ++ o.outputLabel ++ ":\n" ++ optStr o.output ++ sep),
          ih ("" ++ o.outputLabel ++ ":\n" ++ optStr o.output ++ sep)]
        simp [String.append_assoc]
      · rw [if_neg hk, if_neg hk]
        rw [show (List.foldl _ acc rest : String) = appendParents nodes sep acc rest from rfl,
          show (List.foldl _ "" rest : String) = appendParents nodes sep "" rest from rfl,
          ih acc]

theorem appendParams_acc (env : Env) (prs : List String) :
    ∀ acc, appendParams env acc prs = acc ++ appendParams env "" prs := by
  induction prs with
  | nil =>
    intro acc
    simp [appendParams]
  | cons param rest ih =>
    intro acc
    unfold appendParams
    simp only [List.foldl_cons]
    rw [show (List.foldl _ (acc ++ env.gEvalParamLabel param ++ ":\n" ++
          renderValue (env.testCase param) ++ "\n") rest : String) =
        appendParams env (acc ++ env.gEvalParamLabel param ++ ":\n" ++
          renderValue (env.testCase param) ++ "\n") rest from rfl,
      show (List.foldl _ ("" ++ env.gEvalParamLabel param ++ ":\n" ++
          renderValue (env.testCase param) ++ "\n") rest : String) =
        appendParams env ("" ++ env.gEvalParamLabel param ++ ":\n" ++
          renderValue (env.testCase param) ++ "\n") rest from rfl,
      ih (acc ++ env.gEvalParamLabel param ++ ":\n" ++ renderValue (env.testCase param) ++ "\n"),
      ih ("" ++ env.gEvalParamLabel param ++ ":\n" ++ renderValue (env.testCase param) ++ "\n")]
    simp [String.append_assoc]

theorem appendParents_spec (nodes : NodeList) (ps : List Nat) :
    appendParents nodes "\n\n" "" ps = specParentContext nodes ps := by
  induction ps with
  | nil => rfl
  | cons p rest ih =>
    unfold appendParents specParentContext
    simp only [List.foldl_cons]
    rcases hl : lookupNode nodes p with _ | o
    · dsimp only
      rw [show (List.foldl _ "" rest : String) = appendParents nodes "\n\n" "" rest from rfl, ih]
      simp
    · dsimp only
      by_cases hk : o.kind = .task
      · rw [if_pos hk, if_pos hk]
        rw [show (List.foldl _ ("" ++ o.outputLabel ++ ":\n" ++ optStr o.output ++ "\n\n") rest : String) =
            appendParents nodes "\n\n" ("" ++ o.outputLabel ++ ":\n" ++ optStr o.output ++ "\n\n") rest from rfl,
          appendParents_acc, ih]
        simp [String.append_assoc]
      · rw [if_neg hk, if_neg hk]
        rw [show (List.foldl _ "" rest : String) = appendParents nodes "\n\n" "" rest from rfl, ih]
        simp

theorem appendParams_spec (env : Env) (prs : List String) :
    appendParams env "" prs = specParamContext env prs := by
  induction prs with
  | nil => rfl
  | cons param rest ih =>
    unfold appendParams specParamContext
    simp only [List.foldl_cons]
    rw [show (List.foldl _ ("" ++ env.gEvalParamLabel param ++ ":\n" ++
          renderValue (env.testCase param) ++ "\n") rest : String) =
        appendParams env ("" ++ env.gEvalParamLabel param ++ ":\n" ++
          renderValue (env.testCase param) ++ "\n") rest from rfl,
      appendParams_acc, ih]
    simp [String.append_assoc]

/-- C8 — the textual context a `TaskNode` passes to the judge is built by
concatenating, in parent order, each ancestor Task node's
`(outputLabel, output)` pair, followed by, for each configured evaluation
parameter in order, its semantic label and the value read from the test
case (tool calls rendered via `repr`); and the task body feeds exactly this
text, packaged with the node's instructions, to the judge. -/
theorem C8_task_context_text :
    (∀ (nodes : NodeList) (env : Env) (ps : List Nat) (prs : List String),
      appendParams env (appendParents nodes "\n\n" "" ps) prs =
        specParentContext nodes ps ++ specParamContext env prs) ∧
    (∀ (env : Env) (depth id : Nat) (o : NodeObj) (s : ExecState)
        (ps : List Nat) (prs : List String),
      o.kind = .task → o.parentsL = some ps → o.evaluationParams = some prs →
      nodeBodyCore env depth id o s =
        (let text := specParentContext s.nodes ps ++ specParamContext env prs
         let gen := env.generate (.taskP o.instructions text)
         let addCost : Rat := if env.usingNativeModel then gen.2 else 0
         .ok ({ s with
                 nodes := updateNode s.nodes id (fun o' => { o' with output := some gen.1 }),
                 evaluationCost := s.evaluationCost + addCost,
                 verboseSteps := s.verboseSteps ++
                   [construct_node_verbose_log { o with output := some gen.1 } depth] },
              o.children.map (fun c => (c, depth + 1))))) := by
  have htext : ∀ (nodes : NodeList) (env : Env) (ps : List Nat) (prs : List String),
      appendParams env (appendParents nodes "\n\n" "" ps) prs =
        specParentContext nodes ps ++ specParamContext env prs := by
    intro nodes env ps prs
    rw [appendParams_acc, appendParents_spec, appendParams_spec]
  refine ⟨htext, ?_⟩
  intro env depth id o s ps prs hk hp hev
  unfold nodeBodyCore
  simp only [hk, hp, hev]
  rw [htext]

def c8Obj : NodeObj :=
  { kind := .task, instructions := "i", outputLabel := "l",
    evaluationParams := some ["input"], parentsL := some [0] }

def c8S : ExecState :=
  initState [(0, { kind := .task, outputLabel := "out", output := some "O" }), (1, c8Obj)]

theorem C8_witness :
    (appendParams trivEnv (appendParents c8S.nodes "\n\n" "" [0]) ["input"] =
      specParentContext c8S.nodes [0] ++ specParamContext trivEnv ["input"]) ∧
    (nodeBodyCore trivEnv 1 1 c8Obj c8S =
      (let text := specParentContext c8S.nodes [0] ++ specParamContext trivEnv ["input"]
       let gen := trivEnv.generate (.taskP c8Obj.instructions text)
       let addCost : Rat := if trivEnv.usingNativeModel then gen.2 else 0
       .ok ({ c8S with
               nodes := updateNode c8S.nodes 1 (fun o' => { o' with output := some gen.1 }),
               evaluationCost := c8S.evaluationCost + addCost,
               verboseSteps := c8S.verboseSteps ++
                 [construct_node_verbose_log { c8Obj with output := some gen.1 } 1] },
            c8Obj.children.map (fun c => (c, 2))))) :=
  ⟨C8_task_context_text.1 c8S.nodes trivEnv [0] ["input"],
   C8_task_context_text.2 trivEnv 1 1 c8Obj c8S [0] ["input"] rfl rfl rfl⟩

/-- A deterministic, schema-honoring judge stub used for the strategy
comparison: every binary judgement resolves to `True`, every generation is
total. -/
def ceEnv : Env :=
  { usingNativeModel := true
    includeReason := false
    metricName := "dag"
    testCase := fun _ => .str "hello"
    gEvalParamLabel := fun s => s
    gevalMeasure := fun _ => (0, "")
    generate := fun _ => ("gen", 1)
    generateSchema := fun _ t =>
      match t with
      | .binaryT => .ok (.binaryR true "because", 1)
      | .nonBinaryT os => .ok (.nonBinaryR (os.headD "") "because", 1)
      | .reasonT => .ok (.reasonR "because", 1)
    parse := fun _ _ => .error () }

/-- The comparison graph, built exactly as the engine's constructors build
it: a root task with children `[T2, J1]`, where `T2` is a task whose child
is the binary judgement `J2` (score-3 / score-0 verdicts), and `J1` is a
binary judgement (score-10 / score-0 verdicts). -/
def ceBuild : Except PyErr NodeList := do
  let v1t ← VerdictNode.postInit (.bool true) (some 10) none
  let v1f ← VerdictNode.postInit (.bool false) (some 0) none
  let v2t ← VerdictNode.postInit (.bool true) (some 3) none
  let v2f ← VerdictNode.postInit (.bool false) (some 0) none
  let nodes0 : NodeList := [(1, v1t), (2, v1f), (4, v2t), (5, v2f)]
  let nodes1 ← BinaryJudgementNode.postInit nodes0 3 "crit1" none [1, 2]
  let nodes2 ← BinaryJudgementNode.postInit nodes1 6 "crit2" none [4, 5]
  let nodes3 ← TaskNode.postInit nodes2 7 "instr2" "out2" (some []) [6]
  TaskNode.postInit nodes3 0 "instr" "out" (some []) [7, 3]

def ceNodes : NodeList := (ceBuild.toOption).getD []

/-- Final metric score of an execution outcome (`none` when the pass
errored). -/
def scoreOf : Except PyErr ExecState → Option Rat
  | .ok s => s.score
  | .error _ => none

/-- Final metric reason of an execution outcome. -/
def reasonOf : Except PyErr ExecState → Option String
  | .ok s => s.reason
  | .error _ => none

/-- C3 is false as stated: on this graph, with the same deterministic
schema-honoring judge stub, the sequential strategy finishes with score `1`
(the last depth-first branch writes last) while the parallel strategy
finishes with score `3/10` (the FIFO task order of `asyncio.gather` is
breadth-first, so the deepest verdict writes last); hence the two strategies
do not produce the same final `metric.score`. -/
theorem C3_counterexample :
    scoreOf (seqExec ceEnv 20 0 0 (initState ceNodes)) = some 1 ∧
    scoreOf (parExec ceEnv 20 [(0, 0)] (initState ceNodes)) = some (3 / 10) ∧
    ¬(scoreOf (seqExec ceEnv 20 0 0 (initState ceNodes)) =
        scoreOf (parExec ceEnv 20 [(0, 0)] (initState ceNodes))) := by
  have hseq : scoreOf (seqExec ceEnv 20 0 0 (initState ceNodes)) =
      some (((10 : Int) : Rat) / 10) := rfl
  have hpar : scoreOf (parExec ceEnv 20 [(0, 0)] (initState ceNodes)) =
      some (((3 : Int) : Rat) / 10) := rfl
  refine ⟨?_, ?_, ?_⟩
  · rw [hseq]
    norm_num
  · rw [hpar]
    norm_num
  · rw [hseq, hpar]
    intro hc
    rw [Option.some.injEq] at hc
    norm_num at hc

/-- Strip the depth annotation from a verbose-log block.  The parallel
strategy reaches a shared join node breadth-first, so the recorded depth of
such a node can differ between strategies; the remaining content cannot. -/
def eraseDepth : LogEntry → LogEntry
  | .task _ i l out => .task 0 i l out
  | .judgement b _ c v r => .judgement b 0 c v r
  | .vlog _ l g => .vlog 0 l g

/-- The observable part of the execution state shared by both strategies:
the node heap (counters, outputs, verdicts) and the multiset of
depth-erased verbose-log blocks.  `metric.score`, `metric.reason`,
`metric.evaluation_cost` and the log order are projected away: they are
written last-writer-wins or order-dependently and differ between the
strategies (see `C3_counterexample`). -/
structure OState where
  nodes : NodeList
  logs : Multiset LogEntry
deriving DecidableEq

/-- Project an execution state onto its observable part. -/
def piState (s : ExecState) : OState :=
  ⟨s.nodes, ((s.verboseSteps.map eraseDepth : List LogEntry) : Multiset LogEntry)⟩

theorem eraseDepth_construct (o : NodeObj) (d : Nat) :
    eraseDepth (construct_node_verbose_log o d) = construct_node_verbose_log o 0 := by
  unfold construct_node_verbose_log
  cases o.kind <;> rfl

/-- The observable effect of a node body (after a passing join check) on the
node heap: the heap update, the depth-erased log block added, and the child
ids visited.  This is `nodeBodyCore` with score/reason/cost and the depth
annotation dropped; branches that raise in the source (`TypeError` on a
`None` `_parents` / `evaluation_params`, a failing or ill-typed structured
generation, `AttributeError` on an unset parent verdict) are no-ops here —
the refinement lemma relates the two only on non-raising executions. -/
def oCoreParts (env : Env) (id : Nat) (o : NodeObj) (nodes : NodeList) :
    NodeList × Multiset LogEntry × List Nat :=
  match o.kind with
  | .verdict =>
    match o.parentL with
    | some p =>
      match lookupNode nodes p with
      | some po =>
        if po.kind = .binaryJudgement ∨ po.kind = .nonBinaryJudgement then
          match po.verdictV with
          | none => (nodes, 0, [])
          | some jv =>
            if jv.verdict != o.label then (nodes, 0, [])
            else (nodes, {construct_node_verbose_log o 0}, [])
        else (nodes, {construct_node_verbose_log o 0}, [])
      | none => (nodes, {construct_node_verbose_log o 0}, [])
    | none => (nodes, {construct_node_verbose_log o 0}, [])
  | .task =>
    match o.evaluationParams with
    | none => (nodes, 0, [])
    | some prs =>
      let text0 :=
        match o.parentsL with
        | none => ""
        | some ps => appendParents nodes "\n\n" "" ps
      let text := appendParams env text0 prs
      let gen := env.generate (.taskP o.instructions text)
      (updateNode nodes id (fun o' => { o' with output := some gen.1 }),
       {construct_node_verbose_log { o with output := some gen.1 } 0},
       o.children)
  | .binaryJudgement =>
    match o.parentsL with
    | none => (nodes, 0, [])
    | some ps =>
      let text0 := appendParents nodes "\n\n" "" ps
      let text :=
        match o.evaluationParams with
        | none => text0
        | some prs => appendParams env text0 prs
      match resolveSchema env (.binaryP o.criteria text) .binaryT with
      | .ok (.binaryR b r, _) =>
        (updateNode nodes id (fun o' => { o' with verdictV := some ⟨.bool b, r⟩ }),
         {construct_node_verbose_log { o with verdictV := some ⟨.bool b, r⟩ } 0},
         o.children)
      | _ => (nodes, 0, [])
  | .nonBinaryJudgement =>
    match o.parentsL with
    | none => (nodes, 0, [])
    | some ps =>
      let text0 := appendParents nodes "\n" "" ps
      let text :=
        match o.evaluationParams with
        | none => text0
        | some prs => appendParams env text0 prs
      match resolveSchema env (.nonBinaryP o.criteria text o.verdictOptions)
              (.nonBinaryT o.verdictOptions) with
      | .ok (.nonBinaryR v r, _) =>
        (updateNode nodes id (fun o' => { o' with verdictV := some ⟨.str v, r⟩ }),
         {construct_node_verbose_log { o with verdictV := some ⟨.str v, r⟩ } 0},
         o.children)
      | _ => (nodes, 0, [])

/-- The observable effect of one full node visit: the join-check decrement,
then (when the counter reached zero) the core. -/
def oStepParts (env : Env) (id : Nat) (nodes : NodeList) :
    NodeList × Multiset LogEntry × List Nat :=
  match lookupNode nodes id with
  | none => (nodes, 0, [])
  | some o =>
    let c := decrement_indegree o.indegreeN
    let nodes1 := updateNode nodes id (fun o' => { o' with indegreeN := c })
    if c == some 0 then oCoreParts env id { o with indegreeN := c } nodes1
    else (nodes1, 0, [])

/-- One observable node visit on an observable state. -/
def oStep (env : Env) (id : Nat) (σ : OState) : OState × List Nat :=
  let parts := oStepParts env id σ.nodes
  (⟨parts.1, σ.logs + parts.2.1⟩, parts.2.2)

/-- Observable worklist execution.  `queueMode = true` appends the emitted
child visits at the back of the worklist (the FIFO order of the parallel
strategy); `queueMode = false` prepends them (the depth-first order of the
sequential strategy). -/
def oRun (env : Env) (queueMode : Bool) : Nat → List Nat → OState → Option OState
  | _, [], σ => some σ
  | 0, _ :: _, _ => none
  | fuel + 1, x :: rest, σ =>
    let st := oStep env x σ
    oRun env queueMode fuel (if queueMode then rest ++ st.2 else st.2 ++ rest) st.1

theorem joinCheck_none (s : ExecState) (id : Nat)
    (h : lookupNode s.nodes id = none) :
    joinCheck s id = (s, false) := by
  simp [joinCheck, h]

theorem verdictProceed_refines (env : Env) (depth : Nat) (o : NodeObj) (s s' : ExecState)
    (cs : List (Nat × Nat)) (h : verdictProceed env depth o s = .ok (s', cs)) :
    s'.nodes = s.nodes ∧
    s'.verboseSteps = s.verboseSteps ++ [construct_node_verbose_log o depth] ∧
    cs = [] := by
  unfold verdictProceed at h
  rcases hg : o.gEval with _ | spec
  · rw [hg] at h
    dsimp only at h
    rcases hsc : o.score with _ | n
    · rw [hsc] at h
      cases h
    · rw [hsc] at h
      dsimp only at h
      by_cases hr : env.includeReason
      · rw [if_pos hr] at h
        rcases hres : resolveSchema env
            (.reasonP (s.verboseSteps ++ [construct_node_verbose_log o depth])
              (some ((n : Rat) / 10)) env.metricName) .reasonT with e | ⟨res, cost⟩
        · rw [hres] at h
          cases h
        · rw [hres] at h
          cases res with
          | reasonR r =>
            simp only [Except.ok.injEq] at h
            injection h with h1 h2
            subst h1 h2
            exact ⟨rfl, rfl, rfl⟩
          | binaryR b r => cases h
          | nonBinaryR v r => cases h
      · rw [if_neg hr] at h
        simp only [Except.ok.injEq] at h
        injection h with h1 h2
        subst h1 h2
        exact ⟨rfl, rfl, rfl⟩
  · rw [hg] at h
    dsimp only at h
    simp only [Except.ok.injEq] at h
    injection h with h1 h2
    subst h1 h2
    exact ⟨rfl, rfl, rfl⟩

theorem nodeBodyCore_refines (env : Env) (depth id : Nat) (o : NodeObj) (s s' : ExecState)
    (cs : List (Nat × Nat)) (h : nodeBodyCore env depth id o s = .ok (s', cs)) :
    s'.nodes = (oCoreParts env id o s.nodes).1 ∧
    ((s'.verboseSteps.map eraseDepth : List LogEntry) : Multiset LogEntry) =
      ((s.verboseSteps.map eraseDepth : List LogEntry) : Multiset LogEntry) +
        (oCoreParts env id o s.nodes).2.1 ∧
    cs = ((oCoreParts env id o s.nodes).2.2).map (fun c => (c, depth + 1)) := by
  unfold nodeBodyCore at h
  unfold oCoreParts
  rcases hk : o.kind with _ | _ | _ | _
  all_goals rw [hk] at h
  · -- task
    rcases hev : o.evaluationParams with _ | prs
    · rw [hev] at h
      cases h
    · rw [hev] at h
      dsimp only at h ⊢
      simp only [Except.ok.injEq] at h
      injection h with h1 h2
      subst h1 h2
      refine ⟨rfl, ?_, rfl⟩
      simp [eraseDepth_construct, ← Multiset.coe_add, Multiset.coe_singleton]
  · -- binaryJudgement
    rcases hp : o.parentsL with _ | ps
    · rw [hp] at h
      cases h
    · rw [hp] at h
      dsimp only at h ⊢
      rcases hres : resolveSchema env (.binaryP o.criteria
          (match o.evaluationParams with
           | none => appendParents s.nodes "\n\n" "" ps
           | some prs => appendParams env (appendParents s.nodes "\n\n" "" ps) prs)) .binaryT
          with e | ⟨res, cost⟩
      · rw [hres] at h
        cases h
      · rw [hres] at h
        cases res with
        | binaryR b r =>
          simp only [Except.ok.injEq] at h
          injection h with h1 h2
          subst h1 h2
          refine ⟨rfl, ?_, rfl⟩
          simp [eraseDepth_construct, ← Multiset.coe_add, Multiset.coe_singleton]
        | reasonR r => cases h
        | nonBinaryR v r => cases h
  · -- nonBinaryJudgement
    rcases hp : o.parentsL with _ | ps
    · rw [hp] at h
      cases h
    · rw [hp] at h
      dsimp only at h ⊢
      rcases hres : resolveSchema env (.nonBinaryP o.criteria
          (match o.evaluationParams with
           | none => appendParents s.nodes "\n" "" ps
           | some prs => appendParams env (appendParents s.nodes "\n" "" ps) prs)
          o.verdictOptions) (.nonBinaryT o.verdictOptions) with e | ⟨res, cost⟩
      · rw [hres] at h
        cases h
      · rw [hres] at h
        cases res with
        | nonBinaryR v r =>
          simp only [Except.ok.injEq] at h
          injection h with h1 h2
          subst h1 h2
          refine ⟨rfl, ?_, rfl⟩
          simp [eraseDepth_construct, ← Multiset.coe_add, Multiset.coe_singleton]
        | reasonR r => cases h
        | binaryR b r => cases h
  · -- verdict
    have hProceed : ∀ (hpr : verdictProceed env depth o s = .ok (s', cs)),
        s'.nodes = s.nodes ∧
        ((s'.verboseSteps.map eraseDepth : List LogEntry) : Multiset LogEntry) =
          ((s.verboseSteps.map eraseDepth : List LogEntry) : Multiset LogEntry) +
            {construct_node_verbose_log o 0} ∧
        cs = ([] : List Nat).map (fun c => (c, depth + 1)) := by
      intro hpr
      obtain ⟨h1, h2, h3⟩ := verdictProceed_refines env depth o s s' cs hpr
      refine ⟨h1, ?_, by simp [h3]⟩
      rw [h2]
      simp [eraseDepth_construct, ← Multiset.coe_add, Multiset.coe_singleton]
    rcases hp : o.parentL with _ | p
    · rw [hp] at h
      dsimp only at h ⊢
      exact hProceed h
    · rw [hp] at h
      dsimp only at h ⊢
      rcases hlp : lookupNode s.nodes p with _ | po
      · rw [hlp] at h
        dsimp only at h ⊢
        exact hProceed h
      · rw [hlp] at h
        dsimp only at h ⊢
        by_cases hj : po.kind = .binaryJudgement ∨ po.kind = .nonBinaryJudgement
        · rw [if_pos hj] at h ⊢
          rcases hv : po.verdictV with _ | jv
          · rw [hv] at h
            cases h
          · rw [hv] at h
            dsimp only at h ⊢
            by_cases hb : (jv.verdict != o.label) = true
            · rw [hb] at h
              rw [if_pos hb]
              simp only at h
              injection h with h12
              injection h12 with h1 h2
              subst h1 h2
              exact ⟨rfl, by simp, rfl⟩
            · rw [Bool.not_eq_true] at hb
              rw [hb] at h
              rw [if_neg (by rw [hb]; exact Bool.false_ne_true)]
              simp only at h
              exact hProceed h
        · rw [if_neg hj] at h ⊢
          exact hProceed h

theorem nodeBody_refines (env : Env) (id depth : Nat) (s s' : ExecState)
    (cs : List (Nat × Nat)) (h : nodeBody env id depth s = .ok (s', cs)) :
    piState s' = (oStep env id (piState s)).1 ∧
    cs = ((oStep env id (piState s)).2).map (fun c => (c, depth + 1)) := by
  unfold nodeBody at h
  unfold oStep oStepParts
  simp only [piState]
  rcases hl : lookupNode s.nodes id with _ | o
  · rw [joinCheck_none s id hl] at h
    dsimp only at h
    rw [if_neg (by simp)] at h
    injection h with h12
    injection h12 with h1 h2
    subst h1 h2
    exact ⟨by simp [piState], by simp⟩
  · rw [joinCheck_eq s id o hl] at h
    dsimp only at h ⊢
    by_cases hpass : (decrement_indegree o.indegreeN == some 0) = true
    · rw [hpass] at h ⊢
      rw [if_pos rfl] at h ⊢
      rw [lookupNode_updateNode, if_pos rfl, hl] at h
      simp only [Option.map_some'] at h
      have hcore := nodeBodyCore_refines env depth id
        { o with indegreeN := decrement_indegree o.indegreeN }
        { s with nodes := updateNode s.nodes id (fun o' => { o' with indegreeN := decrement_indegree o.indegreeN }) }
        s' cs h
      obtain ⟨h1, h2, h3⟩ := hcore
      refine ⟨?_, h3⟩
      simp only [piState] at h1 h2 ⊢
      exact congrArg₂ OState.mk h1 h2
    · have hfalse : (decrement_indegree o.indegreeN == some 0) = false := by
        rwa [Bool.not_eq_true] at hpass
      rw [hfalse] at h ⊢
      rw [if_neg (by simp)] at h ⊢
      injection h with h12
      injection h12 with h1 h2
      subst h1 h2
      exact ⟨by simp [piState], by simp⟩

theorem oRun_nil (env : Env) (qm : Bool) (f : Nat) (σ : OState) :
    oRun env qm f [] σ = some σ := by
  cases f <;> rfl

theorem oRun_cons (env : Env) (qm : Bool) (f x : Nat) (rest : List Nat) (σ : OState) :
    oRun env qm (f + 1) (x :: rest) σ =
      oRun env qm f (if qm then rest ++ (oStep env x σ).2 else (oStep env x σ).2 ++ rest)
        (oStep env x σ).1 := rfl

theorem oStep_children_of_refines {env : Env} {id depth : Nat} {s : ExecState}
    {cs : List (Nat × Nat)}
    (h2 : cs = ((oStep env id (piState s)).2).map (fun c => (c, depth + 1))) :
    (oStep env id (piState s)).2 = cs.map (·.1) := by
  rw [h2]
  simp only [List.map_map]
  have hco : ((fun x : Nat × Nat => x.1) ∘ fun c : Nat => (c, depth + 1)) = (fun x : Nat => x) := by
    funext c
    rfl
  rw [hco]
  simp

/-- The parallel strategy is simulated by the FIFO observable run. -/
theorem parExec_bridge (env : Env) :
    ∀ (fuel : Nat) (L : List (Nat × Nat)) (s sf : ExecState),
      parExec env fuel L s = .ok sf →
      oRun env true fuel (L.map (·.1)) (piState s) = some (piState sf) := by
  intro fuel
  induction fuel with
  | zero =>
    intro L s sf h
    cases L with
    | nil =>
      unfold parExec at h
      injection h with h1
      subst h1
      rfl
    | cons c rest =>
      unfold parExec at h
      cases h
  | succ n ih =>
    intro L s sf h
    cases L with
    | nil =>
      unfold parExec at h
      injection h with h1
      subst h1
      rfl
    | cons c rest =>
      unfold parExec at h
      rcases hb : nodeBody env c.1 c.2 s with e | ⟨s1, cs⟩
      · rw [hb] at h
        cases h
      · rw [hb] at h
        have hih := ih (rest ++ cs) s1 sf h
        obtain ⟨h1, h2⟩ := nodeBody_refines env c.1 c.2 s s1 cs hb
        rw [List.map_cons, oRun_cons, if_pos rfl]
        rw [oStep_children_of_refines h2, ← h1, ← List.map_append]
        exact hih

/-- The sequential strategy is simulated (with suitable fuel) by the
prepend-discipline observable run, stated in continuation form. -/
theorem seqExec_bridge (env : Env) :
    ∀ fuel : Nat,
      (∀ (id depth : Nat) (s sf : ExecState), seqExec env fuel id depth s = .ok sf →
        ∀ (K : List Nat) (σK : OState) (fK : Nat),
          oRun env false fK K (piState sf) = some σK →
          ∃ f', oRun env false f' (id :: K) (piState s) = some σK) ∧
      (∀ (cs : List (Nat × Nat)) (s sf : ExecState),
        cs.foldlM (fun t c => seqExec env fuel c.1 c.2 t) s = .ok sf →
        ∀ (K : List Nat) (σK : OState) (fK : Nat),
          oRun env false fK K (piState sf) = some σK →
          ∃ f', oRun env false f' (cs.map (·.1) ++ K) (piState s) = some σK) := by
  intro fuel
  induction fuel with
  | zero =>
    constructor
    · intro id depth s sf h
      unfold seqExec at h
      cases h
    · intro cs s sf h K σK fK hK
      cases cs with
      | nil =>
        simp only [List.foldlM_nil] at h
        injection h with h1
        subst h1
        exact ⟨fK, hK⟩
      | cons c cs' =>
        simp only [List.foldlM_cons] at h
        unfold seqExec at h
        cases h
  | succ n ihn =>
    obtain ⟨ihSeq, ihList⟩ := ihn
    have hSeq : ∀ (id depth : Nat) (s sf : ExecState),
        seqExec env (n + 1) id depth s = .ok sf →
        ∀ (K : List Nat) (σK : OState) (fK : Nat),
          oRun env false fK K (piState sf) = some σK →
          ∃ f', oRun env false f' (id :: K) (piState s) = some σK := by
      intro id depth s sf h K σK fK hK
      unfold seqExec at h
      rcases hb : nodeBody env id depth s with e | ⟨s1, cs⟩
      · rw [hb] at h
        cases h
      · rw [hb] at h
        obtain ⟨f1, hf1⟩ := ihList cs s1 sf h K σK fK hK
        obtain ⟨h1, h2⟩ := nodeBody_refines env id depth s s1 cs hb
        refine ⟨f1 + 1, ?_⟩
        rw [oRun_cons, if_neg (by simp)]
        rw [oStep_children_of_refines h2, ← h1]
        exact hf1
    refine ⟨hSeq, ?_⟩
    intro cs
    induction cs with
    | nil =>
      intro s sf h K σK fK hK
      simp only [List.foldlM_nil] at h
      injection h with h1
      subst h1
      exact ⟨fK, hK⟩
    | cons c cs' ihcs =>
      intro s sf h K σK fK hK
      simp only [List.foldlM_cons] at h
      rcases hx : seqExec env (n + 1) c.1 c.2 s with e | s1
      · rw [hx] at h
        cases h
      · rw [hx] at h
        obtain ⟨f2, hf2⟩ := ihcs s1 sf h K σK fK hK
        obtain ⟨f3, hf3⟩ := hSeq c.1 c.2 s s1 hx (cs'.map (·.1) ++ K) σK f2 hf2
        exact ⟨f3, by simpa using hf3⟩

def keysOf (nodes : NodeList) : List Nat := nodes.map (·.1)

/-- The static part of a node object: everything except the three fields
execution mutates (`_indegree`, `_output`, `_verdict`). -/
def scrub (o : NodeObj) : NodeObj :=
  { o with indegreeN := none, output := none, verdictV := none }

/-- `child` occurs in the children list of the node stored at `p`. -/
def childRegistered (nodes : NodeList) (p child : Nat) : Prop :=
  match lookupNode nodes p with
  | some po => child ∈ po.children
  | none => False

instance (nodes : NodeList) (p child : Nat) : Decidable (childRegistered nodes p child) := by
  unfold childRegistered
  rcases lookupNode nodes p with _ | po
  · exact inferInstanceAs (Decidable False)
  · exact inferInstanceAs (Decidable (child ∈ po.children))

def parentsClause (nodes : NodeList) (kv : Nat × NodeObj) : Prop :=
  match kv.2.parentsL with
  | some ps => ∀ p ∈ ps, childRegistered nodes p kv.1
  | none => True

instance (nodes : NodeList) (kv : Nat × NodeObj) : Decidable (parentsClause nodes kv) := by
  unfold parentsClause
  rcases kv.2.parentsL with _ | ps
  · exact inferInstanceAs (Decidable True)
  · exact inferInstanceAs (Decidable (∀ p ∈ ps, childRegistered nodes p kv.1))

def parentClause (nodes : NodeList) (kv : Nat × NodeObj) : Prop :=
  match kv.2.parentL with
  | some p => childRegistered nodes p kv.1
  | none => True

instance (nodes : NodeList) (kv : Nat × NodeObj) : Decidable (parentClause nodes kv) := by
  unfold parentClause
  rcases kv.2.parentL with _ | p
  · exact inferInstanceAs (Decidable True)
  · exact inferInstanceAs (Decidable (childRegistered nodes p kv.1))

/-- Shape facts needed for a node body to run without raising: tasks have
an `evaluation_params` list, judgement nodes have a `_parents` list, and
verdict nodes are terminal. -/
def shapeClause (kv : Nat × NodeObj) : Prop :=
  (kv.2.kind = .task → kv.2.evaluationParams ≠ none) ∧
  ((kv.2.kind = .binaryJudgement ∨ kv.2.kind = .nonBinaryJudgement) → kv.2.parentsL ≠ none) ∧
  (kv.2.kind = .verdict → kv.2.children = [])

/-- Structural well-formedness of a built graph: distinct node identities,
children present and of strictly larger rank (acyclicity via a rank
function bounded by `R`), every listed parent actually registered on the
child (it occurs in that parent's children), and the shape facts. -/
def WfStat (rank : Nat → Nat) (R : Nat) (nodes : NodeList) : Prop :=
  (keysOf nodes).Nodup ∧
  (∀ kv ∈ nodes, rank kv.1 < R) ∧
  (∀ kv ∈ nodes, ∀ c ∈ kv.2.children, (lookupNode nodes c).isSome ∧ rank kv.1 < rank c) ∧
  (∀ kv ∈ nodes, parentsClause nodes kv) ∧
  (∀ kv ∈ nodes, parentClause nodes kv) ∧
  (∀ kv ∈ nodes, shapeClause kv)

/-- Total number of registered edges into `n`. -/
def sumChildOcc (nodes : NodeList) (n : Nat) : Nat :=
  (nodes.map (fun kv => kv.2.children.count n)).sum

/-- Registered edges into `n` from parents that have not executed yet (a
node is executed exactly when its counter is `0`). -/
def unexecOcc (nodes : NodeList) (n : Nat) : Nat :=
  (nodes.map (fun kv => if kv.2.indegreeN = some 0 then 0 else kv.2.children.count n)).sum

/-- Counter accounting for one node: a live counter equals the number of
unexecuted registered parents plus the pending visits; an untouched `None`
counter belongs to a node with no registered parents and at most one
pending (root) visit. -/
def acctClause (nodes : NodeList) (L : List Nat) (kv : Nat × NodeObj) : Prop :=
  match kv.2.indegreeN with
  | some c => c = (unexecOcc nodes kv.1 : Int) + (L.count kv.1 : Int)
  | none => sumChildOcc nodes kv.1 = 0 ∧ L.count kv.1 ≤ 1

instance (nodes : NodeList) (L : List Nat) (kv : Nat × NodeObj) :
    Decidable (acctClause nodes L kv) :=
  match h : kv.2.indegreeN with
  | some c =>
    decidable_of_iff (c = (unexecOcc nodes kv.1 : Int) + (L.count kv.1 : Int))
      (by unfold acctClause; rw [h])
  | none =>
    decidable_of_iff (sumChildOcc nodes kv.1 = 0 ∧ L.count kv.1 ≤ 1)
      (by unfold acctClause; rw [h])

/-- The dynamic invariant tying counters to the pending worklist. -/
def InvD (nodes : NodeList) (L : List Nat) : Prop :=
  (∀ n ∈ L, (lookupNode nodes n).isSome) ∧ (∀ kv ∈ nodes, acctClause nodes L kv)

/-- A deterministic judge stub that always honors the verdict schemas (the
claim's "deterministic judge stub"; a schema failure would abort the pass
in both strategies anyway). -/
def WfEnv (env : Env) : Prop :=
  (∀ p, ∃ b r c, resolveSchema env p .binaryT = .ok (.binaryR b r, c)) ∧
  (∀ p opts, ∃ v r c, resolveSchema env p (.nonBinaryT opts) = .ok (.nonBinaryR v r, c))

theorem updateNode_eq_map (ns : NodeList) (id : Nat) (f : NodeObj → NodeObj) :
    updateNode ns id f = ns.map (fun kv => if kv.1 = id then (kv.1, f kv.2) else kv) := by
  induction ns with
  | nil => rfl
  | cons kv t ih =>
    obtain ⟨k, v⟩ := kv
    simp only [updateNode, List.map_cons, ih]

theorem keysOf_updateNode (ns : NodeList) (id : Nat) (f : NodeObj → NodeObj) :
    keysOf (updateNode ns id f) = keysOf ns := by
  rw [updateNode_eq_map]
  unfold keysOf
  rw [List.map_map]
  apply List.map_congr_left
  intro kv _
  by_cases h : kv.1 = id <;> simp [h]

theorem updateNode_not_mem (ns : NodeList) (id : Nat) (f : NodeObj → NodeObj)
    (h : id ∉ keysOf ns) : updateNode ns id f = ns := by
  induction ns with
  | nil => rfl
  | cons kv t ih =>
    obtain ⟨k, v⟩ := kv
    unfold updateNode
    have hk : k ≠ id := by
      intro hc
      exact h (by simp [keysOf, hc])
    rw [if_neg hk, ih (fun hc => h (by simp [keysOf] at hc ⊢; exact Or.inr hc))]

theorem updateNode_comp (ns : NodeList) (id : Nat) (f g : NodeObj → NodeObj) :
    updateNode (updateNode ns id f) id g = updateNode ns id (fun o => g (f o)) := by
  induction ns with
  | nil => rfl
  | cons kv t ih =>
    obtain ⟨k, v⟩ := kv
    unfold updateNode
    by_cases h : k = id
    · rw [if_pos h]
      simp only [updateNode, if_pos h, ih]
    · rw [if_neg h]
      simp only [updateNode, if_neg h, ih]

theorem updateNode_id_fun (ns : NodeList) (id : Nat) :
    updateNode ns id (fun o => o) = ns := by
  induction ns with
  | nil => rfl
  | cons kv t ih =>
    obtain ⟨k, v⟩ := kv
    unfold updateNode
    by_cases h : k = id <;> simp [h, ih]

theorem updateNode_cons (k : Nat) (v : NodeObj) (t : List (Nat × NodeObj))
    (id : Nat) (f : NodeObj → NodeObj) :
    updateNode ((k, v) :: t) id f =
      (if k = id then (k, f v) else (k, v)) :: updateNode t id f := rfl

theorem updateNode_comm (ns : NodeList) (x y : Nat) (f g : NodeObj → NodeObj)
    (hxy : x ≠ y) :
    updateNode (updateNode ns x f) y g = updateNode (updateNode ns y g) x f := by
  induction ns with
  | nil => rfl
  | cons kv t ih =>
    obtain ⟨k, v⟩ := kv
    by_cases hx : k = x
    · subst hx
      simp [updateNode_cons, hxy, ih]
    · by_cases hy : k = y
      · subst hy
        have hx' : ¬k = x := fun hc => hx hc
        simp [updateNode_cons, hx', ih]
      · simp [updateNode_cons, hx, hy, ih]

theorem lookup_mem (ns : NodeList) (n : Nat) (o : NodeObj)
    (h : lookupNode ns n = some o) : (n, o) ∈ ns := by
  induction ns with
  | nil => cases h
  | cons kv t ih =>
    obtain ⟨k, v⟩ := kv
    simp only [lookupNode, List.lookup] at h
    rcases hb : (n == k) with _ | _
    · rw [hb] at h
      exact List.mem_cons_of_mem _ (ih h)
    · rw [hb] at h
      injection h with h1
      have hk : n = k := by simpa using hb
      subst hk h1
      exact List.mem_cons_self _ _

theorem mem_lookup (ns : NodeList) (n : Nat) (o : NodeObj)
    (hnd : (keysOf ns).Nodup) (h : (n, o) ∈ ns) : lookupNode ns n = some o := by
  induction ns with
  | nil => cases h
  | cons kv t ih =>
    obtain ⟨k, v⟩ := kv
    rcases List.mem_cons.mp h with heq | hmem
    · injection heq with h1 h2
      subst h1 h2
      simp [lookupNode, List.lookup]
    · have hnd' := List.nodup_cons.mp hnd
      have hk : n ≠ k := fun hc => hnd'.1
        (by subst hc; exact List.mem_map.mpr ⟨(n, o), hmem, rfl⟩)
      have hb : (n == k) = false := by simp [hk]
      simp only [lookupNode, List.lookup, hb]
      exact ih hnd'.2 hmem

theorem mapsum_update (ns : NodeList) (x : Nat) (f : NodeObj → NodeObj)
    (g : Nat × NodeObj → Nat) (hnd : (keysOf ns).Nodup) (o : NodeObj)
    (ho : lookupNode ns x = some o) :
    ((updateNode ns x f).map g).sum + g (x, o) = (ns.map g).sum + g (x, f o) := by
  induction ns with
  | nil => cases ho
  | cons kv t ih =>
    obtain ⟨k, v⟩ := kv
    have hnd' := List.nodup_cons.mp hnd
    by_cases hk : k = x
    · subst hk
      simp only [lookupNode, List.lookup, beq_self_eq_true] at ho
      injection ho with h1
      subst h1
      unfold updateNode
      rw [if_pos rfl]
      rw [updateNode_not_mem t k f hnd'.1]
      simp only [List.map_cons, List.sum_cons]
      omega
    · have hk' : ¬x = k := fun hc => hk hc.symm
      have hb : (x == k) = false := by simp [hk']
      simp only [lookupNode, List.lookup, hb] at ho
      unfold updateNode
      rw [if_neg hk]
      have := ih hnd'.2 ho
      simp only [List.map_cons, List.sum_cons]
      omega

theorem entry_le_mapsum (ns : NodeList) (g : Nat × NodeObj → Nat) (kv : Nat × NodeObj)
    (h : kv ∈ ns) : g kv ≤ (ns.map g).sum := by
  induction ns with
  | nil => cases h
  | cons kv' t ih =>
    rcases List.mem_cons.mp h with heq | hmem
    · subst heq
      simp only [List.map_cons, List.sum_cons]
      omega
    · simp only [List.map_cons, List.sum_cons]
      have := ih hmem
      omega

/-! ### A termination measure for the observable runs

`Wb nodes b x` is the bounded tree weight of the subdag rooted at `x`
(1 for the node plus the weights of its children, cut off at depth `b`).
Under the rank-acyclicity of `WfStat` the weight stabilizes once the
bound exceeds `R - rank x`, so `Wb nodes R` is a genuine dag weight:
the children of a present node weigh strictly less than the node. -/

/-- The children list of the node stored at `x` (empty when absent). -/
def childrenOf (nodes : NodeList) (x : Nat) : List Nat :=
  match lookupNode nodes x with
  | some o => o.children
  | none => []

/-- Bounded tree weight of the subdag rooted at `x`. -/
def Wb (nodes : NodeList) : Nat → Nat → Nat
  | 0, _ => 1
  | b + 1, x => 1 + ((childrenOf nodes x).map (Wb nodes b)).sum

def nodeWeight (R : Nat) (nodes : NodeList) (x : Nat) : Nat := Wb nodes R x

def listWeight (R : Nat) (nodes : NodeList) (L : List Nat) : Nat :=
  (L.map (nodeWeight R nodes)).sum

theorem Wb_pos (nodes : NodeList) (b x : Nat) : 1 ≤ Wb nodes b x := by
  cases b <;> simp [Wb]

theorem Wb_missing (nodes : NodeList) (x : Nat) (h : lookupNode nodes x = none) :
    ∀ b, Wb nodes b x = 1 := by
  intro b
  cases b with
  | zero => rfl
  | succ b => simp [Wb, childrenOf, h]

theorem Wb_congr (n₁ n₂ : NodeList) (hc : ∀ y, childrenOf n₁ y = childrenOf n₂ y) :
    ∀ b x, Wb n₁ b x = Wb n₂ b x := by
  intro b
  induction b with
  | zero => intro x; rfl
  | succ b ih =>
    intro x
    simp only [Wb, hc x]
    congr 1
    exact congrArg List.sum (List.map_congr_left (fun c _ => ih c))

/-- Past the bound `R - rank x` the bounded weight no longer depends on the
bound (rank-acyclicity makes the recursion terminate before the cutoff). -/
theorem Wb_stab (rank : Nat → Nat) (R : Nat) (nodes : NodeList)
    (h3 : ∀ kv ∈ nodes, ∀ c ∈ kv.2.children,
      (lookupNode nodes c).isSome ∧ rank kv.1 < rank c)
    (hR : ∀ kv ∈ nodes, rank kv.1 < R) :
    ∀ (k x b₁ b₂ : Nat), R - rank x ≤ k → R - rank x ≤ b₁ → R - rank x ≤ b₂ →
      Wb nodes b₁ x = Wb nodes b₂ x := by
  intro k
  induction k with
  | zero =>
    intro x b₁ b₂ hk h1 h2
    rcases ho : lookupNode nodes x with _ | o
    · rw [Wb_missing nodes x ho, Wb_missing nodes x ho]
    · have hmem := lookup_mem nodes x o ho
      have hrx : rank x < R := hR (x, o) hmem
      omega
  | succ k ih =>
    intro x b₁ b₂ hk h1 h2
    rcases ho : lookupNode nodes x with _ | o
    · rw [Wb_missing nodes x ho, Wb_missing nodes x ho]
    · have hmem := lookup_mem nodes x o ho
      have hrx : rank x < R := hR (x, o) hmem
      obtain ⟨b₁', rfl⟩ : ∃ b, b₁ = b + 1 := ⟨b₁ - 1, by omega⟩
      obtain ⟨b₂', rfl⟩ : ∃ b, b₂ = b + 1 := ⟨b₂ - 1, by omega⟩
      simp only [Wb]
      congr 1
      apply congrArg List.sum
      apply List.map_congr_left
      intro c hc
      have hcc : c ∈ o.children := by
        simpa [childrenOf, ho] using hc
      have hcf := h3 (x, o) hmem c hcc
      have hrc : rank x < rank c := hcf.2
      exact ih c b₁' b₂' (by omega) (by omega) (by omega)

theorem listWeight_nil (R : Nat) (nodes : NodeList) : listWeight R nodes [] = 0 := rfl

theorem listWeight_cons (R : Nat) (nodes : NodeList) (x : Nat) (L : List Nat) :
    listWeight R nodes (x :: L) = nodeWeight R nodes x + listWeight R nodes L := by
  simp [listWeight]

theorem listWeight_append (R : Nat) (nodes : NodeList) (L₁ L₂ : List Nat) :
    listWeight R nodes (L₁ ++ L₂) = listWeight R nodes L₁ + listWeight R nodes L₂ := by
  simp [listWeight]

theorem listWeight_perm (R : Nat) (nodes : NodeList) {L₁ L₂ : List Nat}
    (h : L₁.Perm L₂) : listWeight R nodes L₁ = listWeight R nodes L₂ :=
  (h.map (nodeWeight R nodes)).sum_eq

theorem listWeight_congr (R : Nat) (n₁ n₂ : NodeList)
    (hc : ∀ y, childrenOf n₁ y = childrenOf n₂ y) (L : List Nat) :
    listWeight R n₁ L = listWeight R n₂ L := by
  unfold listWeight
  apply congrArg List.sum
  apply List.map_congr_left
  intro x _
  exact Wb_congr n₁ n₂ hc R x

/-- The children of a present node weigh strictly less than the node. -/
theorem children_weight_lt (rank : Nat → Nat) (R : Nat) (nodes : NodeList)
    (hwf : WfStat rank R nodes) (x : Nat) (o : NodeObj)
    (ho : lookupNode nodes x = some o) :
    listWeight R nodes o.children < nodeWeight R nodes x := by
  obtain ⟨hnd, hR, h3, _, _, _⟩ := hwf
  have hmem := lookup_mem nodes x o ho
  have hrx : rank x < R := hR (x, o) hmem
  obtain ⟨R', rfl⟩ : ∃ q, R = q + 1 := ⟨R - 1, by omega⟩
  have hch : childrenOf nodes x = o.children := by simp [childrenOf, ho]
  have hW : nodeWeight (R' + 1) nodes x =
      1 + (o.children.map (Wb nodes R')).sum := by
    unfold nodeWeight
    rw [show Wb nodes (R' + 1) x = 1 + ((childrenOf nodes x).map (Wb nodes R')).sum from rfl,
        hch]
  have heq : (o.children.map (nodeWeight (R' + 1) nodes)).sum =
      (o.children.map (Wb nodes R')).sum := by
    apply congrArg List.sum
    apply List.map_congr_left
    intro c hc
    have hcf := h3 (x, o) hmem c hc
    have hrc : rank x < rank c := hcf.2
    exact Wb_stab rank (R' + 1) nodes h3 hR (R' + 1) c (R' + 1) R'
      (by omega) (by omega) (by omega)
  unfold listWeight
  rw [heq, hW]
  omega

/-! ### Scrub-preserving heap updates

Every heap write execution performs touches only the three dynamic fields
(`_indegree`, `_output`, `_verdict`): it is an `updateNode` at the visited
key with a `scrub`-preserving function.  All static clauses of `WfStat`,
and the weight measure, are invariant under such updates. -/

theorem scrub_children {a b : NodeObj} (h : scrub a = scrub b) :
    a.children = b.children := by
  have h2 := congrArg NodeObj.children h
  exact h2

theorem scrub_kind {a b : NodeObj} (h : scrub a = scrub b) :
    a.kind = b.kind := by
  have h2 := congrArg NodeObj.kind h
  exact h2

theorem scrub_parentsL {a b : NodeObj} (h : scrub a = scrub b) :
    a.parentsL = b.parentsL := by
  have h2 := congrArg NodeObj.parentsL h
  exact h2

theorem scrub_parentL {a b : NodeObj} (h : scrub a = scrub b) :
    a.parentL = b.parentL := by
  have h2 := congrArg NodeObj.parentL h
  exact h2

theorem scrub_evaluationParams {a b : NodeObj} (h : scrub a = scrub b) :
    a.evaluationParams = b.evaluationParams := by
  have h2 := congrArg NodeObj.evaluationParams h
  exact h2

theorem childrenOf_update (nodes : NodeList) (id : Nat) (g : NodeObj → NodeObj)
    (hg : ∀ u, scrub (g u) = scrub u) (y : Nat) :
    childrenOf (updateNode nodes id g) y = childrenOf nodes y := by
  unfold childrenOf
  rw [lookupNode_updateNode]
  by_cases hy : y = id
  · rw [if_pos hy]
    rcases ho : lookupNode nodes y with _ | o
    · rfl
    · simp only [Option.map_some']
      exact scrub_children (hg o)
  · rw [if_neg hy]

/-- The core of a node visit only rewrites the visited entry, with a
scrub-preserving, counter-preserving function. -/
theorem oCoreParts_update (env : Env) (id : Nat) (o : NodeObj) (nodes : NodeList) :
    ∃ g : NodeObj → NodeObj,
      (oCoreParts env id o nodes).1 = updateNode nodes id g ∧
      (∀ u, scrub (g u) = scrub u) ∧ (∀ u, (g u).indegreeN = u.indegreeN) := by
  have hid : (nodes : NodeList) = updateNode nodes id (fun u => u) :=
    (updateNode_id_fun nodes id).symm
  unfold oCoreParts
  rcases hk : o.kind with _ | _ | _ | _
  all_goals dsimp only
  · -- task
    rcases hp : o.evaluationParams with _ | prs
    all_goals dsimp only
    · exact ⟨fun u => u, hid, fun u => rfl, fun u => rfl⟩
    · refine ⟨fun u => { u with output := some (env.generate (.taskP o.instructions
        (appendParams env (match o.parentsL with
          | none => ""
          | some ps => appendParents nodes "\n\n" "" ps) prs))).1 }, rfl, ?_, ?_⟩
      · intro u
        cases u
        rfl
      · intro u
        rfl
  · -- binary judgement
    rcases hp : o.parentsL with _ | ps
    all_goals dsimp only
    · exact ⟨fun u => u, hid, fun u => rfl, fun u => rfl⟩
    · rcases hr : resolveSchema env (.binaryP o.criteria
        (match o.evaluationParams with
          | none => appendParents nodes "\n\n" "" ps
          | some prs => appendParams env (appendParents nodes "\n\n" "" ps) prs)) .binaryT
        with e | ⟨res, cost⟩
      · dsimp only
        exact ⟨fun u => u, hid, fun u => rfl, fun u => rfl⟩
      · cases res with
        | binaryR b r =>
          dsimp only
          refine ⟨fun u => { u with verdictV := some ⟨.bool b, r⟩ }, rfl, ?_, ?_⟩
          · intro u
            cases u
            rfl
          · intro u
            rfl
        | nonBinaryR v r =>
          dsimp only
          exact ⟨fun u => u, hid, fun u => rfl, fun u => rfl⟩
        | reasonR r =>
          dsimp only
          exact ⟨fun u => u, hid, fun u => rfl, fun u => rfl⟩
  · -- non-binary judgement
    rcases hp : o.parentsL with _ | ps
    all_goals dsimp only
    · exact ⟨fun u => u, hid, fun u => rfl, fun u => rfl⟩
    · rcases hr : resolveSchema env (.nonBinaryP o.criteria
        (match o.evaluationParams with
          | none => appendParents nodes "\n" "" ps
          | some prs => appendParams env (appendParents nodes "\n" "" ps) prs)
        o.verdictOptions) (.nonBinaryT o.verdictOptions) with e | ⟨res, cost⟩
      · dsimp only
        exact ⟨fun u => u, hid, fun u => rfl, fun u => rfl⟩
      · cases res with
        | binaryR b r =>
          dsimp only
          exact ⟨fun u => u, hid, fun u => rfl, fun u => rfl⟩
        | nonBinaryR v r =>
          dsimp only
          refine ⟨fun u => { u with verdictV := some ⟨.str v, r⟩ }, rfl, ?_, ?_⟩
          · intro u
            cases u
            rfl
          · intro u
            rfl
        | reasonR r =>
          dsimp only
          exact ⟨fun u => u, hid, fun u => rfl, fun u => rfl⟩
  · -- verdict
    rcases o.parentL with _ | p
    all_goals dsimp only
    · exact ⟨fun u => u, hid, fun u => rfl, fun u => rfl⟩
    · rcases lookupNode nodes p with _ | po
      all_goals dsimp only
      · exact ⟨fun u => u, hid, fun u => rfl, fun u => rfl⟩
      · by_cases hb : po.kind = .binaryJudgement ∨ po.kind = .nonBinaryJudgement
        · rw [if_pos hb]
          rcases po.verdictV with _ | jv
          all_goals dsimp only
          · exact ⟨fun u => u, hid, fun u => rfl, fun u => rfl⟩
          · by_cases hg : (jv.verdict != o.label) = true
            · rw [if_pos hg]
              exact ⟨fun u => u, hid, fun u => rfl, fun u => rfl⟩
            · rw [if_neg hg]
              exact ⟨fun u => u, hid, fun u => rfl, fun u => rfl⟩
        · rw [if_neg hb]
          exact ⟨fun u => u, hid, fun u => rfl, fun u => rfl⟩

/-- A full node visit (join decrement plus core) is an `updateNode` at the
visited key with a scrub-preserving function. -/
theorem oStepParts_update (env : Env) (x : Nat) (nodes : NodeList) :
    ∃ g : NodeObj → NodeObj,
      (oStepParts env x nodes).1 = updateNode nodes x g ∧
      (∀ u, scrub (g u) = scrub u) := by
  unfold oStepParts
  rcases ho : lookupNode nodes x with _ | o
  · exact ⟨fun u => u, (updateNode_id_fun nodes x).symm, fun u => rfl⟩
  · dsimp only
    by_cases hc : (decrement_indegree o.indegreeN == some 0) = true
    · rw [if_pos hc]
      obtain ⟨g, hgeq, hgs, _⟩ := oCoreParts_update env x
        { o with indegreeN := decrement_indegree o.indegreeN }
        (updateNode nodes x (fun o' => { o' with indegreeN := decrement_indegree o.indegreeN }))
      refine ⟨fun u => g { u with indegreeN := decrement_indegree o.indegreeN }, ?_, ?_⟩
      · rw [hgeq, updateNode_comp]
      · intro u
        rw [hgs]
        cases u
        rfl
    · rw [if_neg hc]
      refine ⟨fun u => { u with indegreeN := decrement_indegree o.indegreeN }, rfl, ?_⟩
      intro u
      cases u
      rfl

theorem childrenOf_step (env : Env) (x : Nat) (nodes : NodeList) (y : Nat) :
    childrenOf (oStepParts env x nodes).1 y = childrenOf nodes y := by
  obtain ⟨g, hgeq, hgs⟩ := oStepParts_update env x nodes
  rw [hgeq]
  exact childrenOf_update nodes x g hgs y

/-- Every entry of an updated heap agrees with an entry of the original on
key and static content. -/
theorem mem_update_scrub (nodes : NodeList) (id : Nat) (g : NodeObj → NodeObj)
    (hg : ∀ u, scrub (g u) = scrub u) (kv' : Nat × NodeObj)
    (h : kv' ∈ updateNode nodes id g) :
    ∃ kv ∈ nodes, kv'.1 = kv.1 ∧ scrub kv'.2 = scrub kv.2 := by
  rw [updateNode_eq_map] at h
  obtain ⟨kv, hkv, heq⟩ := List.mem_map.mp h
  by_cases hx : kv.1 = id
  · rw [if_pos hx] at heq
    refine ⟨kv, hkv, ?_, ?_⟩
    · rw [← heq]
    · rw [← heq]
      exact hg kv.2
  · rw [if_neg hx] at heq
    exact ⟨kv, hkv, by rw [heq], by rw [heq]⟩

theorem childRegistered_update (nodes : NodeList) (id : Nat) (g : NodeObj → NodeObj)
    (hg : ∀ u, scrub (g u) = scrub u) (p c : Nat)
    (h : childRegistered nodes p c) : childRegistered (updateNode nodes id g) p c := by
  unfold childRegistered at h ⊢
  rw [lookupNode_updateNode]
  by_cases hp : p = id
  · rw [if_pos hp]
    rcases ho : lookupNode nodes p with _ | po
    · rw [ho] at h
      exact h.elim
    · rw [ho] at h
      have h' : c ∈ po.children := h
      simp only [Option.map_some']
      show c ∈ (g po).children
      rw [scrub_children (hg po)]
      exact h'
  · rw [if_neg hp]
    exact h

theorem shapeClause_scrub {a b : NodeObj} (h : scrub a = scrub b) (n m : Nat) :
    shapeClause (n, a) ↔ shapeClause (m, b) := by
  unfold shapeClause
  dsimp only
  rw [scrub_kind h, scrub_evaluationParams h, scrub_parentsL h, scrub_children h]

/-- Structural well-formedness is preserved by any scrub-preserving heap
update. -/
theorem WfStat_update (rank : Nat → Nat) (R : Nat) (nodes : NodeList) (id : Nat)
    (g : NodeObj → NodeObj) (hg : ∀ u, scrub (g u) = scrub u)
    (hwf : WfStat rank R nodes) : WfStat rank R (updateNode nodes id g) := by
  obtain ⟨hnd, hR, h3, h4, h5, h6⟩ := hwf
  refine ⟨?_, ?_, ?_, ?_, ?_, ?_⟩
  · rw [keysOf_updateNode]
    exact hnd
  · intro kv' hkv'
    obtain ⟨kv, hkv, h1, h2⟩ := mem_update_scrub nodes id g hg kv' hkv'
    rw [h1]
    exact hR kv hkv
  · intro kv' hkv' c hc
    obtain ⟨kv, hkv, h1, h2⟩ := mem_update_scrub nodes id g hg kv' hkv'
    rw [scrub_children h2] at hc
    have hcf := h3 kv hkv c hc
    refine ⟨?_, ?_⟩
    · rw [lookupNode_updateNode]
      by_cases hcid : c = id
      · rw [if_pos hcid]
        rcases hlc : lookupNode nodes c with _ | oc
        · rw [hlc] at hcf
          exact absurd hcf.1 (by simp)
        · simp
      · rw [if_neg hcid]
        exact hcf.1
    · rw [h1]
      exact hcf.2
  · intro kv' hkv'
    obtain ⟨kv, hkv, h1, h2⟩ := mem_update_scrub nodes id g hg kv' hkv'
    unfold parentsClause
    rw [scrub_parentsL h2]
    have h4' := h4 kv hkv
    unfold parentsClause at h4'
    rcases hps : kv.2.parentsL with _ | ps
    · trivial
    · rw [hps] at h4'
      intro p hp
      rw [h1]
      exact childRegistered_update nodes id g hg p kv.1 (h4' p hp)
  · intro kv' hkv'
    obtain ⟨kv, hkv, h1, h2⟩ := mem_update_scrub nodes id g hg kv' hkv'
    unfold parentClause
    rw [scrub_parentL h2]
    have h5' := h5 kv hkv
    unfold parentClause at h5'
    rcases hps : kv.2.parentL with _ | p
    · trivial
    · rw [hps] at h5'
      rw [h1]
      exact childRegistered_update nodes id g hg p kv.1 h5'
  · intro kv' hkv'
    obtain ⟨kv, hkv, h1, h2⟩ := mem_update_scrub nodes id g hg kv' hkv'
    have := (shapeClause_scrub h2 kv'.1 kv.1).mpr ((h6 kv hkv))
    simpa using this

theorem WfStat_step (env : Env) (rank : Nat → Nat) (R : Nat) (x : Nat)
    (nodes : NodeList) (hwf : WfStat rank R nodes) :
    WfStat rank R (oStepParts env x nodes).1 := by
  obtain ⟨g, hgeq, hgs⟩ := oStepParts_update env x nodes
  rw [hgeq]
  exact WfStat_update rank R nodes x g hgs hwf

/-- The child visits emitted by a step are the visited node's children (or
nothing). -/
theorem oStepParts_children (env : Env) (x : Nat) (nodes : NodeList) :
    (oStepParts env x nodes).2.2 = [] ∨
    ∃ o, lookupNode nodes x = some o ∧ (oStepParts env x nodes).2.2 = o.children := by
  unfold oStepParts
  rcases ho : lookupNode nodes x with _ | o
  · exact Or.inl rfl
  · dsimp only
    by_cases hc : (decrement_indegree o.indegreeN == some 0) = true
    · rw [if_pos hc]
      unfold oCoreParts
      rcases hk : o.kind with _ | _ | _ | _
      all_goals dsimp only
      · -- task
        rcases hp : o.evaluationParams with _ | prs
        · exact Or.inl rfl
        · dsimp only
          exact Or.inr ⟨o, rfl, rfl⟩
      · -- binary judgement
        rcases hp : o.parentsL with _ | ps
        · exact Or.inl rfl
        · dsimp only
          rcases hr : resolveSchema env (.binaryP o.criteria
              (match o.evaluationParams with
                | none => appendParents (updateNode nodes x fun o' =>
                    { o' with indegreeN := decrement_indegree o.indegreeN }) "\n\n" "" ps
                | some prs => appendParams env (appendParents (updateNode nodes x fun o' =>
                    { o' with indegreeN := decrement_indegree o.indegreeN }) "\n\n" "" ps) prs))
              .binaryT with e | ⟨res, cost⟩
          · exact Or.inl rfl
          · cases res with
            | binaryR b r => exact Or.inr ⟨o, rfl, rfl⟩
            | nonBinaryR v r => exact Or.inl rfl
            | reasonR r => exact Or.inl rfl
      · -- non-binary judgement
        rcases hp : o.parentsL with _ | ps
        · exact Or.inl rfl
        · dsimp only
          rcases hr : resolveSchema env (.nonBinaryP o.criteria
              (match o.evaluationParams with
                | none => appendParents (updateNode nodes x fun o' =>
                    { o' with indegreeN := decrement_indegree o.indegreeN }) "\n" "" ps
                | some prs => appendParams env (appendParents (updateNode nodes x fun o' =>
                    { o' with indegreeN := decrement_indegree o.indegreeN }) "\n" "" ps) prs)
              o.verdictOptions) (.nonBinaryT o.verdictOptions) with e | ⟨res, cost⟩
          · exact Or.inl rfl
          · cases res with
            | binaryR b r => exact Or.inl rfl
            | nonBinaryR v r => exact Or.inr ⟨o, rfl, rfl⟩
            | reasonR r => exact Or.inl rfl
      · -- verdict
        rcases o.parentL with _ | p
        · exact Or.inl rfl
        · dsimp only
          rcases lookupNode (updateNode nodes x fun o' =>
              { o' with indegreeN := decrement_indegree o.indegreeN }) p with _ | po
          · exact Or.inl rfl
          · dsimp only
            by_cases hb : po.kind = .binaryJudgement ∨ po.kind = .nonBinaryJudgement
            · rw [if_pos hb]
              rcases po.verdictV with _ | jv
              · exact Or.inl rfl
              · dsimp only
                by_cases hgt : (jv.verdict != o.label) = true
                · rw [if_pos hgt]
                  exact Or.inl rfl
                · rw [if_neg hgt]
                  exact Or.inl rfl
            · rw [if_neg hb]
              exact Or.inl rfl
    · rw [if_neg hc]
      exact Or.inl rfl

theorem oStepParts_weight (env : Env) (rank : Nat → Nat) (R : Nat) (x : Nat)
    (nodes : NodeList) (hwf : WfStat rank R nodes) :
    listWeight R nodes (oStepParts env x nodes).2.2 < nodeWeight R nodes x := by
  rcases oStepParts_children env x nodes with h | ⟨o, ho, h⟩
  · rw [h, listWeight_nil]
    exact Wb_pos nodes R x
  · rw [h]
    exact children_weight_lt rank R nodes hwf x o ho

/-- Each step strictly decreases the total worklist weight, however the
emitted children are merged back into the worklist. -/
theorem measure_lt (env : Env) (rank : Nat → Nat) (R : Nat) (x : Nat)
    (rest L' : List Nat) (nodes : NodeList) (hwf : WfStat rank R nodes)
    (hL : L'.Perm (rest ++ (oStepParts env x nodes).2.2)) :
    listWeight R (oStepParts env x nodes).1 L' < listWeight R nodes (x :: rest) := by
  rw [listWeight_congr R (oStepParts env x nodes).1 nodes (childrenOf_step env x nodes) L',
      listWeight_perm R nodes hL, listWeight_append, listWeight_cons]
  have := oStepParts_weight env rank R x nodes hwf
  omega

/-! ### Counter accounting under a step -/

theorem acctClause_some (nodes : NodeList) (L : List Nat) (kv : Nat × NodeObj)
    (c : Int) (h : kv.2.indegreeN = some c) :
    acctClause nodes L kv ↔
      c = (unexecOcc nodes kv.1 : Int) + (L.count kv.1 : Int) := by
  unfold acctClause
  rw [h]

theorem acctClause_none (nodes : NodeList) (L : List Nat) (kv : Nat × NodeObj)
    (h : kv.2.indegreeN = none) :
    acctClause nodes L kv ↔
      sumChildOcc nodes kv.1 = 0 ∧ L.count kv.1 ≤ 1 := by
  unfold acctClause
  rw [h]

theorem isSome_update (ns : NodeList) (id : Nat) (g : NodeObj → NodeObj) (n : Nat) :
    (lookupNode (updateNode ns id g) n).isSome = (lookupNode ns n).isSome := by
  rw [lookupNode_updateNode]
  by_cases h : n = id
  · rw [if_pos h]
    rcases lookupNode ns n with _ | o <;> rfl
  · rw [if_neg h]

theorem count_pos_of_mem {α : Type} [DecidableEq α] {L : List α} {y : α}
    (h : y ∈ L) : 0 < L.count y := by
  induction L with
  | nil => cases h
  | cons a t ih =>
    rw [List.count_cons]
    rcases List.mem_cons.mp h with rfl | hm
    · have h1 : (if (y == y) = true then 1 else 0) = 1 := by simp
      omega
    · have := ih hm
      have h1 : (if (y == a) = true then 1 else 0) + t.count y = t.count y + (if (y == a) = true then 1 else 0) := by omega
      omega

theorem sumChildOcc_update (nodes : NodeList) (id : Nat) (g : NodeObj → NodeObj)
    (hg : ∀ u, (g u).children = u.children) (y : Nat) :
    sumChildOcc (updateNode nodes id g) y = sumChildOcc nodes y := by
  unfold sumChildOcc
  rw [updateNode_eq_map, List.map_map]
  apply congrArg List.sum
  apply List.map_congr_left
  intro kv _
  by_cases hk : kv.1 = id
  · show ((if kv.1 = id then (kv.1, g kv.2) else kv).2.children.count y) =
      kv.2.children.count y
    rw [if_pos hk]
    show ((g kv.2).children.count y) = kv.2.children.count y
    rw [hg]
  · show ((if kv.1 = id then (kv.1, g kv.2) else kv).2.children.count y) =
      kv.2.children.count y
    rw [if_neg hk]

theorem unexecOcc_le_sum (nodes : NodeList) (y : Nat) :
    unexecOcc nodes y ≤ sumChildOcc nodes y := by
  unfold unexecOcc sumChildOcc
  apply List.sum_le_sum
  intro kv _
  by_cases h : kv.2.indegreeN = some 0
  · rw [if_pos h]
    exact Nat.zero_le _
  · rw [if_neg h]

/-- An update that does not change the executed status of the rewritten
entry leaves the unexecuted-parent counts unchanged. -/
theorem unexecOcc_update_keep (nodes : NodeList) (x : Nat) (g : NodeObj → NodeObj)
    (y : Nat) (hnd : (keysOf nodes).Nodup) (o : NodeObj)
    (ho : lookupNode nodes x = some o)
    (hch : ∀ u, (g u).children = u.children)
    (hst : ((g o).indegreeN = some 0) ↔ (o.indegreeN = some 0)) :
    unexecOcc (updateNode nodes x g) y = unexecOcc nodes y := by
  have hm := mapsum_update nodes x g
    (fun kv => if kv.2.indegreeN = some 0 then 0 else kv.2.children.count y) hnd o ho
  dsimp only at hm
  unfold unexecOcc
  by_cases h0 : o.indegreeN = some 0
  · rw [if_pos h0, if_pos (hst.mpr h0)] at hm
    omega
  · rw [if_neg h0, if_neg (fun hc => h0 (hst.mp hc)), hch] at hm
    omega

/-- An update that flips the rewritten (previously unexecuted) entry to
executed removes exactly that entry's edges from the unexecuted-parent
counts. -/
theorem unexecOcc_update_exec (nodes : NodeList) (x : Nat) (g : NodeObj → NodeObj)
    (y : Nat) (hnd : (keysOf nodes).Nodup) (o : NodeObj)
    (ho : lookupNode nodes x = some o)
    (_hch : ∀ u, (g u).children = u.children)
    (hold : ¬o.indegreeN = some 0) (hnew : (g o).indegreeN = some 0) :
    unexecOcc nodes y = unexecOcc (updateNode nodes x g) y + o.children.count y := by
  have hm := mapsum_update nodes x g
    (fun kv => if kv.2.indegreeN = some 0 then 0 else kv.2.children.count y) hnd o ho
  dsimp only at hm
  rw [if_neg hold, if_pos hnew] at hm
  unfold unexecOcc
  omega

theorem InvD_perm (nodes : NodeList) {L₁ L₂ : List Nat} (h : L₁.Perm L₂)
    (hinv : InvD nodes L₁) : InvD nodes L₂ := by
  obtain ⟨h1, h2⟩ := hinv
  refine ⟨fun n hn => h1 n (h.symm.subset hn), fun kv hkv => ?_⟩
  have hc := h2 kv hkv
  rcases hio : kv.2.indegreeN with _ | c
  · rw [acctClause_none nodes L₁ kv hio] at hc
    rw [acctClause_none nodes L₂ kv hio, ← h.count_eq]
    exact hc
  · rw [acctClause_some nodes L₁ kv c hio] at hc
    rw [acctClause_some nodes L₂ kv c hio, ← h.count_eq]
    exact hc

/-- A pending node has not executed: its counter is not `0`. -/
theorem pending_not_executed (nodes : NodeList) (L : List Nat) (y : Nat)
    (oy : NodeObj) (hinv : InvD nodes L) (hy : y ∈ L)
    (ho : lookupNode nodes y = some oy) : ¬oy.indegreeN = some 0 := by
  intro hc
  have hacct := hinv.2 (y, oy) (lookup_mem _ _ _ ho)
  rw [acctClause_some nodes L (y, oy) 0 hc] at hacct
  have hcount : 0 < L.count y := count_pos_of_mem hy
  have : L.count (y, oy).1 = L.count y := rfl
  omega

/-- An executed node is never pending and has no unexecuted registered
parents. -/
theorem executed_counts (nodes : NodeList) (L : List Nat) (y : Nat)
    (oy : NodeObj) (hinv : InvD nodes L) (ho : lookupNode nodes y = some oy)
    (hex : oy.indegreeN = some 0) :
    L.count y = 0 ∧ unexecOcc nodes y = 0 := by
  have hacct := hinv.2 (y, oy) (lookup_mem _ _ _ ho)
  rw [acctClause_some nodes L (y, oy) 0 hex] at hacct
  have h1 : L.count (y, oy).1 = L.count y := rfl
  have h2 : unexecOcc nodes (y, oy).1 = unexecOcc nodes y := rfl
  omega

/-- When a pending node's decrement reaches `0`, every registered parent of
the node has already executed. -/
theorem pass_parents_executed (nodes : NodeList) (L : List Nat) (x : Nat)
    (o : NodeObj) (_hnd : (keysOf nodes).Nodup) (hinv : InvD nodes L) (hx : x ∈ L)
    (ho : lookupNode nodes x = some o)
    (hdec : decrement_indegree o.indegreeN = some 0) :
    ∀ p po, lookupNode nodes p = some po → x ∈ po.children →
      po.indegreeN = some 0 := by
  intro p po hp hxc
  have hacct := hinv.2 (x, o) (lookup_mem _ _ _ ho)
  have hcnt : 0 < po.children.count x := count_pos_of_mem hxc
  have hentry := entry_le_mapsum nodes (fun kv => kv.2.children.count x) (p, po)
    (lookup_mem _ _ _ hp)
  rcases hio : o.indegreeN with _ | c₀
  · rw [acctClause_none nodes L (x, o) hio] at hacct
    have hsum0 : sumChildOcc nodes x = 0 := hacct.1
    have hle : po.children.count x ≤ sumChildOcc nodes x := hentry
    exact absurd hsum0 (by omega)
  · unfold decrement_indegree at hdec
    rw [hio] at hdec
    injection hdec with hdec1
    have hc1 : c₀ = 1 := by omega
    subst hc1
    rw [acctClause_some nodes L (x, o) 1 hio] at hacct
    have hcount : 0 < L.count x := count_pos_of_mem hx
    have h1 : L.count (x, o).1 = L.count x := rfl
    have h2 : unexecOcc nodes (x, o).1 = unexecOcc nodes x := rfl
    have hux : unexecOcc nodes x = 0 := by omega
    by_contra hne
    have hentry2 := entry_le_mapsum nodes
      (fun kv => if kv.2.indegreeN = some 0 then 0 else kv.2.children.count x)
      (p, po) (lookup_mem _ _ _ hp)
    have hle2 : (if po.indegreeN = some 0 then 0 else po.children.count x) ≤
        unexecOcc nodes x := hentry2
    rw [if_neg hne] at hle2
    omega

theorem mem_update_cases (nodes : NodeList) (x : Nat) (g : NodeObj → NodeObj)
    (hnd : (keysOf nodes).Nodup) (o : NodeObj) (ho : lookupNode nodes x = some o)
    (kv : Nat × NodeObj) (h : kv ∈ updateNode nodes x g) :
    kv = (x, g o) ∨ (kv ∈ nodes ∧ kv.1 ≠ x) := by
  rw [updateNode_eq_map] at h
  obtain ⟨kv0, hkv0, heq⟩ := List.mem_map.mp h
  by_cases hk : kv0.1 = x
  · left
    rw [if_pos hk] at heq
    have hl : lookupNode nodes kv0.1 = some kv0.2 := mem_lookup nodes kv0.1 kv0.2 hnd hkv0
    rw [hk, ho] at hl
    injection hl with hl1
    rw [← heq, hk, hl1]
  · right
    rw [if_neg hk] at heq
    rw [← heq]
    exact ⟨hkv0, hk⟩

/-- A node body that cannot raise (the shape facts hold and the judge honors
the schemas) rewrites only the visited entry, preserving its counter, and
emits exactly the node's children. -/
theorem oCoreParts_pass (env : Env) (id : Nat) (o : NodeObj) (nodes : NodeList)
    (henv : WfEnv env)
    (hT : o.kind = .task → o.evaluationParams ≠ none)
    (hJ : (o.kind = .binaryJudgement ∨ o.kind = .nonBinaryJudgement) → o.parentsL ≠ none)
    (hV : o.kind = .verdict → o.children = []) :
    ∃ (g : NodeObj → NodeObj) (m : Multiset LogEntry),
      oCoreParts env id o nodes = (updateNode nodes id g, m, o.children) ∧
      (∀ u, scrub (g u) = scrub u) ∧ (∀ u, (g u).indegreeN = u.indegreeN) := by
  unfold oCoreParts
  rcases hk : o.kind with _ | _ | _ | _
  all_goals dsimp only
  · -- task
    rcases hp : o.evaluationParams with _ | prs
    · exact absurd hp (hT hk)
    · dsimp only
      exact ⟨_, _, rfl, fun u => by cases u; rfl, fun u => rfl⟩
  · -- binary judgement
    rcases hp : o.parentsL with _ | ps
    · exact absurd hp (hJ (Or.inl hk))
    · dsimp only
      obtain ⟨b, r, c, hbr⟩ := henv.1 (.binaryP o.criteria
        (match o.evaluationParams with
          | none => appendParents nodes "\n\n" "" ps
          | some prs => appendParams env (appendParents nodes "\n\n" "" ps) prs))
      rw [hbr]
      dsimp only
      exact ⟨_, _, rfl, fun u => by cases u; rfl, fun u => rfl⟩
  · -- non-binary judgement
    rcases hp : o.parentsL with _ | ps
    · exact absurd hp (hJ (Or.inr hk))
    · dsimp only
      obtain ⟨v, r, c, hvr⟩ := henv.2 (.nonBinaryP o.criteria
        (match o.evaluationParams with
          | none => appendParents nodes "\n" "" ps
          | some prs => appendParams env (appendParents nodes "\n" "" ps) prs)
        o.verdictOptions) o.verdictOptions
      rw [hvr]
      dsimp only
      exact ⟨_, _, rfl, fun u => by cases u; rfl, fun u => rfl⟩
  · -- verdict
    have hoc := hV hk
    rcases o.parentL with _ | p
    all_goals dsimp only
    · exact ⟨fun u => u, _, by rw [updateNode_id_fun, hoc], fun u => rfl, fun u => rfl⟩
    · rcases lookupNode nodes p with _ | po
      all_goals dsimp only
      · exact ⟨fun u => u, _, by rw [updateNode_id_fun, hoc], fun u => rfl, fun u => rfl⟩
      · by_cases hb : po.kind = .binaryJudgement ∨ po.kind = .nonBinaryJudgement
        · rw [if_pos hb]
          rcases po.verdictV with _ | jv
          all_goals dsimp only
          · exact ⟨fun u => u, _, by rw [updateNode_id_fun, hoc], fun u => rfl, fun u => rfl⟩
          · by_cases hgt : (jv.verdict != o.label) = true
            · rw [if_pos hgt]
              exact ⟨fun u => u, _, by rw [updateNode_id_fun, hoc], fun u => rfl, fun u => rfl⟩
            · rw [if_neg hgt]
              exact ⟨fun u => u, _, by rw [updateNode_id_fun, hoc], fun u => rfl, fun u => rfl⟩
        · rw [if_neg hb]
          exact ⟨fun u => u, _, by rw [updateNode_id_fun, hoc], fun u => rfl, fun u => rfl⟩

/-- A passing visit (counter reaches `0`): one scrub-preserving write at the
visited key that marks it executed, emitting its children. -/
theorem oStepParts_pass (env : Env) (x : Nat) (nodes : NodeList) (o : NodeObj)
    (henv : WfEnv env) (hsh : shapeClause (x, o))
    (ho : lookupNode nodes x = some o)
    (hdec : decrement_indegree o.indegreeN = some 0) :
    ∃ (g : NodeObj → NodeObj) (m : Multiset LogEntry),
      oStepParts env x nodes = (updateNode nodes x g, m, o.children) ∧
      (∀ u, scrub (g u) = scrub u) ∧ (∀ u, (g u).indegreeN = some 0) := by
  obtain ⟨hT, hJ, hV⟩ := hsh
  unfold oStepParts
  rw [ho]
  dsimp only
  rw [hdec]
  have hb : ((some (0 : Int) == some 0)) = true := by rfl
  rw [hb, if_pos rfl]
  obtain ⟨g, m, hcore, hgs, hgi⟩ := oCoreParts_pass env x
    { o with indegreeN := some 0 }
    (updateNode nodes x fun o' => { o' with indegreeN := some 0 }) henv hT hJ hV
  refine ⟨fun u => g { u with indegreeN := some 0 }, m, ?_, ?_, ?_⟩
  · rw [hcore, updateNode_comp]
  · intro u
    rw [hgs]
    cases u
    rfl
  · intro u
    rw [hgi]

/-- A failing visit (counter still nonzero): only the counter is written,
nothing is logged, no children are emitted. -/
theorem oStepParts_fail (env : Env) (x : Nat) (nodes : NodeList) (o : NodeObj)
    (ho : lookupNode nodes x = some o)
    (hdec : ¬decrement_indegree o.indegreeN = some 0) :
    oStepParts env x nodes =
      (updateNode nodes x (fun u => { u with indegreeN := decrement_indegree o.indegreeN }),
       0, []) := by
  unfold oStepParts
  rw [ho]
  dsimp only
  have hb : ¬((decrement_indegree o.indegreeN == some 0) = true) := by
    simpa using hdec
  rw [if_neg hb]

/-- The dynamic counter invariant is preserved by one step, with the
emitted children appended to the pending worklist. -/
theorem InvD_step (env : Env) (rank : Nat → Nat) (R : Nat) (nodes : NodeList)
    (x : Nat) (rest : List Nat) (hwf : WfStat rank R nodes) (henv : WfEnv env)
    (hinv : InvD nodes (x :: rest)) :
    InvD (oStepParts env x nodes).1 (rest ++ (oStepParts env x nodes).2.2) := by
  obtain ⟨hlk, hacct⟩ := hinv
  have hnd : (keysOf nodes).Nodup := hwf.1
  have hxs := hlk x (List.mem_cons_self x rest)
  rcases ho : lookupNode nodes x with _ | o
  · rw [ho] at hxs
    simp at hxs
  have hmemx : (x, o) ∈ nodes := lookup_mem _ _ _ ho
  have hold : ¬o.indegreeN = some 0 :=
    pending_not_executed nodes (x :: rest) x o ⟨hlk, hacct⟩ (List.mem_cons_self x rest) ho
  have hccx : (x :: rest).count x = rest.count x + 1 := List.count_cons_self x rest
  by_cases hdec : decrement_indegree o.indegreeN = some 0
  · -- passing visit
    have hsh := hwf.2.2.2.2.2 (x, o) hmemx
    obtain ⟨g, m, hstep, hgs, hg0⟩ := oStepParts_pass env x nodes o henv hsh ho hdec
    rw [hstep]
    dsimp only
    have hch : ∀ u, (g u).children = u.children := fun u => scrub_children (hgs u)
    -- the three vanishing quantities at x
    have hacctx := hacct (x, o) hmemx
    have hentry1 : o.children.count x ≤ sumChildOcc nodes x :=
      entry_le_mapsum nodes (fun kv => kv.2.children.count x) (x, o) hmemx
    have hentry2 : (if o.indegreeN = some 0 then 0 else o.children.count x) ≤
        unexecOcc nodes x :=
      entry_le_mapsum nodes
        (fun kv => if kv.2.indegreeN = some 0 then 0 else kv.2.children.count x)
        (x, o) hmemx
    rw [if_neg hold] at hentry2
    have hx3 : rest.count x = 0 ∧ unexecOcc nodes x = 0 ∧ o.children.count x = 0 := by
      rcases hio : o.indegreeN with _ | c₀
      · rw [acctClause_none nodes (x :: rest) (x, o) hio] at hacctx
        have hs0 : sumChildOcc nodes x = 0 := hacctx.1
        have hc1 : (x :: rest).count x ≤ 1 := hacctx.2
        have hule := unexecOcc_le_sum nodes x
        omega
      · unfold decrement_indegree at hdec
        rw [hio] at hdec
        injection hdec with hdec1
        have hc1 : c₀ = 1 := by omega
        subst hc1
        rw [acctClause_some nodes (x :: rest) (x, o) 1 hio] at hacctx
        have h1 : (x :: rest).count (x, o).1 = (x :: rest).count x := rfl
        have h2 : unexecOcc nodes (x, o).1 = unexecOcc nodes x := rfl
        omega
    have hflip : ∀ y, unexecOcc nodes y = unexecOcc (updateNode nodes x g) y +
        o.children.count y :=
      fun y => unexecOcc_update_exec nodes x g y hnd o ho hch hold (hg0 o)
    refine ⟨?_, ?_⟩
    · intro n hn
      rw [isSome_update]
      rcases List.mem_append.mp hn with h | h
      · exact hlk n (List.mem_cons_of_mem x h)
      · exact (hwf.2.2.1 (x, o) hmemx n h).1
    · intro kv hkv
      rcases mem_update_cases nodes x g hnd o ho kv hkv with rfl | ⟨hkv0, hne⟩
      · rw [acctClause_some (updateNode nodes x g) (rest ++ o.children) (x, g o) 0 (hg0 o)]
        have hca : (rest ++ o.children).count x = rest.count x + o.children.count x :=
          List.count_append x rest o.children
        have hflipx := hflip x
        have h1 : (rest ++ o.children).count (x, g o).1 = (rest ++ o.children).count x := rfl
        have h2 : unexecOcc (updateNode nodes x g) (x, g o).1 =
            unexecOcc (updateNode nodes x g) x := rfl
        omega
      · have hacctkv := hacct kv hkv0
        have hccy : (x :: rest).count kv.1 = rest.count kv.1 +
            (if (x == kv.1) = true then 1 else 0) := List.count_cons kv.1 x rest
        have hitey : (if (x == kv.1) = true then 1 else 0) = 0 := by
          simp [Ne.symm hne]
        have hcay : (rest ++ o.children).count kv.1 =
            rest.count kv.1 + o.children.count kv.1 := List.count_append kv.1 rest o.children
        rcases hky : kv.2.indegreeN with _ | cy
        · rw [acctClause_none nodes (x :: rest) kv hky] at hacctkv
          rw [acctClause_none (updateNode nodes x g) (rest ++ o.children) kv hky]
          have hsy : sumChildOcc (updateNode nodes x g) kv.1 = sumChildOcc nodes kv.1 :=
            sumChildOcc_update nodes x g hch kv.1
          have hey : o.children.count kv.1 ≤ sumChildOcc nodes kv.1 :=
            entry_le_mapsum nodes (fun kv' => kv'.2.children.count kv.1) (x, o) hmemx
          omega
        · rw [acctClause_some nodes (x :: rest) kv cy hky] at hacctkv
          rw [acctClause_some (updateNode nodes x g) (rest ++ o.children) kv cy hky]
          have hflipy := hflip kv.1
          omega
  · -- failing visit: only the counter moves
    rcases hio : o.indegreeN with _ | c₀
    · exact absurd (show decrement_indegree o.indegreeN = some 0 by rw [hio]; rfl) hdec
    rw [oStepParts_fail env x nodes o ho hdec]
    dsimp only
    rw [List.append_nil]
    have hc0 : ¬c₀ = 0 := fun hc => hold (by rw [hio, hc])
    have hc1 : ¬c₀ = 1 := by
      intro hc
      exact hdec (by rw [hio, hc]; rfl)
    have hdg : ∀ u : NodeObj,
        ((fun u : NodeObj => { u with indegreeN := decrement_indegree o.indegreeN }) u).indegreeN =
          some (c₀ - 1) := by
      intro u
      show decrement_indegree o.indegreeN = some (c₀ - 1)
      rw [hio]
      rfl
    have hch : ∀ u : NodeObj,
        ((fun u : NodeObj => { u with indegreeN := decrement_indegree o.indegreeN }) u).children =
          u.children := fun u => rfl
    have hkeep : ∀ y, unexecOcc (updateNode nodes x
        (fun u => { u with indegreeN := decrement_indegree o.indegreeN })) y =
        unexecOcc nodes y := by
      intro y
      refine unexecOcc_update_keep nodes x _ y hnd o ho hch ?_
      rw [hdg o]
      constructor
      · intro hc
        injection hc with hc
        exact absurd (by omega : c₀ = 1) hc1
      · intro hc
        exact absurd hc hold
    refine ⟨?_, ?_⟩
    · intro n hn
      rw [isSome_update]
      exact hlk n (List.mem_cons_of_mem x hn)
    · intro kv hkv
      rcases mem_update_cases nodes x _ hnd o ho kv hkv with rfl | ⟨hkv0, hne⟩
      · rw [acctClause_some _ rest _ (c₀ - 1) (hdg o)]
        dsimp only
        have hacctx := hacct (x, o) hmemx
        rw [acctClause_some nodes (x :: rest) (x, o) c₀ hio] at hacctx
        have h1 : (x :: rest).count (x, o).1 = (x :: rest).count x := rfl
        have h2 : unexecOcc nodes (x, o).1 = unexecOcc nodes x := rfl
        have h3 := hkeep x
        omega
      · have hacctkv := hacct kv hkv0
        have hccy : (x :: rest).count kv.1 = rest.count kv.1 +
            (if (x == kv.1) = true then 1 else 0) := List.count_cons kv.1 x rest
        have hitey : (if (x == kv.1) = true then 1 else 0) = 0 := by
          simp [Ne.symm hne]
        rcases hky : kv.2.indegreeN with _ | cy
        · rw [acctClause_none nodes (x :: rest) kv hky] at hacctkv
          rw [acctClause_none _ rest kv hky]
          have hsy : sumChildOcc (updateNode nodes x
              (fun u => { u with indegreeN := decrement_indegree o.indegreeN })) kv.1 =
              sumChildOcc nodes kv.1 := sumChildOcc_update nodes x _ hch kv.1
          omega
        · rw [acctClause_some nodes (x :: rest) kv cy hky] at hacctkv
          rw [acctClause_some _ rest kv cy hky]
          have h3 := hkeep kv.1
          omega

/-! ### The read set of a node visit

A node body reads, besides the visited entry, only the entries of its
listed parents.  When the visit passes its join check, those parents have
all executed and are never pending again, so a passing visit never reads a
pending node: visits at distinct pending nodes commute. -/

def readKeys (o : NodeObj) : List Nat :=
  match o.kind with
  | .verdict => o.parentL.toList
  | _ => o.parentsL.getD []

theorem appendParents_congr (n₁ n₂ : NodeList) (sep : String) :
    ∀ (ps : List Nat) (acc : String),
      (∀ p ∈ ps, lookupNode n₁ p = lookupNode n₂ p) →
      appendParents n₁ sep acc ps = appendParents n₂ sep acc ps := by
  intro ps
  induction ps with
  | nil =>
    intro acc h
    rfl
  | cons p t ih =>
    intro acc h
    have hstep : (match lookupNode n₁ p with
        | some o =>
          if o.kind = NodeKind.task then acc ++ o.outputLabel ++ ":\n" ++ optStr o.output ++ sep
          else acc
        | none => acc) = (match lookupNode n₂ p with
        | some o =>
          if o.kind = NodeKind.task then acc ++ o.outputLabel ++ ":\n" ++ optStr o.output ++ sep
          else acc
        | none => acc) := by rw [h p (List.mem_cons_self p t)]
    show appendParents n₁ sep (match lookupNode n₁ p with
        | some o =>
          if o.kind = NodeKind.task then acc ++ o.outputLabel ++ ":\n" ++ optStr o.output ++ sep
          else acc
        | none => acc) t = appendParents n₂ sep (match lookupNode n₂ p with
        | some o =>
          if o.kind = NodeKind.task then acc ++ o.outputLabel ++ ":\n" ++ optStr o.output ++ sep
          else acc
        | none => acc) t
    rw [hstep]
    exact ih _ (fun q hq => h q (List.mem_cons_of_mem p hq))

theorem readKeys_parents (nodes : NodeList) (x : Nat) (ox : NodeObj)
    (h4 : parentsClause nodes (x, ox)) (h5 : parentClause nodes (x, ox)) :
    ∀ p ∈ readKeys ox, childRegistered nodes p x := by
  intro p hp
  unfold readKeys at hp
  unfold parentsClause at h4
  unfold parentClause at h5
  dsimp only at h4 h5
  rcases hk : ox.kind with _ | _ | _ | _ <;> rw [hk] at hp <;> dsimp only at hp
  case verdict =>
    rcases hpl : ox.parentL with _ | q
    · rw [hpl] at hp
      cases hp
    · rw [hpl] at hp
      rw [hpl] at h5
      have hq : p = q := by
        simpa using hp
      rw [hq]
      exact h5
  all_goals {
    rcases hps : ox.parentsL with _ | ps
    · rw [hps] at hp
      cases hp
    · rw [hps] at hp
      rw [hps] at h4
      exact h4 p hp }

/-- A read key of a visit that passes its join check is never pending. -/
theorem pass_reads_not_pending (rank : Nat → Nat) (R : Nat) (nodes : NodeList)
    (L : List Nat) (x : Nat) (ox : NodeObj) (hwf : WfStat rank R nodes)
    (hinv : InvD nodes L) (hx : x ∈ L) (hox : lookupNode nodes x = some ox)
    (hdec : decrement_indegree ox.indegreeN = some 0) :
    ∀ p ∈ readKeys ox, p ∉ L := by
  intro p hp hpL
  have hmemx : (x, ox) ∈ nodes := lookup_mem _ _ _ hox
  have hreg : childRegistered nodes p x :=
    readKeys_parents nodes x ox (hwf.2.2.2.1 (x, ox) hmemx)
      (hwf.2.2.2.2.1 (x, ox) hmemx) p hp
  unfold childRegistered at hreg
  rcases hlp : lookupNode nodes p with _ | po
  · rw [hlp] at hreg
    exact hreg
  · rw [hlp] at hreg
    have hex : po.indegreeN = some 0 :=
      pass_parents_executed nodes L x ox hwf.1 hinv hx hox hdec p po hlp hreg
    have h0 := (executed_counts nodes L p po hinv hlp hex).1
    have h1 := count_pos_of_mem hpL
    omega

/-- A node body whose join check passed is determined, up to the heap it
rewrites, by the visited object and the entries at its read keys: on two
heaps that agree on the read keys it performs the same write, logs the same
block, and emits the same children. -/
theorem oCoreParts_det (env : Env) (id : Nat) (o : NodeObj) (henv : WfEnv env)
    (hT : o.kind = .task → o.evaluationParams ≠ none)
    (hJ : (o.kind = .binaryJudgement ∨ o.kind = .nonBinaryJudgement) → o.parentsL ≠ none)
    (hV : o.kind = .verdict → o.children = [])
    (n₁ n₂ : NodeList)
    (hread : ∀ p ∈ readKeys o, lookupNode n₁ p = lookupNode n₂ p) :
    ∃ (g : NodeObj → NodeObj) (m : Multiset LogEntry),
      oCoreParts env id o n₁ = (updateNode n₁ id g, m, o.children) ∧
      oCoreParts env id o n₂ = (updateNode n₂ id g, m, o.children) ∧
      (∀ u, scrub (g u) = scrub u) ∧ (∀ u, (g u).indegreeN = u.indegreeN) := by
  unfold oCoreParts
  rcases hk : o.kind with _ | _ | _ | _
  all_goals dsimp only
  · -- task
    rcases hp : o.evaluationParams with _ | prs
    · exact absurd hp (hT hk)
    · dsimp only
      have htext : (match o.parentsL with
          | none => ""
          | some ps => appendParents n₁ "\n\n" "" ps) = (match o.parentsL with
          | none => ""
          | some ps => appendParents n₂ "\n\n" "" ps) := by
        rcases hps : o.parentsL with _ | ps
        · rfl
        · apply appendParents_congr
          intro p hp2
          apply hread
          unfold readKeys
          rw [hk, hps]
          exact hp2
      rw [htext]
      exact ⟨_, _, rfl, rfl, fun u => by cases u; rfl, fun u => rfl⟩
  · -- binary judgement
    rcases hp : o.parentsL with _ | ps
    · exact absurd hp (hJ (Or.inl hk))
    · dsimp only
      have htext : appendParents n₁ "\n\n" "" ps = appendParents n₂ "\n\n" "" ps := by
        apply appendParents_congr
        intro p hp2
        apply hread
        unfold readKeys
        rw [hk, hp]
        exact hp2
      rw [htext]
      obtain ⟨b, r, c, hbr⟩ := henv.1 (.binaryP o.criteria
        (match o.evaluationParams with
          | none => appendParents n₂ "\n\n" "" ps
          | some prs => appendParams env (appendParents n₂ "\n\n" "" ps) prs))
      rw [hbr]
      dsimp only
      exact ⟨_, _, rfl, rfl, fun u => by cases u; rfl, fun u => rfl⟩
  · -- non-binary judgement
    rcases hp : o.parentsL with _ | ps
    · exact absurd hp (hJ (Or.inr hk))
    · dsimp only
      have htext : appendParents n₁ "\n" "" ps = appendParents n₂ "\n" "" ps := by
        apply appendParents_congr
        intro p hp2
        apply hread
        unfold readKeys
        rw [hk, hp]
        exact hp2
      rw [htext]
      obtain ⟨v, r, c, hvr⟩ := henv.2 (.nonBinaryP o.criteria
        (match o.evaluationParams with
          | none => appendParents n₂ "\n" "" ps
          | some prs => appendParams env (appendParents n₂ "\n" "" ps) prs)
        o.verdictOptions) o.verdictOptions
      rw [hvr]
      dsimp only
      exact ⟨_, _, rfl, rfl, fun u => by cases u; rfl, fun u => rfl⟩
  · -- verdict
    have hoc := hV hk
    rcases hpl : o.parentL with _ | p
    all_goals dsimp only
    · exact ⟨fun u => u, {construct_node_verbose_log o 0},
        by rw [updateNode_id_fun, hoc], by rw [updateNode_id_fun, hoc],
        fun u => rfl, fun u => rfl⟩
    · have hlp : lookupNode n₁ p = lookupNode n₂ p := by
        apply hread
        unfold readKeys
        rw [hk, hpl]
        simp
      rw [← hlp]
      rcases hlpo : lookupNode n₁ p with _ | po
      all_goals dsimp only
      · exact ⟨fun u => u, {construct_node_verbose_log o 0},
          by rw [updateNode_id_fun, hoc], by rw [updateNode_id_fun, hoc],
          fun u => rfl, fun u => rfl⟩
      · by_cases hb : po.kind = .binaryJudgement ∨ po.kind = .nonBinaryJudgement
        · rw [if_pos hb, if_pos hb]
          rcases po.verdictV with _ | jv
          all_goals dsimp only
          · exact ⟨fun u => u, 0,
              by rw [updateNode_id_fun, hoc], by rw [updateNode_id_fun, hoc],
              fun u => rfl, fun u => rfl⟩
          · by_cases hgt : (jv.verdict != o.label) = true
            · rw [if_pos hgt, if_pos hgt]
              exact ⟨fun u => u, 0,
                by rw [updateNode_id_fun, hoc], by rw [updateNode_id_fun, hoc],
                fun u => rfl, fun u => rfl⟩
            · rw [if_neg hgt, if_neg hgt]
              exact ⟨fun u => u, {construct_node_verbose_log o 0},
                by rw [updateNode_id_fun, hoc], by rw [updateNode_id_fun, hoc],
                fun u => rfl, fun u => rfl⟩
        · rw [if_neg hb, if_neg hb]
          exact ⟨fun u => u, {construct_node_verbose_log o 0},
            by rw [updateNode_id_fun, hoc], by rw [updateNode_id_fun, hoc],
            fun u => rfl, fun u => rfl⟩

theorem pending_lookup (nodes : NodeList) (L : List Nat) (n : Nat)
    (hinv : InvD nodes L) (hn : n ∈ L) : ∃ o, lookupNode nodes n = some o := by
  have h := hinv.1 n hn
  rcases ho : lookupNode nodes n with _ | o
  · rw [ho] at h
    simp at h
  · exact ⟨o, rfl⟩

/-- A full visit is determined by the visited object and its read keys. -/
theorem oStepParts_det (env : Env) (x : Nat) (o : NodeObj) (henv : WfEnv env)
    (hsh : shapeClause (x, o)) (n₁ n₂ : NodeList)
    (ho₁ : lookupNode n₁ x = some o) (ho₂ : lookupNode n₂ x = some o)
    (hread : decrement_indegree o.indegreeN = some 0 →
      ∀ p ∈ readKeys o, p ≠ x → lookupNode n₁ p = lookupNode n₂ p) :
    ∃ (g : NodeObj → NodeObj) (m : Multiset LogEntry) (cs : List Nat),
      oStepParts env x n₁ = (updateNode n₁ x g, m, cs) ∧
      oStepParts env x n₂ = (updateNode n₂ x g, m, cs) ∧
      (∀ u, scrub (g u) = scrub u) := by
  obtain ⟨hT, hJ, hV⟩ := hsh
  by_cases hdec : decrement_indegree o.indegreeN = some 0
  · have hread' : ∀ p ∈ readKeys { o with indegreeN := some (0 : Int) },
        lookupNode (updateNode n₁ x fun u => { u with indegreeN := some 0 }) p =
        lookupNode (updateNode n₂ x fun u => { u with indegreeN := some 0 }) p := by
      intro p hp
      have hp' : p ∈ readKeys o := hp
      rw [lookupNode_updateNode, lookupNode_updateNode]
      by_cases hpx : p = x
      · rw [if_pos hpx, if_pos hpx, hpx, ho₁, ho₂]
      · rw [if_neg hpx, if_neg hpx]
        exact hread hdec p hp' hpx
    obtain ⟨g, m, h1, h2, hgs, hgi⟩ := oCoreParts_det env x
      { o with indegreeN := some 0 } henv hT hJ hV
      (updateNode n₁ x fun u => { u with indegreeN := some 0 })
      (updateNode n₂ x fun u => { u with indegreeN := some 0 }) hread'
    refine ⟨fun u => g { u with indegreeN := some 0 }, m, o.children, ?_, ?_, ?_⟩
    · unfold oStepParts
      rw [ho₁]
      dsimp only
      rw [hdec]
      rw [show ((some (0 : Int) == some 0)) = true from rfl, if_pos rfl]
      rw [h1, updateNode_comp]
    · unfold oStepParts
      rw [ho₂]
      dsimp only
      rw [hdec]
      rw [show ((some (0 : Int) == some 0)) = true from rfl, if_pos rfl]
      rw [h2, updateNode_comp]
    · intro u
      rw [hgs]
      cases u
      rfl
  · refine ⟨fun u => { u with indegreeN := decrement_indegree o.indegreeN }, 0, [],
      oStepParts_fail env x n₁ o ho₁ hdec, oStepParts_fail env x n₂ o ho₂ hdec, ?_⟩
    intro u
    cases u
    rfl

theorem oStep_mk (env : Env) (x : Nat) (nodes : NodeList) (logs : Multiset LogEntry) :
    oStep env x ⟨nodes, logs⟩ =
      (⟨(oStepParts env x nodes).1, logs + (oStepParts env x nodes).2.1⟩,
       (oStepParts env x nodes).2.2) := rfl

/-- Visits at two distinct pending nodes commute: the resulting observable
state is the same in either order, and each visit emits the same children
regardless of the order. -/
theorem oStep_comm (env : Env) (rank : Nat → Nat) (R : Nat) (σ : OState)
    (L : List Nat) (x y : Nat) (hxy : x ≠ y)
    (hwf : WfStat rank R σ.nodes) (henv : WfEnv env) (hinv : InvD σ.nodes L)
    (hx : x ∈ L) (hy : y ∈ L) :
    (oStep env y (oStep env x σ).1).1 = (oStep env x (oStep env y σ).1).1 ∧
    (oStep env x (oStep env y σ).1).2 = (oStep env x σ).2 ∧
    (oStep env y (oStep env x σ).1).2 = (oStep env y σ).2 := by
  obtain ⟨nodes, logs⟩ := σ
  have hnd : (keysOf nodes).Nodup := hwf.1
  obtain ⟨ox, hox⟩ := pending_lookup nodes L x hinv hx
  obtain ⟨oy, hoy⟩ := pending_lookup nodes L y hinv hy
  obtain ⟨gx0, hgx0eq, hgx0s⟩ := oStepParts_update env x nodes
  obtain ⟨gy0, hgy0eq, hgy0s⟩ := oStepParts_update env y nodes
  have hoy' : lookupNode (oStepParts env x nodes).1 y = some oy := by
    rw [hgx0eq, lookupNode_updateNode, if_neg (Ne.symm hxy)]
    exact hoy
  have hox' : lookupNode (oStepParts env y nodes).1 x = some ox := by
    rw [hgy0eq, lookupNode_updateNode, if_neg hxy]
    exact hox
  have hshx := hwf.2.2.2.2.2 (x, ox) (lookup_mem _ _ _ hox)
  have hshy := hwf.2.2.2.2.2 (y, oy) (lookup_mem _ _ _ hoy)
  have hreadx : decrement_indegree ox.indegreeN = some 0 →
      ∀ p ∈ readKeys ox, p ≠ x →
        lookupNode nodes p = lookupNode (oStepParts env y nodes).1 p := by
    intro hdecx p hp hpx
    have hnp := pass_reads_not_pending rank R nodes L x ox hwf hinv hx hox hdecx p hp
    have hpy : p ≠ y := fun hc => hnp (hc ▸ hy)
    rw [hgy0eq, lookupNode_updateNode, if_neg hpy]
  have hready : decrement_indegree oy.indegreeN = some 0 →
      ∀ p ∈ readKeys oy, p ≠ y →
        lookupNode nodes p = lookupNode (oStepParts env x nodes).1 p := by
    intro hdecy p hp hpy
    have hnp := pass_reads_not_pending rank R nodes L y oy hwf hinv hy hoy hdecy p hp
    have hpx : p ≠ x := fun hc => hnp (hc ▸ hx)
    rw [hgx0eq, lookupNode_updateNode, if_neg hpx]
  obtain ⟨gx, mx, csx, hx1, hx2, hgxs⟩ := oStepParts_det env x ox henv hshx
    nodes (oStepParts env y nodes).1 hox hox' hreadx
  obtain ⟨gy, my, csy, hy1, hy2, hgys⟩ := oStepParts_det env y oy henv hshy
    nodes (oStepParts env x nodes).1 hoy hoy' hready
  have ex1 : (oStepParts env x nodes).1 = updateNode nodes x gx := congrArg Prod.fst hx1
  have ex2 : (oStepParts env x nodes).2.1 = mx := congrArg (fun t => t.2.1) hx1
  have ex3 : (oStepParts env x nodes).2.2 = csx := congrArg (fun t => t.2.2) hx1
  have ey1 : (oStepParts env y nodes).1 = updateNode nodes y gy := congrArg Prod.fst hy1
  have ey2 : (oStepParts env y nodes).2.1 = my := congrArg (fun t => t.2.1) hy1
  have ey3 : (oStepParts env y nodes).2.2 = csy := congrArg (fun t => t.2.2) hy1
  have exy1 : (oStepParts env y (oStepParts env x nodes).1).1 =
      updateNode (oStepParts env x nodes).1 y gy := congrArg Prod.fst hy2
  have exy2 : (oStepParts env y (oStepParts env x nodes).1).2.1 = my :=
    congrArg (fun t => t.2.1) hy2
  have exy3 : (oStepParts env y (oStepParts env x nodes).1).2.2 = csy :=
    congrArg (fun t => t.2.2) hy2
  have eyx1 : (oStepParts env x (oStepParts env y nodes).1).1 =
      updateNode (oStepParts env y nodes).1 x gx := congrArg Prod.fst hx2
  have eyx2 : (oStepParts env x (oStepParts env y nodes).1).2.1 = mx :=
    congrArg (fun t => t.2.1) hx2
  have eyx3 : (oStepParts env x (oStepParts env y nodes).1).2.2 = csx :=
    congrArg (fun t => t.2.2) hx2
  refine ⟨?_, ?_, ?_⟩
  · show (⟨(oStepParts env y (oStepParts env x nodes).1).1,
        (logs + (oStepParts env x nodes).2.1) +
          (oStepParts env y (oStepParts env x nodes).1).2.1⟩ : OState) =
      ⟨(oStepParts env x (oStepParts env y nodes).1).1,
        (logs + (oStepParts env y nodes).2.1) +
          (oStepParts env x (oStepParts env y nodes).1).2.1⟩
    rw [exy2, eyx2, exy1, eyx1, ex2, ey2, ex1, ey1,
        updateNode_comm nodes x y gx gy hxy,
        add_assoc, add_comm mx my, ← add_assoc]
  · show (oStepParts env x (oStepParts env y nodes).1).2.2 =
      (oStepParts env x nodes).2.2
    rw [eyx3, ex3]
  · show (oStepParts env y (oStepParts env x nodes).1).2.2 =
      (oStepParts env y nodes).2.2
    rw [exy3, ey3]

/-- With fuel at least the total worklist weight, an observable run
completes. -/
theorem oRun_total (env : Env) (rank : Nat → Nat) (R : Nat) :
    ∀ (fuel : Nat) (L : List Nat) (σ : OState) (q : Bool),
      WfStat rank R σ.nodes → listWeight R σ.nodes L ≤ fuel →
      ∃ τ, oRun env q fuel L σ = some τ := by
  intro fuel
  induction fuel with
  | zero =>
    intro L σ q hwf hle
    cases L with
    | nil => exact ⟨σ, oRun_nil env q 0 σ⟩
    | cons x rest =>
      rw [listWeight_cons] at hle
      have h1 : 1 ≤ nodeWeight R σ.nodes x := Wb_pos σ.nodes R x
      omega
  | succ f ih =>
    intro L σ q hwf hle
    cases L with
    | nil => exact ⟨σ, oRun_nil env q (f + 1) σ⟩
    | cons x rest =>
      rw [oRun_cons]
      apply ih
      · exact WfStat_step env rank R x σ.nodes hwf
      · have hperm : (if q then rest ++ (oStep env x σ).2
            else (oStep env x σ).2 ++ rest).Perm
            (rest ++ (oStepParts env x σ.nodes).2.2) := by
          cases q
          · rw [if_neg (by simp)]
            exact List.perm_append_comm
          · rw [if_pos rfl]
            exact List.Perm.refl _
        have hlt := measure_lt env rank R x rest _ σ.nodes hwf hperm
        have heq : listWeight R (oStep env x σ).1.nodes
            (if q then rest ++ (oStep env x σ).2 else (oStep env x σ).2 ++ rest) =
            listWeight R (oStepParts env x σ.nodes).1
            (if q then rest ++ (oStep env x σ).2 else (oStep env x σ).2 ++ rest) := rfl
        omega

/-- Confluence of the observable worklist execution: from one state, two
complete runs over permuted worklists — under either scheduling discipline
and with any sufficient fuel — finish in the same observable state. -/
theorem oRun_perm (env : Env) (rank : Nat → Nat) (R : Nat) :
    ∀ (n : Nat) (q₁ q₂ : Bool) (f₁ f₂ : Nat) (L₁ L₂ : List Nat) (σ τ₁ τ₂ : OState),
      WfStat rank R σ.nodes → WfEnv env → InvD σ.nodes L₁ → L₁.Perm L₂ →
      listWeight R σ.nodes L₁ ≤ n →
      oRun env q₁ f₁ L₁ σ = some τ₁ → oRun env q₂ f₂ L₂ σ = some τ₂ →
      τ₁ = τ₂ := by
  intro n
  induction n using Nat.strong_induction_on with
  | _ n ih =>
  intro q₁ q₂ f₁ f₂ L₁ L₂ σ τ₁ τ₂ hwf henv hinv hperm hle h1 h2
  cases L₁ with
  | nil =>
    have hL2 : L₂ = [] := hperm.symm.eq_nil
    subst hL2
    rw [oRun_nil] at h1 h2
    injection h1 with e1
    injection h2 with e2
    rw [← e1, ← e2]
  | cons x r₁ =>
    obtain ⟨f₁', rfl⟩ : ∃ f, f₁ = f + 1 := by
      cases f₁
      · rw [show oRun env q₁ 0 (x :: r₁) σ = none from rfl] at h1
        cases h1
      · exact ⟨_, rfl⟩
    cases L₂ with
    | nil =>
      have := hperm.eq_nil
      simp at this
    | cons y r₂ =>
      obtain ⟨f₂', rfl⟩ : ∃ f, f₂ = f + 1 := by
        cases f₂
        · rw [show oRun env q₂ 0 (y :: r₂) σ = none from rfl] at h2
          cases h2
        · exact ⟨_, rfl⟩
      rw [oRun_cons] at h1 h2
      have hA1 : (if q₁ then r₁ ++ (oStep env x σ).2 else (oStep env x σ).2 ++ r₁).Perm
          (r₁ ++ (oStepParts env x σ.nodes).2.2) := by
        cases q₁
        · rw [if_neg (by simp)]
          exact List.perm_append_comm
        · rw [if_pos rfl]
          exact List.Perm.refl _
      have hA2 : (if q₂ then r₂ ++ (oStep env y σ).2 else (oStep env y σ).2 ++ r₂).Perm
          (r₂ ++ (oStepParts env y σ.nodes).2.2) := by
        cases q₂
        · rw [if_neg (by simp)]
          exact List.perm_append_comm
        · rw [if_pos rfl]
          exact List.Perm.refl _
      have hwx : WfStat rank R (oStep env x σ).1.nodes :=
        WfStat_step env rank R x σ.nodes hwf
      have hsx := InvD_step env rank R σ.nodes x r₁ hwf henv hinv
      have hinvx : InvD (oStep env x σ).1.nodes
          (if q₁ then r₁ ++ (oStep env x σ).2 else (oStep env x σ).2 ++ r₁) :=
        InvD_perm _ hA1.symm hsx
      have hm₁ : listWeight R (oStep env x σ).1.nodes
          (if q₁ then r₁ ++ (oStep env x σ).2 else (oStep env x σ).2 ++ r₁) < n := by
        have hlt := measure_lt env rank R x r₁ _ σ.nodes hwf hA1
        have heq : listWeight R (oStep env x σ).1.nodes
            (if q₁ then r₁ ++ (oStep env x σ).2 else (oStep env x σ).2 ++ r₁) =
            listWeight R (oStepParts env x σ.nodes).1
            (if q₁ then r₁ ++ (oStep env x σ).2 else (oStep env x σ).2 ++ r₁) := rfl
        omega
      by_cases hxy : x = y
      · subst hxy
        have hr : r₁.Perm r₂ := hperm.cons_inv
        have hA12 : (if q₁ then r₁ ++ (oStep env x σ).2 else (oStep env x σ).2 ++ r₁).Perm
            (if q₂ then r₂ ++ (oStep env x σ).2 else (oStep env x σ).2 ++ r₂) :=
          hA1.trans ((hr.append_right _).trans hA2.symm)
        exact ih _ hm₁ q₁ q₂ f₁' f₂' _ _ _ τ₁ τ₂ hwx henv hinvx hA12 (le_refl _) h1 h2
      · -- distinct heads: a diamond through the common two-step state
        have hyr1 : y ∈ r₁ := by
          have hym : y ∈ x :: r₁ := hperm.symm.subset (List.mem_cons_self y r₂)
          rcases List.mem_cons.mp hym with h | h
          · exact absurd h (Ne.symm hxy)
          · exact h
        have hxr2 : x ∈ r₂ := by
          have hxm : x ∈ y :: r₂ := hperm.subset (List.mem_cons_self x r₁)
          rcases List.mem_cons.mp hxm with h | h
          · exact absurd h hxy
          · exact h
        have hinv₂ : InvD σ.nodes (y :: r₂) := InvD_perm _ hperm hinv
        have hwy : WfStat rank R (oStep env y σ).1.nodes :=
          WfStat_step env rank R y σ.nodes hwf
        have hsy := InvD_step env rank R σ.nodes y r₂ hwf henv hinv₂
        have hinvy : InvD (oStep env y σ).1.nodes
            (if q₂ then r₂ ++ (oStep env y σ).2 else (oStep env y σ).2 ++ r₂) :=
          InvD_perm _ hA2.symm hsy
        have hm₂ : listWeight R (oStep env y σ).1.nodes
            (if q₂ then r₂ ++ (oStep env y σ).2 else (oStep env y σ).2 ++ r₂) < n := by
          have hlt := measure_lt env rank R y r₂ _ σ.nodes hwf hA2
          have heq : listWeight R (oStep env y σ).1.nodes
              (if q₂ then r₂ ++ (oStep env y σ).2 else (oStep env y σ).2 ++ r₂) =
              listWeight R (oStepParts env y σ.nodes).1
              (if q₂ then r₂ ++ (oStep env y σ).2 else (oStep env y σ).2 ++ r₂) := rfl
          have hpe : listWeight R σ.nodes (y :: r₂) = listWeight R σ.nodes (x :: r₁) :=
            listWeight_perm R σ.nodes hperm.symm
          omega
        -- the two constructed runs, pulling the other head forward
        have hyA1 : y ∈ (if q₁ then r₁ ++ (oStep env x σ).2
            else (oStep env x σ).2 ++ r₁) :=
          hA1.symm.subset (List.mem_append.mpr (Or.inl hyr1))
        have hxA2 : x ∈ (if q₂ then r₂ ++ (oStep env y σ).2
            else (oStep env y σ).2 ++ r₂) :=
          hA2.symm.subset (List.mem_append.mpr (Or.inl hxr2))
        have hA1e := List.perm_cons_erase hyA1
        have hA2e := List.perm_cons_erase hxA2
        obtain ⟨τ', hτ'⟩ := oRun_total env rank R
          (listWeight R (oStep env x σ).1.nodes
            (y :: (if q₁ then r₁ ++ (oStep env x σ).2
              else (oStep env x σ).2 ++ r₁).erase y))
          (y :: (if q₁ then r₁ ++ (oStep env x σ).2
            else (oStep env x σ).2 ++ r₁).erase y)
          (oStep env x σ).1 q₂ hwx (le_refl _)
        obtain ⟨τ'', hτ''⟩ := oRun_total env rank R
          (listWeight R (oStep env y σ).1.nodes
            (x :: (if q₂ then r₂ ++ (oStep env y σ).2
              else (oStep env y σ).2 ++ r₂).erase x))
          (x :: (if q₂ then r₂ ++ (oStep env y σ).2
            else (oStep env y σ).2 ++ r₂).erase x)
          (oStep env y σ).1 q₂ hwy (le_refl _)
        have ih₁ : τ₁ = τ' :=
          ih _ hm₁ q₁ q₂ f₁' _ _ _ _ τ₁ τ' hwx henv hinvx hA1e (le_refl _) h1 hτ'
        have ih₂ : τ₂ = τ'' :=
          ih _ hm₂ q₂ q₂ f₂' _ _ _ _ τ₂ τ'' hwy henv hinvy hA2e (le_refl _) h2 hτ''
        -- unfold one step of each constructed run
        have hf' : 1 ≤ listWeight R (oStep env x σ).1.nodes
            (y :: (if q₁ then r₁ ++ (oStep env x σ).2
              else (oStep env x σ).2 ++ r₁).erase y) := by
          rw [listWeight_cons]
          have hW : 1 ≤ nodeWeight R (oStep env x σ).1.nodes y :=
            Wb_pos (oStep env x σ).1.nodes R y
          omega
        have hf'' : 1 ≤ listWeight R (oStep env y σ).1.nodes
            (x :: (if q₂ then r₂ ++ (oStep env y σ).2
              else (oStep env y σ).2 ++ r₂).erase x) := by
          rw [listWeight_cons]
          have hW : 1 ≤ nodeWeight R (oStep env y σ).1.nodes x :=
            Wb_pos (oStep env y σ).1.nodes R x
          omega
        obtain ⟨fc, hfc⟩ : ∃ fc, listWeight R (oStep env x σ).1.nodes
            (y :: (if q₁ then r₁ ++ (oStep env x σ).2
              else (oStep env x σ).2 ++ r₁).erase y) = fc + 1 :=
          ⟨listWeight R (oStep env x σ).1.nodes
            (y :: (if q₁ then r₁ ++ (oStep env x σ).2
              else (oStep env x σ).2 ++ r₁).erase y) - 1, by omega⟩
        obtain ⟨fd, hfd⟩ : ∃ fd, listWeight R (oStep env y σ).1.nodes
            (x :: (if q₂ then r₂ ++ (oStep env y σ).2
              else (oStep env y σ).2 ++ r₂).erase x) = fd + 1 :=
          ⟨listWeight R (oStep env y σ).1.nodes
            (x :: (if q₂ then r₂ ++ (oStep env y σ).2
              else (oStep env y σ).2 ++ r₂).erase x) - 1, by omega⟩
        rw [hfc, oRun_cons] at hτ'
        rw [hfd, oRun_cons] at hτ''
        -- the diamond: both continuations start from the same state
        obtain ⟨hc1, hc2, hc3⟩ := oStep_comm env rank R σ (x :: r₁) x y hxy hwf henv
          hinv (List.mem_cons_self x r₁) (List.mem_cons_of_mem x hyr1)
        rw [← hc1] at hτ''
        -- invariants and measure at the common state
        have hwxy : WfStat rank R (oStep env y (oStep env x σ).1).1.nodes :=
          WfStat_step env rank R y (oStep env x σ).1.nodes hwx
        have hinvx' : InvD (oStep env x σ).1.nodes
            (y :: (if q₁ then r₁ ++ (oStep env x σ).2
              else (oStep env x σ).2 ++ r₁).erase y) := InvD_perm _ hA1e hinvx
        have hsy' := InvD_step env rank R (oStep env x σ).1.nodes y
          ((if q₁ then r₁ ++ (oStep env x σ).2
            else (oStep env x σ).2 ++ r₁).erase y) hwx henv hinvx'
        have hB1 : (if q₂ then (if q₁ then r₁ ++ (oStep env x σ).2
              else (oStep env x σ).2 ++ r₁).erase y ++ (oStep env y (oStep env x σ).1).2
            else (oStep env y (oStep env x σ).1).2 ++ (if q₁ then r₁ ++ (oStep env x σ).2
              else (oStep env x σ).2 ++ r₁).erase y).Perm
            ((if q₁ then r₁ ++ (oStep env x σ).2
              else (oStep env x σ).2 ++ r₁).erase y ++
              (oStep env y (oStep env x σ).1).2) := by
          cases q₂
          · rw [if_neg (by simp)]
            exact List.perm_append_comm
          · rw [if_pos rfl]
        have hinvxy : InvD (oStep env y (oStep env x σ).1).1.nodes
            (if q₂ then (if q₁ then r₁ ++ (oStep env x σ).2
              else (oStep env x σ).2 ++ r₁).erase y ++ (oStep env y (oStep env x σ).1).2
            else (oStep env y (oStep env x σ).1).2 ++ (if q₁ then r₁ ++ (oStep env x σ).2
              else (oStep env x σ).2 ++ r₁).erase y) := InvD_perm _ hB1.symm hsy'
        have hmB : listWeight R (oStep env y (oStep env x σ).1).1.nodes
            (if q₂ then (if q₁ then r₁ ++ (oStep env x σ).2
              else (oStep env x σ).2 ++ r₁).erase y ++ (oStep env y (oStep env x σ).1).2
            else (oStep env y (oStep env x σ).1).2 ++ (if q₁ then r₁ ++ (oStep env x σ).2
              else (oStep env x σ).2 ++ r₁).erase y) < n := by
          have hlt := measure_lt env rank R y
            ((if q₁ then r₁ ++ (oStep env x σ).2
              else (oStep env x σ).2 ++ r₁).erase y) _ (oStep env x σ).1.nodes hwx hB1
          have heq : listWeight R (oStep env y (oStep env x σ).1).1.nodes
              (if q₂ then (if q₁ then r₁ ++ (oStep env x σ).2
                else (oStep env x σ).2 ++ r₁).erase y ++ (oStep env y (oStep env x σ).1).2
              else (oStep env y (oStep env x σ).1).2 ++ (if q₁ then r₁ ++ (oStep env x σ).2
                else (oStep env x σ).2 ++ r₁).erase y) =
              listWeight R (oStepParts env y (oStep env x σ).1.nodes).1
              (if q₂ then (if q₁ then r₁ ++ (oStep env x σ).2
                else (oStep env x σ).2 ++ r₁).erase y ++ (oStep env y (oStep env x σ).1).2
              else (oStep env y (oStep env x σ).1).2 ++ (if q₁ then r₁ ++ (oStep env x σ).2
                else (oStep env x σ).2 ++ r₁).erase y) := rfl
          have hpe : listWeight R (oStep env x σ).1.nodes
              (y :: (if q₁ then r₁ ++ (oStep env x σ).2
                else (oStep env x σ).2 ++ r₁).erase y) =
              listWeight R (oStep env x σ).1.nodes
              (if q₁ then r₁ ++ (oStep env x σ).2 else (oStep env x σ).2 ++ r₁) :=
            listWeight_perm R _ hA1e.symm
          omega
        -- the two continuation worklists are permutations of each other
        have hre : (r₁.erase y).Perm (r₂.erase x) := by
          have e1 := (List.perm_cons_erase hyr1).cons x
          have e2 := (List.perm_cons_erase hxr2).cons y
          have e4 := (e1.symm.trans hperm).trans e2
          have e5 := e4.trans (List.Perm.swap x y (r₂.erase x))
          exact e5.cons_inv.cons_inv
        have hBperm : (if q₂ then (if q₁ then r₁ ++ (oStep env x σ).2
              else (oStep env x σ).2 ++ r₁).erase y ++ (oStep env y (oStep env x σ).1).2
            else (oStep env y (oStep env x σ).1).2 ++ (if q₁ then r₁ ++ (oStep env x σ).2
              else (oStep env x σ).2 ++ r₁).erase y).Perm
            (if q₂ then (if q₂ then r₂ ++ (oStep env y σ).2
              else (oStep env y σ).2 ++ r₂).erase x ++ (oStep env x (oStep env y σ).1).2
            else (oStep env x (oStep env y σ).1).2 ++ (if q₂ then r₂ ++ (oStep env y σ).2
              else (oStep env y σ).2 ++ r₂).erase x) := by
          have hB2 : (if q₂ then (if q₂ then r₂ ++ (oStep env y σ).2
                else (oStep env y σ).2 ++ r₂).erase x ++ (oStep env x (oStep env y σ).1).2
              else (oStep env x (oStep env y σ).1).2 ++ (if q₂ then r₂ ++ (oStep env y σ).2
                else (oStep env y σ).2 ++ r₂).erase x).Perm
              ((if q₂ then r₂ ++ (oStep env y σ).2
                else (oStep env y σ).2 ++ r₂).erase x ++ (oStep env x (oStep env y σ).1).2) := by
            cases q₂
            · rw [if_neg (by simp)]
              exact List.perm_append_comm
            · rw [if_pos rfl]
          have he1 : ((if q₁ then r₁ ++ (oStep env x σ).2
              else (oStep env x σ).2 ++ r₁).erase y).Perm
              (r₁.erase y ++ (oStep env x σ).2) := by
            have := hA1.erase y
            rw [List.erase_append_left _ hyr1] at this
            exact this
          have he2 : ((if q₂ then r₂ ++ (oStep env y σ).2
              else (oStep env y σ).2 ++ r₂).erase x).Perm
              (r₂.erase x ++ (oStep env y σ).2) := by
            have := hA2.erase x
            rw [List.erase_append_left _ hxr2] at this
            exact this
          refine hB1.trans (.trans ?_ hB2.symm)
          rw [hc3, hc2]
          refine (he1.append_right _).trans (.trans ?_ (he2.append_right _).symm)
          rw [List.append_assoc, List.append_assoc]
          exact hre.append List.perm_append_comm
        have ih₃ : τ' = τ'' :=
          ih _ hmB q₂ q₂ fc fd _ _ _ τ' τ'' hwxy henv hinvxy hBperm (le_refl _) hτ' hτ''
        rw [ih₁, ih₂, ih₃]

/-- C3 (amended): for every built graph satisfying the structural
well-formedness of the constructors (`WfStat`: distinct ids, acyclicity via
a rank bound, registered parents, shape facts), every deterministic judge
stub honoring the verdict schemas (`WfEnv`), and a root worklist satisfying
the counter accounting (`InvD`), the sequential strategy (`_execute`) and
the parallel strategy (`_a_execute`, FIFO over `asyncio.gather`) reach the
same observable state: the same node heap (counters, outputs, verdicts) and
the same multiset of depth-erased verbose-log blocks.  The final
`metric.score`, `metric.reason`, the log order and the recorded depths are
NOT preserved (see `C3_counterexample`): they are last-writer-wins under the
traversal order. -/
theorem C3_amended (env : Env) (rank : Nat → Nat) (R : Nat) (s0 : ExecState)
    (root d₁ d₂ f₁ f₂ : Nat) (s₁ s₂ : ExecState)
    (hwf : WfStat rank R s0.nodes) (henv : WfEnv env)
    (hinv : InvD s0.nodes [root])
    (hseq : seqExec env f₁ root d₁ s0 = .ok s₁)
    (hpar : parExec env f₂ [(root, d₂)] s0 = .ok s₂) :
    piState s₁ = piState s₂ := by
  obtain ⟨f', hf'⟩ := ((seqExec_bridge env f₁).1) root d₁ s0 s₁ hseq []
    (piState s₁) 0 (oRun_nil env false 0 (piState s₁))
  have hparRun := parExec_bridge env f₂ [(root, d₂)] s0 s₂ hpar
  have hmap : ([(root, d₂)].map (fun c : Nat × Nat => c.1)) = [root] := rfl
  rw [hmap] at hparRun
  exact oRun_perm env rank R (listWeight R (piState s0).nodes [root]) false true
    f' f₂ [root] [root] (piState s0) (piState s₁) (piState s₂) hwf henv hinv
    (List.Perm.refl _) (le_refl _) hf' hparRun

instance (kv : Nat × NodeObj) : Decidable (shapeClause kv) := by
  unfold shapeClause
  infer_instance

instance (rank : Nat → Nat) (R : Nat) (nodes : NodeList) :
    Decidable (WfStat rank R nodes) := by
  unfold WfStat
  infer_instance

instance (nodes : NodeList) (L : List Nat) : Decidable (InvD nodes L) := by
  unfold InvD
  infer_instance

/-- Rank function witnessing the acyclicity of the counterexample graph. -/
def ceRank : Nat → Nat := fun n => [0, 2, 2, 1, 3, 3, 2, 1].getD n 0

def ceSeqFinal : ExecState :=
  match seqExec ceEnv 20 0 0 (initState ceNodes) with
  | .ok s => s
  | .error _ => initState ceNodes

def ceParFinal : ExecState :=
  match parExec ceEnv 20 [(0, 0)] (initState ceNodes) with
  | .ok s => s
  | .error _ => initState ceNodes

theorem C3_amended_witness :
    WfStat ceRank 4 (initState ceNodes).nodes ∧ WfEnv ceEnv ∧
    InvD (initState ceNodes).nodes [0] ∧
    seqExec ceEnv 20 0 0 (initState ceNodes) = .ok ceSeqFinal ∧
    parExec ceEnv 20 [(0, 0)] (initState ceNodes) = .ok ceParFinal ∧
    piState ceSeqFinal = piState ceParFinal :=
  have h1 : WfStat ceRank 4 (initState ceNodes).nodes := by decide
  have h2 : WfEnv ceEnv :=
    ⟨fun p => ⟨true, "because", 1, rfl⟩,
     fun p opts => ⟨opts.headD "", "because", 1, rfl⟩⟩
  have h3 : InvD (initState ceNodes).nodes [0] := by decide
  have h4 : seqExec ceEnv 20 0 0 (initState ceNodes) = .ok ceSeqFinal := rfl
  have h5 : parExec ceEnv 20 [(0, 0)] (initState ceNodes) = .ok ceParFinal := rfl
  ⟨h1, h2, h3, h4, h5,
   C3_amended ceEnv ceRank 4 (initState ceNodes) 0 0 0 20 20 ceSeqFinal ceParFinal
     h1 h2 h3 h4 h5⟩

end DagNodes
